import Mathlib

/-!
A shallow embedding of `velopyraptor`'s `raptor.py` (the Raptor R10 precode
construction and decoding-schedule solver), together with theorems checking
the natural-language specification against the code.

Modelling conventions:
* Python `bitarray` rows are `List Bool`; matrices are lists of rows.
* Python exceptions are an explicit error type threaded through `Except`.
  List indexing is checked (`lget` / `lset`), matching Python's `IndexError`
  semantics for the non-negative indices used by this code.
* Unbounded `while` loops are given fuel; exhausting the fuel returns the
  distinguished error `nonTermination`, which models a diverging Python loop.
* The external `distributions` modules (PRNG tables, degree table, Gray
  sequence, systematic index, prime and half tables), the `matrix` helpers,
  and `schedule.Schedule` are not part of this repository's source tree and
  are modelled from the specification's interface descriptions.
-/

namespace Raptor

/-- The Python exceptions that the embedded code can raise.
`paramErr` is `RaptorR10ParameterException`, `scheduleErr` is
`RaptorR10DecodingScheduleException` (carrying the specific message);
the remaining constructors model Python built-in exceptions. -/
inductive PyErr where
  | paramErr (msg : String)
  | scheduleErr (msg : String)
  | typeErr
  | nameErr
  | indexErr
  | keyErr
  | valueErr
  | nonTermination
  deriving Repr, DecidableEq

/-- A symbol payload: numpy word arrays are modelled at bit granularity. -/
abbrev Payload := List Bool

/-- A bitarray row of the binary matrix A. -/
abbrev Row := List Bool

/-- Matrix A: an ordered list of bitarray rows. -/
abbrev Mat := List Row

/-- Checked list read, modelling Python `xs[i]` (IndexError when out of
bounds; the embedded code never uses negative indices). -/
def lget {α : Type} (xs : List α) (i : Nat) : Except PyErr α :=
  match xs[i]? with
  | some v => .ok v
  | none => .error .indexErr

/-- Checked list write, modelling Python `xs[i] = v`. -/
def lset {α : Type} (xs : List α) (i : Nat) (v : α) : Except PyErr (List α) :=
  if i < xs.length then .ok (xs.set i v) else .error .indexErr

/-- `bitarray.count()`: the number of ones in a row. -/
def bcount (row : List Bool) : Nat := row.count true

/-- Python slice `xs[i:j]` (truncating, non-negative indices). -/
def pyslice {α : Type} (xs : List α) (i j : Nat) : List α :=
  (xs.take j).drop i

/-- Entry of a matrix for use in specifications (out-of-range reads give
`false`; the theorems only use it in range). -/
def entry (a : Mat) (r c : Nat) : Bool := (a.getD r []).getD c false

/-- `RaptorR10.xor_arrays`: `numpy.bitwise_xor(source, target, target)`
writes `source XOR target` into `target`; the returned list is the new value
of the target buffer. -/
def xor_arrays (source target : Payload) : Payload :=
  List.zipWith xor source target

/-- Modelled from the spec: the external numeric tables consumed by the core
(section 6), which live outside this repository's source tree.  `V0`/`V1` are
the R10 PRNG tables, `deg` the R10 degree-distribution table
(`distributions.degree.R10`), `graySeq` the Gray sequence
(`distributions.gray.SEQUENCE`), `sysIdx` the systematic-index table,
`optEsi` the optimal-ESI lookup (`optimal_esi.get_esi`), and
`primesT` / `halfT` the prime- and half-table lookups
(`primes.next` / `half.next`), which may return nothing when the table is
exhausted. -/
structure Tables where
  V0 : Nat → Nat
  V1 : Nat → Nat
  deg : Nat → Nat
  graySeq : Nat → Nat → Nat
  sysIdx : Nat → Nat
  optEsi : Nat → Nat → Nat
  primesT : Nat → Option Nat
  halfT : Nat → Option Nat

def MIN_K : Nat := 4

def MAX_K : Nat := 8192

/-- Modelled from the spec: `R10(Y, i, m)` is
`(V0[(Y + i) % 256] XOR V1[(floor(Y/256) + i) % 256]) % m` (section 6). -/
def randomR10 (T : Tables) (y i m : Nat) : Nat :=
  (Nat.xor (T.V0 ((y + i) % 256)) (T.V1 ((y / 256 + i) % 256))) % m

/-- Modelled from the spec: `distributions.degree.R10`, the degree table
mapping `v` in `[0, 2^20)` to a degree. -/
def degreeR10 (T : Tables) (v : Nat) : Nat := T.deg v

/-- The state of a `RaptorR10` instance (the attributes set by `__init__`,
`set_params` and `calculate_i_symbols`).  `l_prime` is an `Option` because
`primes.next` can return `None`, which `set_params` stores without checking.
`xors` records `len(schedule.xors)` after decoding. -/
structure RaptorR10 where
  k : Nat := 0
  x : Nat := 0
  s : Nat := 0
  h : Nat := 0
  h_prime : Nat := 0
  l : Nat := 0
  l_prime : Option Nat := none
  systematic_index : Nat := 0
  use_prepass : Bool := true
  use_optimal_esis : Bool := false
  current_id : Nat := 0
  symbols : List (Nat × Payload) := []
  i_symbols : List (Option Payload) := []
  xors : Nat := 0
  deriving Repr, DecidableEq

/-- Bounded upward search used for the X parameter. -/
def deriveXGo (k : Nat) : Nat → Nat → Nat
  | 0, x => x
  | fuel + 1, x => if 2 * k ≤ x * (x - 1) then x else deriveXGo k fuel (x + 1)

/-- The X parameter: the source computes
`ceil((1 + sqrt(1 - 4*(-2k))) / 2)` with float64 arithmetic.  For every
k ≤ 8192 the float result equals the exact real ceiling (the real root is
either an exact integer, when 1+8k is an odd perfect square, or at distance
at least 1/(2*sqrt(1+8k)) from any integer, far above the rounding error),
and that ceiling is the smallest positive integer X with X*(X-1) >= 2*K;
the bounded search below returns exactly that integer (X = 2k+2 always
satisfies the bound, so the fuel suffices). -/
def deriveX (k : Nat) : Nat := deriveXGo k (2 * k + 2) 1

/-- `RaptorR10.set_params`.  Note two faithful details: `ceil(0.01*k)` in
float64 equals `ceil(k/100)` for all k ≤ 8192, and the failed H-search
branch constructs `RaptorR10ParameterException` without `raise`, so
execution falls through to `ceil(self.h / 2.0)` where `self.h = None`
raises `TypeError`. -/
def set_params (T : Tables) (self : RaptorR10) (k : Nat) : Except PyErr RaptorR10 := do
  let self := { self with k := k }
  if self.k < MIN_K ∨ self.k > MAX_K then
    throw (.paramErr ("k: " ++ toString self.k ++ " -- k must be between " ++
      toString MIN_K ++ " and " ++ toString MAX_K))
  let self := { self with x := deriveX self.k }
  let sLookup := T.primesT ((self.k + 99) / 100 + self.x)
  let sv ← (match sLookup with
    | none => throw (PyErr.paramErr ("s: -- No s found for k: " ++ toString self.k ++
        " and x: " ++ toString self.x))
    | some 0 => throw (PyErr.paramErr ("s: -- No s found for k: " ++ toString self.k ++
        " and x: " ++ toString self.x))
    | some sv => pure sv)
  let self := { self with s := sv }
  let hLookup := T.halfT (self.k + self.s)
  let hv ← (match hLookup with
    | none =>
        -- `RaptorR10ParameterException(...)` is evaluated and discarded (no
        -- `raise`); the next line computes ceil(None / 2.0): TypeError.
        throw PyErr.typeErr
    | some hv => pure hv)
  let self := { self with h := hv }
  let self := { self with h_prime := (self.h + 1) / 2 }
  let self := { self with l := self.k + self.s + self.h }
  let self := { self with l_prime := T.primesT self.l }
  let self := { self with systematic_index := T.sysIdx self.k }
  pure self

/-- `RaptorR10.triple`: the (d, a, b) triple for an encoding symbol id.
If `self.l_prime` is `None` (a falsy `primes.next` result stored by
`set_params`), `self.l_prime - 1` raises `TypeError`. -/
def triple (T : Tables) (self : RaptorR10) (id : Nat) : Except PyErr (Nat × Nat × Nat) := do
  let q := 65521
  let A := (53591 + self.systematic_index * 997) % q
  let B := 10267 * (self.systematic_index + 1) % q
  let Y := (B + id * A) % q
  let v := randomR10 T Y 0 1048576
  let d := degreeR10 T v
  match self.l_prime with
  | none => throw .typeErr
  | some lp =>
      let a := 1 + randomR10 T Y 1 (lp - 1)
      let b := randomR10 T Y 2 lp
      pure (d, a, b)

/-- The `while b >= l: b = (b + a) % l_prime` loop from `ltenc` / `lt_row`,
with fuel; `nonTermination` models a diverging loop.  Lemmas show that fuel
`l_prime` suffices whenever `l_prime` is a prime >= max(l, 1) and
`0 < a < l_prime`. -/
def skipHigh (l l_prime a : Nat) : Nat → Nat → Except PyErr Nat
  | 0, _ => throw .nonTermination
  | fuel + 1, b => if l ≤ b then skipHigh l l_prime a fuel ((b + a) % l_prime) else pure b

/-- The columns marked after the first one: for `j` from 1 to
`min(d, l) - 1`, advance `b` once and skip values `>= l`. -/
def ltColsAux (l l_prime a : Nat) : Nat → Nat → Except PyErr (List Nat)
  | 0, _ => pure []
  | j + 1, b => do
      let b1 ← skipHigh l l_prime a l_prime ((b + a) % l_prime)
      let rest ← ltColsAux l l_prime a j b1
      pure (b1 :: rest)

/-- The full ordered sequence of columns referenced by the LT encoding for a
triple `(d, a, b)`: the source marks the first (skipped) `b`, then
`min(d, l) - 1` further columns. -/
def ltCols (l l_prime d a b : Nat) : Except PyErr (List Nat) := do
  let b0 ← skipHigh l l_prime a l_prime b
  let rest ← ltColsAux l l_prime a (min d l - 1) b0
  pure (b0 :: rest)

/-- `RaptorR10.lt_row`: the length-l bit row whose set bits are exactly the
columns marked by the LT column walk (every marked column is < l, so the
`bitarray` writes are in bounds). -/
def lt_row (T : Tables) (self : RaptorR10) (esi : Nat) : Except PyErr Row := do
  let t ← triple T self esi
  match self.l_prime with
  | none => throw .typeErr
  | some lp => do
      let cols ← ltCols self.l lp t.1 t.2.1 t.2.2
      pure ((List.range self.l).map (fun c => cols.contains c))

/-- `RaptorR10.ltenc`: XOR of the intermediate symbols at the columns of the
LT column walk, into a freshly allocated buffer
(`numpy.array(..., copy=True)`).  A `None` intermediate symbol makes the
XOR raise `TypeError`. -/
def ltenc (T : Tables) (self : RaptorR10) (id : Nat) : Except PyErr Payload := do
  let t ← triple T self id
  match self.l_prime with
  | none => throw .typeErr
  | some lp => do
      let b0 ← skipHigh self.l lp t.2.1 lp t.2.2
      let first ← lget self.i_symbols b0
      let firstP ← (match first with
        | none => throw PyErr.typeErr
        | some p => pure p)
      let rest ← ltColsAux self.l lp t.2.1 (min t.1 self.l - 1) b0
      rest.foldlM (fun result c => do
          let p ← lget self.i_symbols c
          match p with
          | none => throw PyErr.typeErr
          | some pv => pure (xor_arrays pv result)) firstP

/-- `RaptorR10._get_next_id`: returns the next ESI and increments
`current_id`. -/
def get_next_id (T : Tables) (self : RaptorR10) : RaptorR10 × Nat :=
  let r := if self.use_optimal_esis then T.optEsi self.k self.current_id
           else self.current_id
  ({ self with current_id := self.current_id + 1 }, r)

/-- `RaptorR10.next`: the next encoded symbol (the state is threaded
explicitly; `ltenc` itself reads but never assigns instance attributes). -/
def nextSymbol (T : Tables) (self : RaptorR10) :
    RaptorR10 × (Nat × Except PyErr Payload) :=
  let p := get_next_id T self
  (p.1, (p.2, ltenc T p.1 p.2))

/-- In-bounds matrix entry write used by the LDPC builder (all its writes
are in bounds). -/
def setEntry (m : Mat) (r c : Nat) (v : Bool) : Mat :=
  match m[r]? with
  | some row => m.set r (row.set c v)
  | none => m

/-- `RaptorR10.ldpc`.  `int(1 + (floor(i / float(s)) % (s - 1)))` equals
`1 + (i / s) % (s - 1)` in exact arithmetic (float64 division is exact
enough below 8192 for the floor to be the integer quotient). -/
def ldpc (k s : Nat) : Mat :=
  let m0 : Mat := List.replicate s (List.replicate k false)
  (List.range k).foldl (fun m i =>
    let a := 1 + (i / s) % (s - 1)
    let b := i % s
    let m := setEntry m b i true
    let b := (b + a) % s
    let m := setEntry m b i true
    let b := (b + a) % s
    setEntry m b i true) m0

/-- Modelled from the spec: `matrix.identity` (the `matrix` module is not in
the source tree; the spec specifies an S-by-S identity block). -/
def matIdentity (n : Nat) : Mat :=
  (List.range n).map (fun i => (List.range n).map (fun j => decide (i = j)))

/-- Modelled from the spec: `matrix.zeros`. -/
def matZeros (r c : Nat) : Mat :=
  List.replicate r (List.replicate c false)

/-- `RaptorR10.half`: the HDPC (half) matrix built from the Gray sequence;
`check_nth_bit(h, number)` is `Nat.testBit number h`. -/
def halfMatrix (T : Tables) (k S H H_HALF : Nat) : Mat :=
  (List.range H).map (fun h1 =>
    (List.range (k + S)).map (fun j => Nat.testBit (T.graySeq H_HALF j) h1))

/-- `RaptorR10.ldpc_section`: `ldpc[i] + identity[i] + zero[i]`. -/
def ldpc_section (self : RaptorR10) : Mat :=
  let l0 := ldpc self.k self.s
  let idm := matIdentity self.s
  let z := matZeros self.s self.h
  (List.range self.s).map (fun i => l0.getD i [] ++ idm.getD i [] ++ z.getD i [])

/-- `RaptorR10.hdpc_section`: `half[i] + identity[i]`. -/
def hdpc_section (T : Tables) (self : RaptorR10) : Mat :=
  let hm := halfMatrix T self.k self.s self.h self.h_prime
  let idm := matIdentity self.h
  (List.range self.h).map (fun i => hm.getD i [] ++ idm.getD i [])

/-- `RaptorR10.lt_section`: one LT row per received symbol, in insertion
order. -/
def lt_section (T : Tables) (self : RaptorR10) : Except PyErr Mat :=
  self.symbols.mapM (fun idp => lt_row T self idp.1)

/-- `RaptorR10.a`: LDPC section, then HDPC section, then LT section. -/
def a_matrix (T : Tables) (self : RaptorR10) : Except PyErr Mat := do
  let lt ← lt_section T self
  pure (ldpc_section self ++ hdpc_section T self ++ lt)

/-- Modelled from the spec: `schedule.Schedule` (not in the source tree).
Per sections 3 and 4.7 it records an ordered list of row XORs as
`(source_row, target_row)` pairs, resolved through the current row
permutation into original payload-buffer indices (only XORs are replayed on
payload buffers, so recorded indices must be original ones), plus the row
and column permutations accumulated from swaps.  `row_perm`/`col_perm` map
a current position to the original row / intermediate-symbol index; the
spec's `d` and `c` vectors are their restrictions to `[0, L)`. -/
structure Schedule where
  xors : List (Nat × Nat)
  row_perm : Nat → Nat
  col_perm : Nat → Nat

/-- `Schedule(l, m)`: empty log, identity permutations. -/
def Schedule.init (_l _m : Nat) : Schedule := ⟨[], id, id⟩

/-- Transpose the values of `f` at positions `i` and `j`. -/
def swapFun (f : Nat → Nat) (i j : Nat) : Nat → Nat :=
  fun x => if x = i then f j else if x = j then f i else f x

/-- Record `target <- target XOR source` (called as `xor(r1, r2)` with `r1`
the target row, matching `RaptorR10.xor_row`). -/
def Schedule.xor (sch : Schedule) (r1 r2 : Nat) : Schedule :=
  { sch with xors := sch.xors ++ [(sch.row_perm r2, sch.row_perm r1)] }

/-- Record a row exchange. -/
def Schedule.exchange_row (sch : Schedule) (r1 r2 : Nat) : Schedule :=
  { sch with row_perm := swapFun sch.row_perm r1 r2 }

/-- Record a column exchange. -/
def Schedule.exchange_column (sch : Schedule) (c1 c2 : Nat) : Schedule :=
  { sch with col_perm := swapFun sch.col_perm c1 c2 }

/-- The final column-to-intermediate-symbol map `c`. -/
def Schedule.c (sch : Schedule) (i : Nat) : Nat := sch.col_perm i

/-- The final row-to-payload-buffer map `d`. -/
def Schedule.d (sch : Schedule) (i : Nat) : Nat := sch.row_perm i

/-- The mutable state of `decoding_schedule`: the matrix, the original row
degrees, and the schedule being recorded. -/
structure SolveState where
  a : Mat
  o_degrees : List Nat
  sched : Schedule

/-- `RaptorR10.xor_row`: XOR row `r2` into row `r1` and record it. -/
def xor_row (st : SolveState) (r1 r2 : Nat) : Except PyErr SolveState := do
  let row1 ← lget st.a r1
  let row2 ← lget st.a r2
  let a1 ← lset st.a r1 (List.zipWith xor row1 row2)
  pure { st with a := a1, sched := st.sched.xor r1 r2 }

/-- `RaptorR10.exchange_column`: swap columns `c1` and `c2` in every row and
record it. -/
def exchange_column (st : SolveState) (c1 c2 : Nat) : Except PyErr SolveState := do
  let a1 ← st.a.mapM (fun row => do
      let t1 ← lget row c1
      let t2 ← lget row c2
      let row1 ← lset row c1 t2
      lset row1 c2 t1)
  pure { st with a := a1, sched := st.sched.exchange_column c1 c2 }

/-- `RaptorR10.exchange_row`: swap rows `r1` and `r2` of the matrix and of
`o_degrees`, and record it. -/
def exchange_row (st : SolveState) (r1 r2 : Nat) : Except PyErr SolveState := do
  let t1 ← lget st.a r1
  let t2 ← lget st.a r2
  let a1 ← lset st.a r1 t2
  let a2 ← lset a1 r2 t1
  let d1 ← lget st.o_degrees r1
  let d2 ← lget st.o_degrees r2
  let od1 ← lset st.o_degrees r1 d2
  let od2 ← lset od1 r2 d1
  pure { st with a := a2, o_degrees := od2, sched := st.sched.exchange_row r1 r2 }

/-- `RaptorR10.rows_with_min_r`: the minimum positive count of ones of a row
of `V = A[i..m, i..l-u)` together with the rows attaining it (`None` and an
empty list when every row of V is zero). -/
def rows_with_min_r (a : Mat) (m i u l : Nat) : Except PyErr (Option Nat × List Nat) :=
  (List.range' i (m - i)).foldlM (fun acc row_index => do
      let row ← lget a row_index
      let v_row := pyslice row i (l - u)
      let r := bcount v_row
      if r = 0 then pure acc
      else match acc.1 with
        | none => pure (some r, [row_index])
        | some mr =>
            if r < mr then pure (some r, [row_index])
            else if r = mr then pure (acc.1, acc.2 ++ [row_index])
            else pure acc) ((none : Option Nat), ([] : List Nat))

/-- `RaptorR10.min_degree_row`: among `rows_with_r`, the first row of
strictly smallest original degree (`None` when the list is empty, or when
every original degree is at least `m + 1`). -/
def min_degree_row (o_degrees : List Nat) (m : Nat) (rows_with_r : List Nat) :
    Except PyErr (Option Nat) := do
  let acc ← rows_with_r.foldlM (fun (acc : Nat × Option Nat) r => do
      let dg ← lget o_degrees r
      if dg < acc.1 then pure (dg, some r) else pure acc) (m + 1, (none : Option Nat))
  pure acc.2

/-- One undirected edge of the networkx graph: endpoints and the
`row_index` data. -/
abbrev GEdge := Nat × Nat × Nat

/-- Whether an edge list already joins `v1` and `v2` (networkx graphs are
simple; `add_edge` on an existing pair replaces its data). -/
def hasEdge (es : List GEdge) (v1 v2 : Nat) : Bool :=
  es.any (fun e => (e.1 = v1 ∧ e.2.1 = v2) ∨ (e.1 = v2 ∧ e.2.1 = v1))

/-- `networkx.Graph.add_edge` with `row_index` data. -/
def addEdge (es : List GEdge) (v1 v2 row : Nat) : List GEdge :=
  if hasEdge es v1 v2 then
    es.map (fun e =>
      if (e.1 = v1 ∧ e.2.1 = v2) ∨ (e.1 = v2 ∧ e.2.1 = v1) then (e.1, e.2.1, row) else e)
  else es ++ [(v1, v2, row)]

/-- The graph's nodes in order of first appearance. -/
def graphNodes (es : List GEdge) : List Nat :=
  es.foldl (fun ns e =>
    let ns := if ns.contains e.1 then ns else ns ++ [e.1]
    if ns.contains e.2.1 then ns else ns ++ [e.2.1]) []

/-- Adjacency in the edge list. -/
def adjacent (es : List GEdge) (x y : Nat) : Bool :=
  es.any (fun e => (e.1 = x ∧ e.2.1 = y) ∨ (e.1 = y ∧ e.2.1 = x))

/-- Saturate a set of nodes under adjacency (fuel-bounded breadth-first
closure; fuel `(graphNodes es).length` always suffices). -/
def expandComp (es : List GEdge) : Nat → List Nat → List Nat
  | 0, comp => comp
  | fuel + 1, comp =>
      let newNodes := (graphNodes es).filter
        (fun n => ¬ comp.contains n ∧ comp.any (fun c => adjacent es c n))
      if newNodes.isEmpty then comp else expandComp es fuel (comp ++ newNodes)

/-- The connected component of a node. -/
def componentOf (es : List GEdge) (n : Nat) : List Nat :=
  expandComp es (graphNodes es).length [n]

/-- `networkx.connected_component_subgraphs`, as node lists in order of
first appearance of their first node. -/
def componentsOf (es : List GEdge) : List (List Nat) :=
  ((graphNodes es).foldl (fun (acc : List (List Nat) × List Nat) n =>
     if acc.2.contains n then acc
     else
       let comp := componentOf es n
       (acc.1 ++ [comp], acc.2 ++ comp)) (([] : List (List Nat)), ([] : List Nat))).1

/-- The edge list of the component with the most edges (first such
component wins, mirroring `len(edges) > max_size`); `none` when there are
no components.  networkx 1.x orders components largest-first and its edge
iteration follows dict-slot order, so the modelled first-appearance order
can depart from the library's whenever several components tie for the most
edges or the winning component has several edges; the choice is invisible
when the graph holds a single edge (a unique candidate row), and the C6
counterexample never reaches this code path at all (`r = 2` never
occurs). -/
def maxComponentEdges (es : List GEdge) : Option (List GEdge) :=
  ((componentsOf es).foldl (fun (acc : Option (List GEdge) × Nat) comp =>
      let edges := es.filter (fun e => comp.contains e.1)
      if edges.length > acc.2 then (some edges, edges.length) else acc)
    ((none : Option (List GEdge)), 0)).1

/-- `RaptorR10.row_from_graph`: build the graph whose edges are the
candidate rows (endpoints: the two one-columns of the row inside V), and
return the `row_index` of the first edge of the largest component.
`tuple(vertices)` unpacking raises `ValueError` unless there are exactly
two vertices; `max_component[0]` on `None` raises `TypeError`. -/
def row_from_graph (a : Mat) (_m i u l : Nat) (rows_with_r : List Nat) :
    Except PyErr Nat := do
  let es ← rows_with_r.foldlM (fun es row => do
      let rowv ← lget a row
      let vertices := (List.range' i (l - u - i)).filter (fun vtx => rowv.getD vtx false)
      match vertices with
      | [v1, v2] => pure (addEdge es v1 v2 row)
      | _ => throw PyErr.valueErr) ([] : List GEdge)
  match maxComponentEdges es with
  | none => throw .typeErr
  | some [] => throw .indexErr
  | some (e :: _) => pure e.2.2

/-- The set comprehension collecting the one-columns of row `i` inside
`[i, l - u)`.  CPython 2.7 `set.pop()` takes hash-slot order, which for
these small ints differs from any simple rule once the set has two or
more elements; it is modelled here as ascending order with pop = smallest.
The choice is observable only when a pop hits a set of size at least two,
so conclusions drawn from inputs whose every popped set is a singleton
(for example every Phase I step having `r = 1`, as the C6 counterexample
certifies via `u = 0`) hold for the real interpreter as well. -/
def onesInit (row : Row) (i bound : Nat) : List Nat :=
  (List.range' i (bound - i)).filter (fun c => row.getD c false)

/-- The `while column > i and len(ones) > 0` alignment scan of Phase I:
walk the column pointer down from `l - u - 1`, swapping each zero column
with a remaining one-column (`set.pop()`), or consuming the one already
there (`set.remove`, KeyError when absent).  The pop order is inherited
from `onesInit` (modelled pop-smallest; see the caveat there - pops of
singleton sets, the only ones the C6 counterexample performs, are
order-independent). -/
def align_scan (i : Nat) : Nat → List Nat → SolveState → Except PyErr SolveState
  | 0, _, st => pure st
  | column + 1, ones, st =>
    if i < column + 1 ∧ ones ≠ [] then do
      let rowi ← lget st.a i
      if rowi.getD (column + 1) false = false then
        match ones with
        | [] => throw .keyErr
        | c :: rest => do
            let st1 ← exchange_column st (column + 1) c
            align_scan i column rest st1
      else
        if ones.contains (column + 1) then
          align_scan i column (ones.erase (column + 1)) st
        else throw .keyErr
    else pure st

/-- The `for row in xrange(i + 1, m)` elimination below the pivot in
Phase I. -/
def xor_below (i m : Nat) (st : SolveState) : Except PyErr SolveState :=
  (List.range' (i + 1) (m - (i + 1))).foldlM (fun st row => do
      let rowv ← lget st.a row
      if rowv.getD i false then xor_row st row i else pure st) st

/-- Phase I of `decoding_schedule` (the `while (i + u) < self.l` loop).
The fuel models the unbounded loop; since `i + u` grows by at least one per
iteration, fuel `l + 1` can never be exhausted from `i = u = 0`.
Faithful details: when every row of V is zero, `rows_with_min_r` returns
`None` (not 0), so the `if r == 0` guard is dead code and the `None` row
choice reaches `exchange_row`, where `a[None]` raises `TypeError`. -/
def phase1 (m l : Nat) : Nat → Nat → Nat → SolveState → Except PyErr (SolveState × Nat × Nat)
  | 0, _, _, _ => throw .nonTermination
  | fuel + 1, i, u, st =>
    if i + u < l then do
      let rr ← rows_with_min_r st.a m i u l
      let rowChoice ← (if rr.1 = some 2 then do
            let rw ← row_from_graph st.a m i u l rr.2
            pure (some rw)
          else min_degree_row st.o_degrees m rr.2)
      if rr.1 = some 0 then throw (.scheduleErr "No nonzero row to choose from v")
      else do
        match rowChoice with
        | none => throw .typeErr
        | some rw => do
          let st ← exchange_row st i rw
          let rowi ← lget st.a i
          let ones := onesInit rowi i (l - u)
          let st ← (if rowi.getD i false = false then
                      match ones with
                      | [] => throw PyErr.keyErr
                      | c :: rest => do
                          let st1 ← exchange_column st i c
                          align_scan i (l - u - 1) rest st1
                    else
                      if ones.contains i then align_scan i (l - u - 1) (ones.erase i) st
                      else throw PyErr.keyErr)
          let st ← xor_below i m st
          match rr.1 with
          | some r => phase1 m l fuel (i + 1) (u + (r - 1)) st
          | none => throw .typeErr
    else pure (st, i, u)

/-- The `for row in xrange(column + 1, m) ... break` pivot search of
Phase II (stops reading rows at the first hit, like the Python loop). -/
def findFirstRowAux (a : Mat) (c : Nat) : Nat → Nat → Except PyErr (Option Nat)
  | 0, _ => pure none
  | fuel + 1, lo => do
      let rowv ← lget a lo
      if rowv.getD c false then pure (some lo) else findFirstRowAux a c fuel (lo + 1)

def findFirstRow (a : Mat) (c lo hi : Nat) : Except PyErr (Option Nat) :=
  findFirstRowAux a c (hi - lo) lo

/-- Phase II: Gaussian elimination of U_lower (`for column in
xrange(self.l - u, self.l)`). -/
def phase2 (m l u : Nat) (st : SolveState) : Except PyErr SolveState :=
  (List.range' (l - u) (l - (l - u))).foldlM (fun st column => do
      let rowc ← lget st.a column
      let st ← (if rowc.getD column false = false then do
          let found ← findFirstRow st.a column (column + 1) m
          let st ← (match found with
            | some row => exchange_row st column row
            | none => pure st)
          let rowc2 ← lget st.a column
          if rowc2.getD column false = false then
            throw (PyErr.scheduleErr ("U lower is of less rank than " ++ toString u ++ "."))
          else pure st
        else pure st)
      (List.range' (column + 1) (m - (column + 1))).foldlM (fun st row => do
          let rowv ← lget st.a row
          if rowv.getD column false then xor_row st row column else pure st) st) st

/-- Phase III: clear above the diagonal inside the U block (`for column in
xrange(self.l - 1, self.l - u - 1, -1)`). -/
def phase3 (i l u : Nat) (st : SolveState) : Except PyErr SolveState :=
  ((List.range' (l - u) (l - (l - u))).reverse).foldlM (fun st column =>
    (List.range' i (column - i)).foldlM (fun st row => do
        let rowv ← lget st.a row
        if rowv.getD column false then xor_row st row column else pure st) st) st

/-- Phase IV: clear U_upper in the top `i` rows (after `a = a[:self.l]`,
which shares the row objects with the caller's list, so operating on the
truncated matrix is what the caller observes on the first `l` rows). -/
def phase4 (i l u : Nat) (st : SolveState) : Except PyErr SolveState :=
  (List.range i).foldlM (fun st row =>
    (List.range' (l - u) (l - (l - u))).foldlM (fun st column => do
        let rowv ← lget st.a row
        if rowv.getD column false then xor_row st row column else pure st) st) st

/-- `RaptorR10.prepass`: one pass over row pairs `(i, j)`, `i < j`, XORing
row `i` into row `j` whenever that loses strictly more than two ones. -/
def prepass (st : SolveState) : Except PyErr SolveState :=
  let n := st.a.length
  (List.range n).foldlM (fun st i =>
    (List.range' (i + 1) (n - (i + 1))).foldlM (fun st j => do
        let rowj ← lget st.a j
        let count := bcount rowj
        let rowi ← lget st.a i
        let new_row := List.zipWith xor rowi rowj
        if bcount new_row + 2 < count then xor_row st j i else pure st) st) st

/-- `RaptorR10.decoding_schedule`: reduce A to the identity, recording the
schedule.  Besides the schedule the embedding also returns the final
matrix (the caller-visible first `l` rows after the in-place mutations). -/
def decoding_schedule (self : RaptorR10) (a : Mat) :
    Except PyErr (Schedule × Mat) := do
  let m := self.s + self.h + self.symbols.length
  let sched := Schedule.init self.l (self.s + self.h + self.symbols.length)
  let o_degrees := a.map bcount
  let st : SolveState := ⟨a, o_degrees, sched⟩
  let st ← if self.use_prepass then prepass st else pure st
  let r1 ← phase1 m self.l (self.l + 1) 0 0 st
  let st := r1.1
  let i := r1.2.1
  let u := r1.2.2
  let st ← phase2 m self.l u st
  let st ← phase3 i self.l u st
  let st := { st with a := st.a.take self.l }
  let st ← phase4 i self.l u st
  pure (st.sched, st.a)

/-- `RaptorR10.calculate_d`: `s + h` zero rows of the first symbol's size,
then the received payloads in insertion order. -/
def calculate_d (self : RaptorR10) : Except PyErr (List Payload) := do
  let firstSym ← lget self.symbols 0
  let symbolsize := firstSym.2.length
  let zeros : Payload := List.replicate symbolsize false
  pure (List.replicate (self.s + self.h) zeros ++ self.symbols.map (fun p => p.2))

/-- `RaptorR10.calculate_i_symbols`.  When fewer than `k` symbols are held,
the source raises `RaptorR10DecodingScheduleExceptionException` - a
misspelling of the exception class name that does not exist, so Python
raises `NameError` at that point.  Otherwise: build A, compute the
schedule, replay the XOR log over the payload buffer D, and place the
intermediate symbols through the `c` and `d` maps. -/
def calculate_i_symbols (T : Tables) (self : RaptorR10) : Except PyErr RaptorR10 := do
  if self.symbols.length < self.k then
    throw .nameErr
  else do
    let a ← a_matrix T self
    let sm ← decoding_schedule self a
    let schedule := sm.1
    let D ← calculate_d self
    let xcount := schedule.xors.length
    let D ← schedule.xors.foldlM (fun (D : List Payload) p => do
        let src ← lget D p.1
        let tgt ← lget D p.2
        lset D p.2 (xor_arrays src tgt)) D
    let isym ← (List.range self.l).foldlM (fun (isym : List (Option Payload)) i => do
        let dv ← lget D (schedule.d i)
        lset isym (schedule.c i) (some dv)) (List.replicate self.l (none : Option Payload))
    pure { self with i_symbols := isym, xors := xcount }

/-- `RaptorR10.can_decode`: attempt the full schedule construction on a
freshly built matrix inside `try: ... except: pass`, returning whether it
succeeded (the bare `except` swallows every exception). -/
def can_decode (T : Tables) (self : RaptorR10) : Bool :=
  match (do
    let a ← a_matrix T self
    decoding_schedule self a : Except PyErr (Schedule × Mat)) with
  | .ok _ => true
  | .error _ => false

/-- Kernel-friendly trial-division primality test used by the canonical
prime-table model. -/
def isPrime (n : Nat) : Bool :=
  decide (2 ≤ n) && (List.range' 2 (n - 2)).all (fun d => n % d != 0)

/-- Modelled from the spec: the canonical behaviour of `primes.next` - the
smallest prime `>= x` (the table is finite; by Bertrand's postulate the
bounded search below finds the next prime for every `x >= 1`). -/
def primesNext (x : Nat) : Option Nat :=
  ((List.range (2 * x + 6)).filter (fun p => decide (x ≤ p) && isPrime p)).head?

/-- Modelled from the spec: the canonical behaviour of `half.next` - the
smallest `H` with `choose(H, ceil(H/2)) >= target` (found within the bound
since `choose(target + 2, ...) >= target`). -/
def halfNext (target : Nat) : Option Nat :=
  ((List.range (target + 3)).filter
    (fun h1 => decide (target ≤ Nat.choose h1 ((h1 + 1) / 2)))).head?

/-- `RaptorR10.__init__`: derive the parameters and initialise the flags,
counter and symbol list. -/
def init (T : Tables) (k : Nat) (use_prepass : Bool := true)
    (use_optimal_esis : Bool := false) : Except PyErr RaptorR10 := do
  let self ← set_params T {} k
  pure { self with use_prepass := use_prepass, use_optimal_esis := use_optimal_esis,
                   current_id := 0, symbols := [] }

/-! Concrete table instantiations and instances used to witness the
theorems below.  The numeric tables are external frozen data (section 6);
any instantiation satisfying the interface exercises the core. -/

/-- A concrete instantiation of the external tables: pseudo-random PRNG
tables, a degree table with range `[1, 4] ⊆ [1, 40]`, and the canonical
prime/half searches. -/
def demoTables : Tables :=
  ⟨fun i => (i * 7919 + 104729) % 4294967296,
   fun i => (i * 15485863 + 32452843) % 4294967296,
   fun v => (v % 4) + 1,
   fun _ j => j,
   fun k => k + 1,
   fun _ i => i,
   primesNext,
   halfNext⟩

/-- `demoTables` with an exhausted half table (`half.next` returns
`None`). -/
def halfFailTables : Tables :=
  { demoTables with halfT := fun _ => none }

/-- A bare instance (no parameter derivation needed) whose assembled
matrix region is all zeros: `s = h = 0`, two received symbols, `l = 2`. -/
def zeroVSelf : RaptorR10 :=
  { k := 2, s := 0, h := 0, l := 2,
    symbols := [(0, [false]), (1, [false])], use_prepass := false }

/-- An instance holding nine symbols while `k = 10` (spec scenario 4). -/
def nineSymbolSelf : RaptorR10 :=
  { k := 10,
    symbols := (List.range 9).map (fun i => (i, ([false] : Payload))) }

/-- The parameters derived for `k = 4` over `demoTables`
(`x = 4, s = 5, h = 5, l = 14, l_prime = 17`). -/
def demoSelf4 : RaptorR10 :=
  match set_params demoTables {} 4 with
  | .ok s => s
  | .error _ => {}

/-- The arithmetic progression underlying the LT column walk: the value of
`b` after `t` single advances `b <- (b + a) % l_prime` from start `b0`
(with `b0 < l_prime`). -/
def walk (b0 a lp t : Nat) : Nat := (b0 + t * a) % lp

/-- The number of accepted walk indices (values `< l`) up to and including
step `t`. -/
def acceptedCnt (b0 a lp l t : Nat) : Nat :=
  ((Finset.range (t + 1)).filter (fun j => walk b0 a lp j < l)).card

/-- The columns marked in a produced LT row: positions of its set bits. -/
def ltMarked (row : Row) : List Nat :=
  (List.range row.length).filter (fun c => row.getD c false)

/-- XOR of a list of payloads of common width `W`. -/
def xorFold (W : Nat) (ps : List Payload) : Payload :=
  ps.foldl (fun acc p => xor_arrays p acc) (List.replicate W false)

/-- A `k = 4` instance with fully materialised intermediate symbols of
width 1 (used to witness the LT encoding theorem). -/
def demoIsymSelf : RaptorR10 :=
  { demoSelf4 with
    i_symbols := (List.range 14).map (fun c => some [decide (c % 2 = 0)]) }

/-- A consistent `k = 4` reception over `demoTables`: four source payloads
of width 1 at the ESIs 0..3. -/
def c6wSelf : RaptorR10 :=
  { demoSelf4 with symbols := [(0, [true]), (1, [false]), (2, [true]), (3, [true])] }

/-- The unique intermediate block solving the assembled system of
`c6wSelf` (the system is square, `M = L = 14`, and invertible). -/
def c6wI : List Payload :=
  [[false], [false], [true], [false], [false], [false], [true], [true],
   [true], [true], [true], [false], [true], [false]]

/-- The assembled matrix of `c6wSelf`. -/
def c6wA : Mat := (a_matrix demoTables c6wSelf).toOption.getD []

/-- The payload buffer of `c6wSelf`. -/
def c6wD : List Payload := (calculate_d c6wSelf).toOption.getD []

/-- An inconsistent reception (no intermediate block satisfies all 17
rows) on which the schedule construction nevertheless succeeds both with
and without the prepass.  It is chosen so that every Phase I iteration of
both runs picks a row with exactly one 1 in V (certified below by Phase I
exiting with `u = 0`, since `u` accumulates `r - 1`): then the `ones` set
of each alignment is a singleton, `row_from_graph` (the only
networkx-dependent path, taken only when `r = 2`) is never reached, and
every remaining choice in the source iterates lists or `xrange` in
CPython's defined order - so every real execution follows this exact
trace, whatever `set.pop` returns on larger sets. -/
def c6divSelf : RaptorR10 :=
  { demoSelf4 with symbols := [(11, [false]), (0, [true]), (21, [false]),
    (10, [false]), (16, [false]), (9, [false]), (2, [false])] }

/-- The intermediate block `c6wI` materialised for re-encoding. -/
def c1encSelf : RaptorR10 := { demoSelf4 with i_symbols := c6wI.map some }

/-- A reception of four genuine LT encodings of `c6wI` at the distinct
ESIs 0, 1, 4 and 5 (`N = K = 4`). -/
def c1divSelf : RaptorR10 :=
  { demoSelf4 with symbols := [(0, [true]), (1, [false]), (4, [false]), (5, [true])] }

/-- Dimension well-formedness of the solver state. -/
def Dims (st : SolveState) (m l : Nat) : Prop :=
  st.a.length = m ∧ (∀ row ∈ st.a, row.length = l) ∧ st.o_degrees.length = m

/-- Rows `[0, i)` carry the identity pattern on the columns left of the
U block (`c < l - u`). -/
def TopIdent (a : Mat) (i u l : Nat) : Prop :=
  ∀ j, j < i → (entry a j j = true ∧ ∀ c, c < l - u → c ≠ j → entry a j c = false)

/-- Rows `[i, m)` are zero on the columns `[0, i)`. -/
def LowZero (a : Mat) (i m : Nat) : Prop :=
  ∀ rr, i ≤ rr → rr < m → ∀ c, c < i → entry a rr c = false

/-- Column `c` is reduced: unit diagonal and zeros below it (rows up to `m`). -/
def ColCleared (a : Mat) (c m : Nat) : Prop :=
  entry a c c = true ∧ ∀ rr, c < rr → rr < m → entry a rr c = false

/-- Interpret a bit as an element of `GF(2)`. -/
def bval (b : Bool) : ZMod 2 := if b then 1 else 0

/-- One recorded XOR `(source, target)` acting on a replay-coefficient
matrix: the target buffer absorbs the source buffer. -/
def coefStep (f : Nat → Nat → Bool) (p : Nat × Nat) : Nat → Nat → Bool :=
  fun t q => if t = p.2 then xor (f t q) (f p.1 q) else f t q

/-- Coefficient of the original payload buffer `q` in the replayed buffer
`t` after applying the recorded XOR log. -/
def replayCoef (xors : List (Nat × Nat)) : Nat → Nat → Bool :=
  xors.foldl coefStep (fun t q => decide (t = q))

/-- One successful primitive mutation of the solver state. -/
inductive SolveStep : SolveState → SolveState → Prop where
  | xr : ∀ st st1 r1 r2, xor_row st r1 r2 = .ok st1 → SolveStep st st1
  | er : ∀ st st1 r1 r2, exchange_row st r1 r2 = .ok st1 → SolveStep st st1
  | ec : ∀ st st1 c1 c2, exchange_column st c1 c2 = .ok st1 → SolveStep st st1

/-- Reachability by primitive mutations. -/
inductive SolveReach : SolveState → SolveState → Prop where
  | refl : ∀ st, SolveReach st st
  | tail : ∀ st1 st2 st3, SolveReach st1 st2 → SolveStep st2 st3 → SolveReach st1 st3

/-- The combined solver invariant: dimensions, schedule sanity, and the
GF(2) replay relation between current entries and the original matrix. -/
def Good (a0 : Mat) (m l : Nat) (st : SolveState) : Prop :=
  Dims st m l ∧
  Function.Injective st.sched.row_perm ∧
  Function.Injective st.sched.col_perm ∧
  (∀ r, r < m → st.sched.row_perm r < m) ∧
  (∀ c, c < l → st.sched.col_perm c < l) ∧
  (∀ p ∈ st.sched.xors, p.1 < m ∧ p.2 < m) ∧
  (∀ r c, bval (entry st.a r c) =
    ∑ q ∈ Finset.range m,
      bval (replayCoef st.sched.xors (st.sched.row_perm r) q) *
        bval (entry a0 q (st.sched.col_perm c)))

/-- One successful `xor_row` (Phase IV acts on the truncated matrix using
only row XORs). -/
inductive XorStep : SolveState → SolveState → Prop where
  | xr : ∀ st st1 r1 r2, xor_row st r1 r2 = .ok st1 → XorStep st st1

inductive XorReach : SolveState → SolveState → Prop where
  | refl : ∀ st, XorReach st st
  | tail : ∀ st1 st2 st3, XorReach st1 st2 → XorStep st2 st3 → XorReach st1 st3

/-- The solver invariant after the matrix truncation `a = a[:l]`: the
replay relation survives on the first `l` rows. -/
def Good2 (a0 : Mat) (m l : Nat) (st : SolveState) : Prop :=
  st.a.length = l ∧ (∀ row ∈ st.a, row.length = l) ∧
  Function.Injective st.sched.row_perm ∧
  Function.Injective st.sched.col_perm ∧
  (∀ r, r < m → st.sched.row_perm r < m) ∧
  (∀ c, c < l → st.sched.col_perm c < l) ∧
  (∀ p ∈ st.sched.xors, p.1 < m ∧ p.2 < m) ∧
  (∀ r c, r < l → bval (entry st.a r c) =
    ∑ q ∈ Finset.range m,
      bval (replayCoef st.sched.xors (st.sched.row_perm r) q) *
        bval (entry a0 q (st.sched.col_perm c)))

/-!  ## Theorems  -/

theorem except_ok_bind {α β : Type} (a : α) (f : α → Except PyErr β) :
    (Except.ok a >>= f) = f a := rfl

theorem except_pure {α : Type} (a : α) : (pure a : Except PyErr α) = Except.ok a := rfl

theorem except_error_bind {α β : Type} (e : PyErr) (f : α → Except PyErr β) :
    ((Except.error e : Except PyErr α) >>= f) = Except.error e := rfl

theorem foldlM_ok_of_fix {α σ : Type} (f : σ → α → Except PyErr σ) (s : σ) :
    ∀ xs : List α, (∀ x ∈ xs, f s x = .ok s) → xs.foldlM f s = .ok s := by
  intro xs
  induction xs with
  | nil => intro _; rfl
  | cons x xs ih =>
      intro h
      have hx := h x (by simp)
      simp only [List.foldlM_cons, hx, except_ok_bind]
      exact ih (fun y hy => h y (by simp [hy]))

theorem bcount_pyslice_le (row : Row) (i j : Nat) :
    bcount (pyslice row i j) ≤ bcount row := by
  unfold bcount pyslice
  calc ((row.take j).drop i).count true ≤ (row.take j).count true :=
        (List.drop_sublist _ _).count_le _
    _ ≤ row.count true := (List.take_sublist _ _).count_le _

theorem rows_with_min_r_all_zero (a : Mat) (m i u l : Nat) (hm : m ≤ a.length)
    (hz : ∀ row ∈ a, bcount row = 0) :
    rows_with_min_r a m i u l = .ok (none, []) := by
  unfold rows_with_min_r
  apply foldlM_ok_of_fix
  intro x hx
  have hxm : x < m := by
    have := List.mem_range'.mp hx
    omega
  have hxa : x < a.length := lt_of_lt_of_le hxm hm
  have hget : a[x]? = some a[x] := List.getElem?_eq_getElem hxa
  have hmem : a[x] ∈ a := List.getElem_mem hxa
  have hzz : bcount a[x] = 0 := hz _ hmem
  have hslice : bcount (pyslice a[x] i (l - u)) = 0 :=
    Nat.le_zero.mp (hzz ▸ bcount_pyslice_le a[x] i (l - u))
  simp [lget, hget, hslice, except_ok_bind, except_pure]

theorem prepass_all_zero (st : SolveState) (hz : ∀ row ∈ st.a, bcount row = 0) :
    prepass st = .ok st := by
  unfold prepass
  apply foldlM_ok_of_fix
  intro i hi
  apply foldlM_ok_of_fix
  intro j hj
  have hja : j < st.a.length := by
    have := List.mem_range'.mp hj
    have hi' := List.mem_range.mp hi
    omega
  have hia : i < st.a.length := by
    have := List.mem_range.mp hi
    omega
  have hgj : st.a[j]? = some st.a[j] := List.getElem?_eq_getElem hja
  have hgi : st.a[i]? = some st.a[i] := List.getElem?_eq_getElem hia
  have hcj : bcount st.a[j] = 0 := hz _ (List.getElem_mem hja)
  simp [lget, hgj, hgi, hcj, except_ok_bind, except_pure]

theorem min_degree_row_nil (od : List Nat) (m : Nat) :
    min_degree_row od m [] = .ok none := rfl

theorem phase1_all_zero (m l fuel i u : Nat) (st : SolveState)
    (h : i + u < l) (hm : m ≤ st.a.length)
    (hz : ∀ row ∈ st.a, bcount row = 0) :
    phase1 m l (fuel + 1) i u st = .error PyErr.typeErr := by
  unfold phase1
  rw [if_pos h]
  rw [rows_with_min_r_all_zero st.a m i u l hm hz]
  simp only [except_ok_bind, min_degree_row_nil]
  rfl

/-- C3: when, with `i + u < L`, every row of the live submatrix V has zero
popcount, the solver does not raise
`DecodingScheduleError("No nonzero row to choose from v")`: the guard
`if r == 0` can never fire because `rows_with_min_r` reports `None` (not 0)
in that case, and the `None` row choice reaches `exchange_row`, where
indexing with `None` raises `TypeError`.  Stated for a matrix that is
entirely zero, so V is all-zero at the very first iteration. -/
theorem C3_all_zero_V_raises_TypeError (self : RaptorR10) (a : Mat)
    (hl : 0 < self.l)
    (hm : a.length = self.s + self.h + self.symbols.length)
    (hz : ∀ row ∈ a, bcount row = 0) :
    decoding_schedule self a = .error PyErr.typeErr := by
  unfold decoding_schedule
  have hp1 := phase1_all_zero (self.s + self.h + self.symbols.length) self.l self.l 0 0
    ⟨a, a.map bcount, Schedule.init self.l (self.s + self.h + self.symbols.length)⟩
    (by omega) (by simp [hm]) hz
  cases hup : self.use_prepass with
  | true =>
      simp only [hup, if_true, eq_self_iff_true]
      rw [prepass_all_zero _ hz]
      simp only [except_ok_bind, hp1, except_error_bind]
  | false =>
      simp only [hup, Bool.false_eq_true, if_false]
      simp only [except_pure, except_ok_bind, hp1, except_error_bind]

/-- C3 witness: the concrete all-zero 2-by-2 instance. -/
theorem C3_witness :
    0 < zeroVSelf.l ∧
    decoding_schedule zeroVSelf [[false, false], [false, false]] =
      .error PyErr.typeErr :=
  ⟨by decide,
   C3_all_zero_V_raises_TypeError zeroVSelf [[false, false], [false, false]]
     (by decide) (by decide) (by decide)⟩

/-- C4: `calculate_i_symbols` on an instance holding fewer than `k` symbols
raises `NameError` - not `RaptorR10DecodingScheduleException` - because the
raise statement misspells the exception class
(`RaptorR10DecodingScheduleExceptionException`), a name that does not
exist. -/
theorem C4_insufficient_symbols_raises_NameError (T : Tables) (self : RaptorR10)
    (h : self.symbols.length < self.k) :
    calculate_i_symbols T self = .error PyErr.nameErr := by
  unfold calculate_i_symbols
  rw [if_pos h]
  rfl

/-- C4 witness: `k = 10` with only nine received symbols (spec
scenario 4). -/
theorem C4_witness :
    nineSymbolSelf.symbols.length < nineSymbolSelf.k ∧
    calculate_i_symbols demoTables nineSymbolSelf = .error PyErr.nameErr :=
  ⟨by decide,
   C4_insufficient_symbols_raises_NameError demoTables nineSymbolSelf (by decide)⟩

/-- C5: `can_decode` attempts the full schedule construction (building a
fresh matrix A and running `decoding_schedule` on it) inside a bare
`try/except`, so it is a total Boolean function that returns `true` exactly
when that construction succeeds and `false` on any exception. -/
theorem C5_can_decode_iff_construction_succeeds (T : Tables) (self : RaptorR10) :
    can_decode T self =
      (do
        let a ← a_matrix T self
        decoding_schedule self a : Except PyErr (Schedule × Mat)).isOk := by
  unfold can_decode
  cases h : (do
      let a ← a_matrix T self
      decoding_schedule self a : Except PyErr (Schedule × Mat)) with
  | ok v => simp [Except.isOk, Except.toBool]
  | error e => simp [Except.isOk, Except.toBool]

/-- C8: under the section-6 interface for the consumed tables (`R10`
reduced mod `m`; the degree table mapping `[0, 2^20)` into `[1, 40]`),
`triple(id)` returns `(d, a, b)` with `a` in `[1, L'-1]`, `b` in
`[0, L'-1]` and `d` in `[1, 40]`, for every id. -/
theorem C8_triple_ranges (T : Tables) (self : RaptorR10) (id lp : Nat)
    (hlp : self.l_prime = some lp) (h2 : 2 ≤ lp)
    (hdeg : ∀ v, v < 1048576 → 1 ≤ T.deg v ∧ T.deg v ≤ 40) :
    ∃ d a b, triple T self id = .ok (d, a, b) ∧
      1 ≤ a ∧ a ≤ lp - 1 ∧ b < lp ∧ 1 ≤ d ∧ d ≤ 40 := by
  unfold triple
  rw [hlp]
  refine ⟨_, _, _, rfl, ?_, ?_, ?_, ?_, ?_⟩
  · exact Nat.le_add_right 1 _
  · have : randomR10 T ((10267 * (self.systematic_index + 1) % 65521 +
        id * ((53591 + self.systematic_index * 997) % 65521)) % 65521) 1 (lp - 1) <
        lp - 1 := Nat.mod_lt _ (by omega)
    omega
  · exact Nat.mod_lt _ (by omega)
  · exact (hdeg _ (Nat.mod_lt _ (by norm_num))).1
  · exact (hdeg _ (Nat.mod_lt _ (by norm_num))).2

/-- C8 witness: the derived `k = 4` instance over `demoTables`
(`L' = 17`). -/
theorem C8_witness :
    demoSelf4.l_prime = some 17 ∧
    (∃ d a b, triple demoTables demoSelf4 10 = .ok (d, a, b) ∧
      1 ≤ a ∧ a ≤ 17 - 1 ∧ b < 17 ∧ 1 ≤ d ∧ d ≤ 40) :=
  ⟨by decide,
   C8_triple_ranges demoTables demoSelf4 10 17 (by decide) (by decide)
     (fun v _ => ⟨Nat.le_add_left 1 _, by
        show v % 4 + 1 ≤ 40
        have : v % 4 < 4 := Nat.mod_lt v (by norm_num)
        omega⟩)⟩

/-- C9: when the half-table lookup for H returns nothing, `set_params` does
not raise `ParameterError`: the `RaptorR10ParameterException` is
constructed but never raised (missing `raise`), so execution continues and
`ceil(self.h / 2.0)` with `self.h = None` raises `TypeError`. -/
theorem C9_h_search_failure_raises_TypeError (T : Tables) (self : RaptorR10)
    (k sv : Nat)
    (hk : ¬ (k < MIN_K ∨ k > MAX_K))
    (hs : T.primesT ((k + 99) / 100 + deriveX k) = some sv) (hsv : sv ≠ 0)
    (hh : T.halfT (k + sv) = none) :
    set_params T self k = .error PyErr.typeErr := by
  unfold set_params
  rw [if_neg hk]
  dsimp only
  rw [hs]
  cases sv with
  | zero => exact absurd rfl hsv
  | succ n =>
      simp only [except_pure, except_ok_bind]
      rw [hh]
      rfl

/-- C9 witness: `k = 4` with an exhausted half table. -/
theorem C9_witness :
    halfFailTables.halfT (4 + 5) = none ∧
    set_params halfFailTables {} 4 = .error PyErr.typeErr :=
  ⟨rfl,
   C9_h_search_failure_raises_TypeError halfFailTables {} 4 5 (by decide)
     (by decide) (by decide) rfl⟩

/-- C10: producing an encoding symbol is frame-safe - `next` increments
only `current_id`, and in particular every intermediate symbol in
`i_symbols` is unchanged (`ltenc` XORs into a freshly allocated output
buffer, `numpy.array(..., copy=True)`, and `xor_arrays` writes only into
that buffer). -/
theorem C10_next_preserves_i_symbols (T : Tables) (self : RaptorR10) :
    (nextSymbol T self).1.i_symbols = self.i_symbols ∧
    (nextSymbol T self).1 = { self with current_id := self.current_id + 1 } :=
  ⟨rfl, rfl⟩

/-!  ### The LT column walk (claim C7)  -/

theorem walk_lt (b0 a lp t : Nat) (hlp : 0 < lp) : walk b0 a lp t < lp :=
  Nat.mod_lt _ hlp

theorem walk_zero (b0 a lp : Nat) (hb : b0 < lp) : walk b0 a lp 0 = b0 := by
  unfold walk
  simp [Nat.mod_eq_of_lt hb]

theorem walk_succ (b0 a lp t : Nat) :
    (walk b0 a lp t + a) % lp = walk b0 a lp (t + 1) := by
  unfold walk
  rw [Nat.mod_add_mod]
  have h1 : b0 + t * a + a = b0 + (t + 1) * a := by ring
  rw [h1]

theorem walk_period (b0 a lp t : Nat) :
    walk b0 a lp (t + lp) = walk b0 a lp t := by
  unfold walk
  have h1 : b0 + (t + lp) * a = b0 + t * a + a * lp := by ring
  rw [h1, Nat.add_mul_mod_self_right]

theorem walk_inj (b0 a lp : Nat) (hpr : lp.Prime) (ha : 0 < a) (halp : a < lp)
    (t1 t2 : Nat) (hle : t1 ≤ t2) (hwin : t2 - t1 < lp)
    (heq : walk b0 a lp t1 = walk b0 a lp t2) : t1 = t2 := by
  have hmod : b0 + t1 * a ≡ b0 + t2 * a [MOD lp] := heq
  have hmul : t1 * a ≡ t2 * a [MOD lp] := Nat.ModEq.add_left_cancel' b0 hmod
  have hco : Nat.gcd lp a = 1 :=
    (Nat.Prime.coprime_iff_not_dvd hpr).mpr
      (fun hdvd => absurd (Nat.le_of_dvd ha hdvd) (by omega))
  have ht : t1 ≡ t2 [MOD lp] := Nat.ModEq.cancel_right_of_coprime hco hmul
  have hdvd : lp ∣ t2 - t1 := (Nat.modEq_iff_dvd' hle).mp ht
  have := Nat.eq_zero_of_dvd_of_lt hdvd
  omega

theorem walk_hits_zero (b0 a lp : Nat) (hpr : lp.Prime) (ha : 0 < a) (halp : a < lp)
    (t : Nat) : ∃ j, j < lp ∧ walk b0 a lp (t + j) = 0 := by
  haveI : Fact lp.Prime := ⟨hpr⟩
  haveI : NeZero lp := ⟨hpr.ne_zero⟩
  set z : ZMod lp := (-((b0 : ZMod lp) + (t : ZMod lp) * (a : ZMod lp))) * (a : ZMod lp)⁻¹ with hz
  refine ⟨z.val, ZMod.val_lt z, ?_⟩
  have hlp0 : 0 < lp := hpr.pos
  unfold walk
  have hdvd : lp ∣ b0 + (t + z.val) * a := by
    rw [← ZMod.natCast_zmod_eq_zero_iff_dvd]
    push_cast
    rw [ZMod.natCast_zmod_val]
    have hane : (a : ZMod lp) ≠ 0 := by
      rw [Ne, ZMod.natCast_zmod_eq_zero_iff_dvd]
      exact fun hdvd => absurd (Nat.le_of_dvd ha hdvd) (by omega)
    rw [hz]
    field_simp
  obtain ⟨c, hc⟩ := hdvd
  rw [hc]
  exact Nat.mul_mod_right lp c

theorem skipHigh_spec (b0 a lp l : Nat) :
    ∀ fuel t, (∃ j, j < fuel ∧ walk b0 a lp (t + j) < l) →
    ∃ jm, jm < fuel ∧ walk b0 a lp (t + jm) < l ∧
      (∀ j', j' < jm → ¬ walk b0 a lp (t + j') < l) ∧
      skipHigh l lp a fuel (walk b0 a lp t) = .ok (walk b0 a lp (t + jm)) := by
  intro fuel
  induction fuel with
  | zero => intro t h; exact absurd h.choose_spec.1 (by omega)
  | succ fuel ih =>
      intro t h
      by_cases hlt : walk b0 a lp t < l
      · refine ⟨0, by omega, by simpa using hlt, by omega, ?_⟩
        unfold skipHigh
        rw [if_neg (by omega)]
        rfl
      · obtain ⟨j, hj, hPj⟩ := h
        have hj0 : j ≠ 0 := by
          intro h0
          rw [h0] at hPj
          simp at hPj
          exact hlt hPj
        have hex' : ∃ j', j' < fuel ∧ walk b0 a lp (t + 1 + j') < l := by
          refine ⟨j - 1, by omega, ?_⟩
          have : t + 1 + (j - 1) = t + j := by omega
          rw [this]
          exact hPj
        obtain ⟨jm, hjm, hPjm, hmin, heq⟩ := ih (t + 1) hex'
        refine ⟨jm + 1, by omega, ?_, ?_, ?_⟩
        · have : t + (jm + 1) = t + 1 + jm := by omega
          rw [this]
          exact hPjm
        · intro j' hj'
          cases j' with
          | zero => simpa using hlt
          | succ j'' =>
              have hj'' : j'' < jm := by omega
              have : t + (j'' + 1) = t + 1 + j'' := by omega
              rw [this]
              exact hmin j'' hj''
        · unfold skipHigh
          rw [if_pos (by omega)]
          rw [walk_succ]
          have : t + (jm + 1) = t + 1 + jm := by omega
          rw [this]
          exact heq

theorem walk_injOn_Ico (b0 a lp : Nat) (hpr : lp.Prime) (ha : 0 < a) (halp : a < lp)
    (T : Nat) : Set.InjOn (walk b0 a lp) (Finset.Ico T (T + lp)) := by
  intro t1 h1 t2 h2 heq
  simp only [Finset.coe_Ico, Set.mem_Ico] at h1 h2
  rcases Nat.le_total t1 t2 with hle | hle
  · exact walk_inj b0 a lp hpr ha halp t1 t2 hle (by omega) heq
  · exact (walk_inj b0 a lp hpr ha halp t2 t1 hle (by omega) heq.symm).symm

theorem walk_window_count (b0 a lp l : Nat) (hpr : lp.Prime) (ha : 0 < a)
    (halp : a < lp) (hllp : l ≤ lp) (T : Nat) :
    ((Finset.Ico T (T + lp)).filter (fun j => walk b0 a lp j < l)).card = l := by
  have hlp0 : 0 < lp := hpr.pos
  have hinj := walk_injOn_Ico b0 a lp hpr ha halp T
  have himg : (Finset.Ico T (T + lp)).image (walk b0 a lp) = Finset.range lp := by
    apply Finset.eq_of_subset_of_card_le
    · intro y hy
      obtain ⟨j, _, hj⟩ := Finset.mem_image.mp hy
      rw [← hj]
      exact Finset.mem_range.mpr (walk_lt b0 a lp j hlp0)
    · rw [Finset.card_image_of_injOn hinj]
      simp
  have hfilterimg :
      ((Finset.Ico T (T + lp)).filter (fun j => walk b0 a lp j < l)).image (walk b0 a lp) =
        ((Finset.Ico T (T + lp)).image (walk b0 a lp)).filter (fun y => y < l) := by
    rw [Finset.filter_image]
  have hinj2 : Set.InjOn (walk b0 a lp)
      ((Finset.Ico T (T + lp)).filter (fun j => walk b0 a lp j < l)) := by
    intro x hx y hy hxy
    exact hinj (Finset.mem_coe.mpr (Finset.mem_of_mem_filter _ (Finset.mem_coe.mp hx)))
      (Finset.mem_coe.mpr (Finset.mem_of_mem_filter _ (Finset.mem_coe.mp hy))) hxy
  calc ((Finset.Ico T (T + lp)).filter (fun j => walk b0 a lp j < l)).card
      = (((Finset.Ico T (T + lp)).filter (fun j => walk b0 a lp j < l)).image
          (walk b0 a lp)).card := (Finset.card_image_of_injOn hinj2).symm
    _ = (((Finset.Ico T (T + lp)).image (walk b0 a lp)).filter (fun y => y < l)).card := by
          rw [hfilterimg]
    _ = ((Finset.range lp).filter (fun y => y < l)).card := by rw [himg]
    _ = (Finset.range l).card := by
          congr 1
          ext y
          simp only [Finset.mem_filter, Finset.mem_range]
          omega
    _ = l := Finset.card_range l

theorem acceptedCnt_succ_gap (b0 a lp l t t1 : Nat) (ht : t < t1)
    (hacc : walk b0 a lp t1 < l)
    (hgap : ∀ j, t < j → j < t1 → ¬ walk b0 a lp j < l) :
    acceptedCnt b0 a lp l t1 = acceptedCnt b0 a lp l t + 1 := by
  unfold acceptedCnt
  have hsplit : Finset.range (t1 + 1) = Finset.range (t + 1) ∪ Finset.Ico (t + 1) (t1 + 1) := by
    rw [Finset.range_eq_Ico, Finset.Ico_union_Ico_eq_Ico (by omega) (by omega)]
  rw [hsplit, Finset.filter_union, Finset.card_union_of_disjoint]
  · congr 1
    have : (Finset.Ico (t + 1) (t1 + 1)).filter (fun j => walk b0 a lp j < l) = {t1} := by
      ext j
      simp only [Finset.mem_filter, Finset.mem_Ico, Finset.mem_singleton]
      constructor
      · rintro ⟨⟨hj1, hj2⟩, hPj⟩
        by_contra hne
        exact hgap j (by omega) (by omega) hPj
      · rintro rfl
        exact ⟨⟨by omega, by omega⟩, hacc⟩
    rw [this]
    rfl
  · apply Finset.disjoint_filter_filter
    rw [Finset.range_eq_Ico]
    exact Finset.Ico_disjoint_Ico_consecutive 0 (t + 1) (t1 + 1)

theorem acceptedCnt_full (b0 a lp l t0 t : Nat) (hpr : lp.Prime) (ha : 0 < a)
    (halp : a < lp) (hllp : l ≤ lp) (ht0 : walk b0 a lp t0 < l)
    (h : t0 + lp ≤ t) : l + 1 ≤ acceptedCnt b0 a lp l t := by
  unfold acceptedCnt
  have hsub : Finset.Ico t0 (t0 + lp + 1) ⊆ Finset.range (t + 1) := by
    intro j hj
    simp only [Finset.mem_Ico] at hj
    exact Finset.mem_range.mpr (by omega)
  have hmono := Finset.card_le_card
    (Finset.filter_subset_filter (fun j => walk b0 a lp j < l) hsub)
  have hins : Finset.Ico t0 (t0 + lp + 1) = insert (t0 + lp) (Finset.Ico t0 (t0 + lp)) :=
    Nat.Ico_succ_right_eq_insert_Ico (by omega)
  have hPend : walk b0 a lp (t0 + lp) < l := by
    rw [walk_period]
    exact ht0
  have hnotmem : t0 + lp ∉ Finset.Ico t0 (t0 + lp) := by
    simp
  have hcard : ((Finset.Ico t0 (t0 + lp + 1)).filter (fun j => walk b0 a lp j < l)).card =
      ((Finset.Ico t0 (t0 + lp)).filter (fun j => walk b0 a lp j < l)).card + 1 := by
    rw [hins, Finset.filter_insert, if_pos hPend,
      Finset.card_insert_of_not_mem (fun hmem => hnotmem (Finset.mem_of_mem_filter _ hmem))]
  rw [hcard, walk_window_count b0 a lp l hpr ha halp hllp t0] at hmono
  exact hmono

theorem acceptedCnt_min (b0 a lp l t0 : Nat) (ht0 : walk b0 a lp t0 < l)
    (hmin : ∀ j, j < t0 → ¬ walk b0 a lp j < l) :
    acceptedCnt b0 a lp l t0 = 1 := by
  unfold acceptedCnt
  have : (Finset.range (t0 + 1)).filter (fun j => walk b0 a lp j < l) = {t0} := by
    ext j
    simp only [Finset.mem_filter, Finset.mem_range, Finset.mem_singleton]
    constructor
    · rintro ⟨hj, hPj⟩
      by_contra hne
      exact hmin j (by omega) hPj
    · rintro rfl
      exact ⟨by omega, ht0⟩
  rw [this]
  rfl

theorem ltColsAux_spec (b0 a lp l : Nat) (hpr : lp.Prime) (ha : 0 < a)
    (halp : a < lp) (hl : 0 < l) (hllp : l ≤ lp) (t0 : Nat)
    (ht0 : walk b0 a lp t0 < l) :
    ∀ n t, walk b0 a lp t < l → t0 ≤ t → t < t0 + lp →
      acceptedCnt b0 a lp l t + n ≤ l →
      ∃ ts : List Nat, ltColsAux l lp a n (walk b0 a lp t) = .ok (ts.map (walk b0 a lp))
        ∧ ts.length = n ∧ List.Chain' (· < ·) (t :: ts)
        ∧ (∀ x ∈ ts, x < t0 + lp ∧ walk b0 a lp x < l) := by
  intro n
  induction n with
  | zero =>
      intro t _ _ _ _
      exact ⟨[], rfl, rfl, List.chain'_singleton t, by simp⟩
  | succ n ih =>
      intro t hPt ht0t htwin hbudget
      have hlp0 : 0 < lp := hpr.pos
      -- the advance lands on walk (t + 1); the skip finds the next accepted index
      obtain ⟨j0, hj0, hz0⟩ := walk_hits_zero b0 a lp hpr ha halp (t + 1)
      have hex : ∃ j, j < lp ∧ walk b0 a lp (t + 1 + j) < l := ⟨j0, hj0, by omega⟩
      obtain ⟨jm, hjm, hPjm, hmin, heq⟩ := skipHigh_spec b0 a lp l lp (t + 1) hex
      set t1 := t + 1 + jm with ht1def
      have htt1 : t < t1 := by omega
      have hgap : ∀ j, t < j → j < t1 → ¬ walk b0 a lp j < l := by
        intro j hj1 hj2
        have hidx : j - (t + 1) < jm := by omega
        have : t + 1 + (j - (t + 1)) = j := by omega
        rw [← this]
        exact hmin _ hidx
      have hcnt : acceptedCnt b0 a lp l t1 = acceptedCnt b0 a lp l t + 1 :=
        acceptedCnt_succ_gap b0 a lp l t t1 htt1 hPjm hgap
      have ht1win : t1 < t0 + lp := by
        by_contra hcon
        have hfull := acceptedCnt_full b0 a lp l t0 t1 hpr ha halp hllp ht0 (by omega)
        omega
      obtain ⟨ts, hts, htslen, htschain, htsmem⟩ :=
        ih t1 hPjm (by omega) ht1win (by omega)
      refine ⟨t1 :: ts, ?_, by simp [htslen], ?_, ?_⟩
      · unfold ltColsAux
        rw [walk_succ, heq]
        simp only [except_ok_bind, hts, except_pure]
        rfl
      · exact List.chain'_cons.mpr ⟨htt1, htschain⟩
      · intro x hx
        rcases List.mem_cons.mp hx with rfl | hx'
        · exact ⟨ht1win, hPjm⟩
        · exact htsmem x hx'

theorem ltCols_split_spec (b0 a lp l d : Nat) (hpr : lp.Prime) (ha : 0 < a)
    (halp : a < lp) (hl : 0 < l) (hllp : l ≤ lp) (hb : b0 < lp) (hd : 0 < d) :
    ∃ (c0 : Nat) (rest : List Nat),
      skipHigh l lp a lp b0 = .ok c0 ∧
      ltColsAux l lp a (min d l - 1) c0 = .ok rest ∧
      ltCols l lp d a b0 = .ok (c0 :: rest) ∧
      (c0 :: rest).length = min d l ∧ (c0 :: rest).Nodup ∧
      (∀ c ∈ c0 :: rest, c < l) := by
  have hlp0 : 0 < lp := hpr.pos
  obtain ⟨j0, hj0, hz0⟩ := walk_hits_zero b0 a lp hpr ha halp 0
  have hex : ∃ j, j < lp ∧ walk b0 a lp (0 + j) < l := ⟨j0, hj0, by omega⟩
  obtain ⟨t0, ht0lp, hPt0, ht0min, heq0⟩ := skipHigh_spec b0 a lp l lp 0 hex
  rw [Nat.zero_add] at hPt0 heq0
  have ht0min' : ∀ j, j < t0 → ¬ walk b0 a lp j < l := by
    intro j hj
    have := ht0min j hj
    rwa [Nat.zero_add] at this
  have hcnt0 : acceptedCnt b0 a lp l t0 = 1 := acceptedCnt_min b0 a lp l t0 hPt0 ht0min'
  have hminl : 1 ≤ min d l := by omega
  obtain ⟨ts, hts, htslen, htschain, htsmem⟩ :=
    ltColsAux_spec b0 a lp l hpr ha halp hl hllp t0 hPt0 (min d l - 1) t0 hPt0
      (le_refl t0) (by omega) (by omega)
  have hskip : skipHigh l lp a lp b0 = .ok (walk b0 a lp t0) := by
    rw [show skipHigh l lp a lp b0 = skipHigh l lp a lp (walk b0 a lp 0) by
          rw [walk_zero b0 a lp hb]]
    exact heq0
  refine ⟨walk b0 a lp t0, ts.map (walk b0 a lp), hskip, hts, ?_, ?_, ?_, ?_⟩
  · unfold ltCols
    rw [hskip, except_ok_bind, hts]
    rfl
  · simp only [List.length_cons, List.length_map, htslen]
    omega
  · -- the indices t0 :: ts are strictly increasing and lie in [t0, t0 + lp),
    -- so their walk values are distinct
    have hchain : List.Chain' (· < ·) (t0 :: ts) := htschain
    have hpw : List.Pairwise (· < ·) (t0 :: ts) := List.chain'_iff_pairwise.mp hchain
    have hmemall : ∀ x ∈ t0 :: ts, t0 ≤ x ∧ x < t0 + lp := by
      intro x hx
      rcases List.mem_cons.mp hx with rfl | hx'
      · exact ⟨le_refl _, by omega⟩
      · have hgt : t0 < x := (List.pairwise_cons.mp hpw).1 x hx'
        exact ⟨by omega, (htsmem x hx').1⟩
    have hpwne : List.Pairwise (fun x y => walk b0 a lp x ≠ walk b0 a lp y) (t0 :: ts) := by
      apply hpw.imp_of_mem
      intro x y hxmem hymem hxy hweq
      have hxw := hmemall x hxmem
      have hyw := hmemall y hymem
      have := walk_inj b0 a lp hpr ha halp x y (by omega) (by omega) hweq
      omega
    have hnd : (List.map (walk b0 a lp) (t0 :: ts)).Pairwise (· ≠ ·) :=
      List.pairwise_map.mpr hpwne
    exact hnd
  · intro c hc
    rcases List.mem_cons.mp hc with rfl | hc'
    · exact hPt0
    · obtain ⟨x, hxmem, rfl⟩ := List.mem_map.mp hc'
      exact (htsmem x hxmem).2

theorem zipWith_xor_right_comm (b p q : Payload) :
    List.zipWith xor q (List.zipWith xor p b) = List.zipWith xor p (List.zipWith xor q b) := by
  induction b generalizing p q with
  | nil => simp
  | cons x bs ih =>
      cases p with
      | nil => simp
      | cons y ps =>
          cases q with
          | nil => simp
          | cons z qs =>
              simp only [List.zipWith]
              refine congrArg₂ _ ?_ (ih ps qs)
              rw [← Bool.xor_assoc, Bool.xor_comm z y, Bool.xor_assoc]

theorem xor_arrays_zero (p : Payload) :
    xor_arrays p (List.replicate p.length false) = p := by
  unfold xor_arrays
  induction p with
  | nil => rfl
  | cons x ps ih =>
      simp only [List.length_cons, List.replicate, List.zipWith, Bool.xor_false]
      rw [ih]

theorem row_getD_map_range (l : Nat) (f : Nat → Bool) (c : Nat) (hc : c < l) :
    ((List.range l).map f).getD c false = f c := by
  rw [List.getD_eq_getElem?_getD, List.getElem?_map, List.getElem?_range hc]
  rfl

theorem ltMarked_of_range_map (l : Nat) (f : Nat → Bool) :
    ltMarked ((List.range l).map f) = (List.range l).filter f := by
  unfold ltMarked
  rw [List.length_map, List.length_range]
  apply List.filter_congr
  intro c hc
  rw [row_getD_map_range l f c (List.mem_range.mp hc)]

theorem filter_contains_perm (l : Nat) (cols : List Nat) (hnd : cols.Nodup)
    (hmem : ∀ c ∈ cols, c < l) :
    ((List.range l).filter (fun c => cols.contains c)).Perm cols := by
  apply (List.perm_ext_iff_of_nodup ((List.nodup_range l).filter _) hnd).mpr
  intro c
  simp only [List.mem_filter, List.mem_range, List.elem_eq_mem, decide_eq_true_eq]
  exact ⟨fun h => h.2, fun h => ⟨hmem c h, h⟩⟩

theorem bcount_map_contains (l : Nat) (cols : List Nat) (hnd : cols.Nodup)
    (hmem : ∀ c ∈ cols, c < l) :
    bcount ((List.range l).map (fun c => cols.contains c)) = cols.length := by
  unfold bcount
  rw [List.count_eq_countP, List.countP_map]
  have hcgr : List.countP ((fun b => b == true) ∘ fun c => cols.contains c) (List.range l) =
      List.countP (fun c => cols.contains c) (List.range l) := by
    apply List.countP_congr
    intro c _
    simp
  rw [hcgr, List.countP_eq_length_filter]
  exact (filter_contains_perm l cols hnd hmem).length_eq

theorem foldlM_xor_reads (isym : List (Option Payload)) (I : Nat → Payload) (l : Nat)
    (hisym : ∀ c, c < l → isym[c]? = some (some (I c))) :
    ∀ (cs : List Nat) (acc : Payload), (∀ c ∈ cs, c < l) →
      (cs.foldlM (fun result c => do
          let p ← lget isym c
          match p with
          | none => throw PyErr.typeErr
          | some pv => pure (xor_arrays pv result)) acc) =
        .ok (cs.foldl (fun result c => xor_arrays (I c) result) acc) := by
  intro cs
  induction cs with
  | nil => intro acc _; rfl
  | cons c cs ih =>
      intro acc hmem
      have hc := hisym c (hmem c (by simp))
      simp only [List.foldlM_cons, lget, hc, except_ok_bind, List.foldl_cons]
      exact ih _ (fun y hy => hmem y (by simp [hy]))

/-- C7: for every valid K (abstracted: `L' = l_prime` is a prime at least
`L >= 1`) and every ESI with triple `(d, a, b)` (in the ranges established
by C8), `lt_row` returns a bit-vector of length L with exactly `min(d, L)`
ones - the walked columns never collide - and `ltenc` equals the XOR of
the intermediate symbols at exactly the columns marked by that row. -/
theorem C7_lt_row_weight_and_ltenc (T : Tables) (self : RaptorR10)
    (esi lp d a b W : Nat) (I : Nat → Payload)
    (hlp : self.l_prime = some lp) (hpr : lp.Prime)
    (hl : 0 < self.l) (hllp : self.l ≤ lp)
    (htr : triple T self esi = .ok (d, a, b))
    (ha : 0 < a) (halp : a < lp) (hb : b < lp) (hd : 0 < d)
    (hisym : ∀ c, c < self.l → self.i_symbols[c]? = some (some (I c)))
    (hw : ∀ c, c < self.l → (I c).length = W) :
    ∃ row, lt_row T self esi = .ok row ∧ row.length = self.l ∧
      bcount row = min d self.l ∧
      ltenc T self esi = .ok (xorFold W ((ltMarked row).map I)) := by
  obtain ⟨c0, rest, hskip, haux, hcols, hlen, hnd, hcolmem⟩ :=
    ltCols_split_spec b a lp self.l d hpr ha halp hl hllp hb hd
  refine ⟨(List.range self.l).map (fun c => (c0 :: rest).contains c), ?_, ?_, ?_, ?_⟩
  · unfold lt_row
    rw [htr, except_ok_bind, hlp]
    dsimp only
    rw [hcols, except_ok_bind]
    rfl
  · simp
  · rw [bcount_map_contains self.l (c0 :: rest) hnd hcolmem, hlen]
  · unfold ltenc
    rw [htr, except_ok_bind, hlp]
    dsimp only
    rw [hskip, except_ok_bind]
    have hc0l : c0 < self.l := hcolmem c0 (by simp)
    have hc0 := hisym c0 hc0l
    have hlg0 : lget self.i_symbols c0 = .ok (some (I c0)) := by
      simp [lget, hc0]
    rw [hlg0, except_ok_bind]
    dsimp only
    rw [except_pure, except_ok_bind]
    rw [haux, except_ok_bind]
    rw [foldlM_xor_reads self.i_symbols I self.l hisym rest (I c0)
      (fun y hy => hcolmem y (by simp [hy]))]
    -- now equate the folded value with the XOR over the marked columns
    congr 1
    haveI : RightCommutative (fun (acc : Payload) (p : Payload) => xor_arrays p acc) :=
      ⟨fun bb p q => zipWith_xor_right_comm bb p q⟩
    have hmark : ltMarked ((List.range self.l).map (fun c => (c0 :: rest).contains c)) =
        (List.range self.l).filter (fun c => (c0 :: rest).contains c) :=
      ltMarked_of_range_map self.l _
    have hperm : ((List.range self.l).filter
        (fun c => (c0 :: rest).contains c)).Perm (c0 :: rest) :=
      filter_contains_perm self.l (c0 :: rest) hnd hcolmem
    have hpermI := hperm.map I
    unfold xorFold
    rw [hmark, hpermI.foldl_eq]
    rw [List.map_cons, List.foldl_cons, List.foldl_map]
    have habsorb : xor_arrays (I c0) (List.replicate W false) = I c0 := by
      rw [← hw c0 hc0l]
      exact xor_arrays_zero (I c0)
    rw [habsorb]

/-- C7 witness: the `k = 4` instance over `demoTables` with materialised
width-1 intermediate symbols; `triple(10) = (3, 7, 9)` and the produced
row has exactly `min(3, 14) = 3` ones. -/
theorem C7_witness :
    demoIsymSelf.l_prime = some 17 ∧
    triple demoTables demoIsymSelf 10 = .ok (3, 7, 9) ∧
    (∃ row, lt_row demoTables demoIsymSelf 10 = .ok row ∧
      row.length = demoIsymSelf.l ∧
      bcount row = min 3 demoIsymSelf.l ∧
      ltenc demoTables demoIsymSelf 10 =
        .ok (xorFold 1 ((ltMarked row).map (fun c => [decide (c % 2 = 0)])))) :=
  ⟨by decide, by rfl,
   C7_lt_row_weight_and_ltenc demoTables demoIsymSelf 10 17 3 7 9 1
     (fun c => [decide (c % 2 = 0)])
     (by decide) (by norm_num) (by decide) (by decide) (by rfl)
     (by decide) (by decide) (by decide) (by decide)
     (by decide) (by decide)⟩

/-!  ### Solver invariants (claim C2): primitive effect lemmas  -/

theorem lget_ok {α : Type} (xs : List α) (i : Nat) (h : i < xs.length) :
    lget xs i = .ok xs[i] := by
  unfold lget
  rw [List.getElem?_eq_getElem h]

theorem lset_ok {α : Type} (xs : List α) (i : Nat) (v : α) (h : i < xs.length) :
    lset xs i v = .ok (xs.set i v) := by
  unfold lset
  rw [if_pos h]

theorem entry_in_range (a : Mat) (r : Nat) (h : r < a.length) (c : Nat) :
    entry a r c = a[r].getD c false := by
  unfold entry
  rw [List.getD_eq_getElem a [] h]

theorem entry_out_of_range (a : Mat) (r : Nat) (h : a.length ≤ r) (c : Nat) :
    entry a r c = false := by
  unfold entry
  have hnil : a.getD r [] = [] := by
    rw [List.getD_eq_getElem?_getD, List.getElem?_eq_none (by omega)]
    rfl
  rw [hnil]
  rfl

theorem getD_set_row {α : Type} (xs : List α) (i : Nat) (v d : α) (h : i < xs.length) :
    ∀ j, (xs.set i v).getD j d = if j = i then v else xs.getD j d := by
  intro j
  by_cases hj : j = i
  · subst hj
    rw [if_pos rfl, List.getD_eq_getElem?_getD, List.getElem?_set_eq_of_lt v h]
    rfl
  · rw [if_neg hj, List.getD_eq_getElem?_getD, List.getD_eq_getElem?_getD,
      List.getElem?_set_ne (fun he => hj he.symm)]

theorem entry_set (a : Mat) (r1 : Nat) (v : Row) (h : r1 < a.length) (r c : Nat) :
    entry (a.set r1 v) r c = if r = r1 then v.getD c false else entry a r c := by
  unfold entry
  rw [getD_set_row a r1 v [] h r]
  by_cases hr : r = r1
  · rw [if_pos hr, if_pos hr]
  · rw [if_neg hr, if_neg hr]

theorem getD_zipWith_xor (p q : Row) (h : p.length = q.length) (c : Nat) :
    (List.zipWith xor p q).getD c false = xor (p.getD c false) (q.getD c false) := by
  induction p generalizing q c with
  | nil =>
      cases q with
      | nil => simp
      | cons y ys => simp at h
  | cons x xs ih =>
      cases q with
      | nil => simp at h
      | cons y ys =>
          cases c with
          | zero => simp [List.zipWith]
          | succ c1 =>
              simp only [List.zipWith, List.getD_cons_succ]
              exact ih ys (by simpa using h) c1

theorem mapM_ok_of_all {α β : Type} (f : α → Except PyErr β) (g : α → β) :
    ∀ xs : List α, (∀ x ∈ xs, f x = .ok (g x)) → xs.mapM f = .ok (xs.map g) := by
  intro xs
  induction xs with
  | nil => intro _; rfl
  | cons x xs ih =>
      intro h
      rw [List.mapM_cons, h x (by simp), except_ok_bind,
        ih (fun y hy => h y (by simp [hy])), except_ok_bind]
      rfl

theorem foldlM_invariant {α σ : Type} (f : σ → α → Except PyErr σ) (P : σ → Prop) :
    ∀ (xs : List α) (s s1 : σ), P s →
      (∀ x ∈ xs, ∀ t t1, P t → f t x = .ok t1 → P t1) →
      xs.foldlM f s = .ok s1 → P s1 := by
  intro xs
  induction xs with
  | nil =>
      intro s s1 hP _ heq
      cases heq
      exact hP
  | cons x xs ih =>
      intro s s1 hP hstep heq
      rw [List.foldlM_cons] at heq
      cases hfx : f s x with
      | error e => rw [hfx] at heq; exact absurd heq (by simp [except_error_bind])
      | ok t =>
          rw [hfx, except_ok_bind] at heq
          exact ih t s1 (hstep x (by simp) s t hP hfx) (fun y hy => hstep y (by simp [hy])) heq

theorem xor_row_spec (st : SolveState) (m l r1 r2 : Nat) (hd : Dims st m l)
    (hr1 : r1 < m) (hr2 : r2 < m) :
    ∃ st1, xor_row st r1 r2 = .ok st1 ∧
      Dims st1 m l ∧
      (∀ rr cc, entry st1.a rr cc =
        if rr = r1 then xor (entry st.a r1 cc) (entry st.a r2 cc) else entry st.a rr cc) ∧
      st1.o_degrees = st.o_degrees ∧ st1.sched = st.sched.xor r1 r2 := by
  obtain ⟨hlen, hrows, hod⟩ := hd
  have hr1a : r1 < st.a.length := by omega
  have hr2a : r2 < st.a.length := by omega
  have hl1 : st.a[r1].length = l := hrows _ (List.getElem_mem hr1a)
  have hl2 : st.a[r2].length = l := hrows _ (List.getElem_mem hr2a)
  have hzl : (List.zipWith xor st.a[r1] st.a[r2]).length = l := by
    rw [List.length_zipWith, hl1, hl2]
    omega
  refine ⟨⟨st.a.set r1 (List.zipWith xor st.a[r1] st.a[r2]), st.o_degrees,
    st.sched.xor r1 r2⟩, ?_, ?_, ?_, rfl, rfl⟩
  · unfold xor_row
    rw [lget_ok st.a r1 hr1a, except_ok_bind, lget_ok st.a r2 hr2a, except_ok_bind,
      lset_ok st.a r1 _ hr1a, except_ok_bind]
    rfl
  · refine ⟨by simpa using hlen, ?_, hod⟩
    intro row hrow
    rcases List.mem_or_eq_of_mem_set hrow with hmem | heq
    · exact hrows row hmem
    · rw [heq]; exact hzl
  · intro rr cc
    rw [entry_set st.a r1 _ hr1a rr cc]
    by_cases hr : rr = r1
    · rw [if_pos hr, if_pos hr,
        getD_zipWith_xor st.a[r1] st.a[r2] (by omega) cc,
        entry_in_range st.a r1 hr1a, entry_in_range st.a r2 hr2a]
    · rw [if_neg hr, if_neg hr]

theorem exchange_row_spec (st : SolveState) (m l r1 r2 : Nat) (hd : Dims st m l)
    (hr1 : r1 < m) (hr2 : r2 < m) :
    ∃ st1, exchange_row st r1 r2 = .ok st1 ∧
      Dims st1 m l ∧
      (∀ rr cc, entry st1.a rr cc =
        if rr = r1 then entry st.a r2 cc
        else if rr = r2 then entry st.a r1 cc
        else entry st.a rr cc) ∧
      st1.sched = st.sched.exchange_row r1 r2 := by
  obtain ⟨hlen, hrows, hod⟩ := hd
  have hr1a : r1 < st.a.length := by omega
  have hr2a : r2 < st.a.length := by omega
  have hr1d : r1 < st.o_degrees.length := by omega
  have hr2d : r2 < st.o_degrees.length := by omega
  refine ⟨⟨(st.a.set r1 st.a[r2]).set r2 st.a[r1],
    (st.o_degrees.set r1 st.o_degrees[r2]).set r2 st.o_degrees[r1],
    st.sched.exchange_row r1 r2⟩, ?_, ?_, ?_, rfl⟩
  · unfold exchange_row
    rw [lget_ok st.a r1 hr1a, except_ok_bind, lget_ok st.a r2 hr2a, except_ok_bind,
      lset_ok st.a r1 _ hr1a, except_ok_bind,
      lset_ok _ r2 _ (by simpa using hr2a), except_ok_bind,
      lget_ok st.o_degrees r1 hr1d, except_ok_bind,
      lget_ok st.o_degrees r2 hr2d, except_ok_bind,
      lset_ok st.o_degrees r1 _ hr1d, except_ok_bind,
      lset_ok _ r2 _ (by simpa using hr2d), except_ok_bind]
    rfl
  · refine ⟨by simpa using hlen, ?_, by simpa using hod⟩
    intro row hrow
    rcases List.mem_or_eq_of_mem_set hrow with hrow | heq
    · rcases List.mem_or_eq_of_mem_set hrow with hmem | heq
      · exact hrows row hmem
      · rw [heq]; exact hrows _ (List.getElem_mem hr2a)
    · rw [heq]; exact hrows _ (List.getElem_mem hr1a)
  · intro rr cc
    have hset2 : ∀ j, ((st.a.set r1 st.a[r2]).set r2 st.a[r1]).getD j [] =
        if j = r2 then st.a[r1] else (st.a.set r1 st.a[r2]).getD j [] :=
      getD_set_row _ r2 _ [] (by simpa using hr2a)
    have hset1 : ∀ j, (st.a.set r1 st.a[r2]).getD j [] =
        if j = r1 then st.a[r2] else st.a.getD j [] :=
      getD_set_row _ r1 _ [] hr1a
    unfold entry
    rw [hset2 rr, hset1 rr]
    split_ifs with h2 h1 h1
    · rw [List.getD_eq_getElem st.a [] hr2a]
      have he : r1 = r2 := by omega
      simp [he]
    · rw [List.getD_eq_getElem st.a [] hr1a]
    · rw [List.getD_eq_getElem st.a [] hr2a]
    · rfl

theorem exchange_column_spec (st : SolveState) (m l c1 c2 : Nat) (hd : Dims st m l)
    (hc1 : c1 < l) (hc2 : c2 < l) :
    ∃ st1, exchange_column st c1 c2 = .ok st1 ∧
      Dims st1 m l ∧
      (∀ rr cc, entry st1.a rr cc =
        if cc = c2 then entry st.a rr c1
        else if cc = c1 then entry st.a rr c2
        else entry st.a rr cc) ∧
      st1.o_degrees = st.o_degrees ∧ st1.sched = st.sched.exchange_column c1 c2 := by
  obtain ⟨hlen, hrows, hod⟩ := hd
  have hbody : ∀ row ∈ st.a, (do
      let t1 ← lget row c1
      let t2 ← lget row c2
      let row1 ← lset row c1 t2
      lset row1 c2 t1 : Except PyErr Row) =
      .ok ((row.set c1 (row.getD c2 false)).set c2 (row.getD c1 false)) := by
    intro row hrow
    have hlr : row.length = l := hrows row hrow
    have h1 : c1 < row.length := by omega
    have h2 : c2 < row.length := by omega
    rw [lget_ok row c1 h1, except_ok_bind, lget_ok row c2 h2, except_ok_bind,
      lset_ok row c1 _ h1, except_ok_bind,
      lset_ok _ c2 _ (by simpa using h2)]
    rw [List.getD_eq_getElem row false h1, List.getD_eq_getElem row false h2]
  refine ⟨⟨st.a.map (fun row => (row.set c1 (row.getD c2 false)).set c2 (row.getD c1 false)),
    st.o_degrees, st.sched.exchange_column c1 c2⟩, ?_, ?_, ?_, rfl, rfl⟩
  · unfold exchange_column
    rw [mapM_ok_of_all _ _ st.a hbody]
    rfl
  · refine ⟨by simpa using hlen, ?_, hod⟩
    intro row hrow
    obtain ⟨row0, hrow0, rfl⟩ := List.mem_map.mp hrow
    have hlr : row0.length = l := hrows row0 hrow0
    simp [hlr]
  · intro rr cc
    by_cases hr : rr < st.a.length
    · have hgr : (st.a.map (fun row =>
          (row.set c1 (row.getD c2 false)).set c2 (row.getD c1 false))).getD rr [] =
          (st.a[rr].set c1 (st.a[rr].getD c2 false)).set c2 (st.a[rr].getD c1 false) := by
        rw [List.getD_eq_getElem _ [] (by simpa using hr)]
        rw [List.getElem_map]
      have hrowlen : st.a[rr].length = l := hrows _ (List.getElem_mem hr)
      have hc1r : c1 < st.a[rr].length := by omega
      have hc2r : c2 < st.a[rr].length := by omega
      show ((st.a.map fun row => (row.set c1 (row.getD c2 false)).set c2
          (row.getD c1 false)).getD rr []).getD cc false = _
      rw [hgr]
      rw [getD_set_row _ c2 _ false (by simpa using hc2r) cc]
      rw [entry_in_range st.a rr hr, entry_in_range st.a rr hr, entry_in_range st.a rr hr]
      by_cases h2 : cc = c2
      · rw [if_pos h2, if_pos h2]
      · rw [if_neg h2, if_neg h2]
        exact getD_set_row st.a[rr] c1 _ false hc1r cc
    · have hout : ∀ (b : Mat), b.length = st.a.length → ∀ ccc, entry b rr ccc = false := by
        intro b hb ccc
        apply entry_out_of_range
        omega
      rw [hout _ (by simp) cc, hout st.a rfl c1, hout st.a rfl c2, hout st.a rfl cc]
      simp

theorem count_take_eq_countP_range (row : List Bool) :
    ∀ n, (row.take n).count true = (List.range n).countP (fun c => row.getD c false) := by
  induction row with
  | nil =>
      intro n
      simp only [List.take_nil, List.count_nil]
      symm
      rw [List.countP_eq_zero]
      intro c _
      simp
  | cons x xs ih =>
      intro n
      cases n with
      | zero => simp
      | succ n1 =>
          rw [List.take_succ_cons, List.range_succ_eq_map, List.countP_cons, List.countP_map]
          have hcomp : ((fun c => (x :: xs).getD c false) ∘ Nat.succ) =
              (fun c => xs.getD c false) := by
            funext c
            simp [List.getD_cons_succ]
          rw [hcomp, ← ih n1]
          simp only [List.count_cons, List.getD_cons_zero]
          cases x <;> simp [Nat.add_comm]

theorem bcount_pyslice_eq_countP (row : List Bool) (i bound : Nat) :
    bcount (pyslice row i bound) =
      (List.range' i (bound - i)).countP (fun c => row.getD c false) := by
  unfold bcount pyslice
  rw [List.drop_take bound i row]
  rw [count_take_eq_countP_range (row.drop i) (bound - i)]
  rw [List.range'_eq_map_range, List.countP_map]
  apply List.countP_congr
  intro c _
  have : (row.drop i).getD c false = row.getD (i + c) false := by
    rw [List.getD_eq_getElem?_getD, List.getD_eq_getElem?_getD, List.getElem?_drop]
  simp [this, Function.comp]

theorem onesInit_length (row : Row) (i bound : Nat) :
    (onesInit row i bound).length = bcount (pyslice row i bound) := by
  unfold onesInit
  rw [bcount_pyslice_eq_countP, ← List.countP_eq_length_filter]

theorem onesInit_mem (row : Row) (i bound c : Nat) :
    c ∈ onesInit row i bound ↔ (i ≤ c ∧ c < bound ∧ row.getD c false = true) := by
  unfold onesInit
  rw [List.mem_filter, List.mem_range'_1]
  constructor
  · rintro ⟨⟨h1, h2⟩, h3⟩
    exact ⟨h1, by omega, h3⟩
  · rintro ⟨h1, h2, h3⟩
    exact ⟨⟨h1, by omega⟩, h3⟩

theorem onesInit_sorted (row : Row) (i bound : Nat) :
    List.Pairwise (· < ·) (onesInit row i bound) :=
  List.Pairwise.filter _ (List.pairwise_lt_range' i (bound - i) 1)

theorem foldl_invariant {α σ : Type} (f : σ → α → σ) (P : σ → Prop) :
    ∀ (xs : List α) (s : σ), P s → (∀ x ∈ xs, ∀ t, P t → P (f t x)) →
      P (xs.foldl f s) := by
  intro xs
  induction xs with
  | nil => intro s hP _; exact hP
  | cons x xs ih =>
      intro s hP hstep
      exact ih (f s x) (hstep x (by simp) s hP) (fun y hy => hstep y (by simp [hy]))

/-- The specification of `rows_with_min_r` needed by the solver invariants:
when it reports `None` the row list is empty, and when it reports `some r`
every listed row lies in `[i, m)` and has exactly `r` ones (with `r >= 1`)
in the V window. -/
theorem rows_with_min_r_spec (a : Mat) (m i u l : Nat)
    (res : Option Nat × List Nat)
    (heq : rows_with_min_r a m i u l = .ok res) :
    (res.1 = none → res.2 = []) ∧
    (∀ r, res.1 = some r → 1 ≤ r ∧ ∀ x ∈ res.2, i ≤ x ∧ x < m ∧
      bcount (pyslice (a.getD x []) i (l - u)) = r) := by
  unfold rows_with_min_r at heq
  refine foldlM_invariant _ (fun acc =>
    (acc.1 = none → acc.2 = []) ∧
    (∀ r, acc.1 = some r → 1 ≤ r ∧ ∀ x ∈ acc.2, i ≤ x ∧ x < m ∧
      bcount (pyslice (a.getD x []) i (l - u)) = r)) _ _ _
    ⟨fun _ => rfl, fun r hr => by cases hr⟩ ?_ heq
  intro x hx t t1 hP hstep
  have hxr : i ≤ x ∧ x < m := by
    have := List.mem_range'.mp hx
    omega
  cases hg : a[x]? with
  | none =>
      rw [lget, hg] at hstep
      exact absurd hstep (by simp [except_error_bind])
  | some row =>
      have hrowD : a.getD x [] = row := by
        rw [List.getD_eq_getElem?_getD, hg]
        rfl
      rw [lget, hg] at hstep
      simp only [except_ok_bind] at hstep
      split at hstep
      · rename_i hr0
        cases hstep
        exact hP
      · rename_i hr0
        split at hstep
        · rename_i hnone
          cases hstep
          refine ⟨?_, ?_⟩
          · intro h
            simp at h
          intro r hr
          cases hr
          refine ⟨by omega, ?_⟩
          intro y hy
          simp only [List.mem_singleton] at hy
          subst hy
          exact ⟨hxr.1, hxr.2, by rw [hrowD]⟩
        · rename_i mr hsome
          have hmr := hP.2 mr hsome
          split at hstep
          · rename_i hlt
            cases hstep
            refine ⟨?_, ?_⟩
            · intro h
              simp at h
            · intro r hr
              cases hr
              refine ⟨by omega, ?_⟩
              intro y hy
              simp only [List.mem_singleton] at hy
              subst hy
              exact ⟨hxr.1, hxr.2, by rw [hrowD]⟩
          · rename_i hnlt
            split at hstep
            · rename_i heqr
              cases hstep
              refine ⟨?_, ?_⟩
              · intro h
                rw [hsome] at h
                simp at h
              intro r hr
              rw [hsome] at hr
              cases hr
              refine ⟨hmr.1, ?_⟩
              intro y hy
              rcases List.mem_append.mp hy with hy1 | hy2
              · exact hmr.2 y hy1
              · simp only [List.mem_singleton] at hy2
                subst hy2
                exact ⟨hxr.1, hxr.2, by rw [hrowD]; exact heqr⟩
            · rename_i hneq
              cases hstep
              exact hP

theorem min_degree_row_mem (od : List Nat) (m : Nat) (rows : List Nat) (rw1 : Nat)
    (heq : min_degree_row od m rows = .ok (some rw1)) : rw1 ∈ rows := by
  unfold min_degree_row at heq
  cases hf : rows.foldlM (fun (acc : Nat × Option Nat) r => do
      let dg ← lget od r
      if dg < acc.1 then pure (dg, some r) else pure acc) (m + 1, (none : Option Nat)) with
  | error e => rw [hf] at heq; exact absurd heq (by simp [except_error_bind])
  | ok acc =>
      rw [hf, except_ok_bind] at heq
      have hP : ∀ rw2, acc.2 = some rw2 → rw2 ∈ rows := by
        refine foldlM_invariant _ (fun t => ∀ rw2, t.2 = some rw2 → rw2 ∈ rows) _ _ _
          (fun rw2 h => by cases h) ?_ hf
        intro x hx t t1 hP hstep
        cases hg : lget od x with
        | error e => rw [hg] at hstep; exact absurd hstep (by simp [except_error_bind])
        | ok dg =>
            rw [hg, except_ok_bind] at hstep
            by_cases hlt : dg < t.1
            · rw [if_pos hlt] at hstep
              cases hstep
              intro rw2 h
              cases h
              exact hx
            · rw [if_neg hlt] at hstep
              cases hstep
              exact hP
      rw [except_pure] at heq
      exact hP rw1 (Except.ok.inj heq)

theorem addEdge_row_mem (es : List GEdge) (v1 v2 x : Nat) (rows : List Nat)
    (hP : ∀ e ∈ es, e.2.2 ∈ rows) (hx : x ∈ rows) :
    ∀ e ∈ addEdge es v1 v2 x, e.2.2 ∈ rows := by
  unfold addEdge
  by_cases hh : hasEdge es v1 v2
  · rw [if_pos hh]
    intro e he
    obtain ⟨e0, he0, heq⟩ := List.mem_map.mp he
    by_cases hc : (e0.1 = v1 ∧ e0.2.1 = v2) ∨ (e0.1 = v2 ∧ e0.2.1 = v1)
    · rw [if_pos hc] at heq
      rw [← heq]
      exact hx
    · rw [if_neg hc] at heq
      rw [← heq]
      exact hP e0 he0
  · rw [if_neg hh]
    intro e he
    rcases List.mem_append.mp he with he1 | he2
    · exact hP e he1
    · simp only [List.mem_singleton] at he2
      subst he2
      exact hx

theorem row_from_graph_mem (a : Mat) (m i u l : Nat) (rows : List Nat) (rw1 : Nat)
    (heq : row_from_graph a m i u l rows = .ok rw1) : rw1 ∈ rows := by
  unfold row_from_graph at heq
  cases hf : rows.foldlM (fun es row => do
      let rowv ← lget a row
      let vertices := (List.range' i (l - u - i)).filter (fun vtx => rowv.getD vtx false)
      match vertices with
      | [v1, v2] => pure (addEdge es v1 v2 row)
      | _ => throw PyErr.valueErr) ([] : List GEdge) with
  | error e => rw [hf] at heq; exact absurd heq (by simp [except_error_bind])
  | ok es =>
      rw [hf, except_ok_bind] at heq
      have hPes : ∀ e ∈ es, e.2.2 ∈ rows := by
        refine foldlM_invariant _ (fun t => ∀ e ∈ t, e.2.2 ∈ rows) _ _ _
          (by simp) ?_ hf
        intro x hx t t1 hP hstep
        cases hg : lget a x with
        | error e => rw [hg] at hstep; exact absurd hstep (by simp [except_error_bind])
        | ok rowv =>
            rw [hg, except_ok_bind] at hstep
            cases hv : (List.range' i (l - u - i)).filter (fun vtx => rowv.getD vtx false) with
            | nil => rw [hv] at hstep; cases hstep
            | cons v1 vrest =>
                cases vrest with
                | nil => rw [hv] at hstep; cases hstep
                | cons v2 vrest2 =>
                    cases vrest2 with
                    | nil =>
                        rw [hv] at hstep
                        cases hstep
                        exact addEdge_row_mem t v1 v2 x rows hP hx
                    | cons v3 vrest3 => rw [hv] at hstep; cases hstep
      cases hmax : maxComponentEdges es with
      | none => rw [hmax] at heq; exact absurd heq (by simp)
      | some edges =>
          rw [hmax] at heq
          have hsub : ∀ e ∈ edges, e ∈ es := by
            unfold maxComponentEdges at hmax
            have hinv := foldl_invariant
              (fun (acc : Option (List GEdge) × Nat) comp =>
                let edges2 := es.filter (fun e => comp.contains e.1)
                if edges2.length > acc.2 then (some edges2, edges2.length) else acc)
              (fun acc => ∀ es1, acc.1 = some es1 → ∀ e ∈ es1, e ∈ es)
              (componentsOf es) ((none : Option (List GEdge)), 0)
              (fun es1 hx => by cases hx)
              (by
                intro comp _ t hP
                dsimp only
                by_cases hc : (es.filter (fun e => comp.contains e.1)).length > t.2
                · rw [if_pos hc]
                  intro es1 h1
                  cases h1
                  intro e he
                  exact (List.mem_filter.mp he).1
                · rw [if_neg hc]
                  exact hP)
            exact hinv edges hmax
          cases edges with
          | nil => exact absurd heq (by simp)
          | cons e rest =>
              cases heq
              exact hPes e (hsub e (by simp))

theorem entry_of_getElem? (a : Mat) (r : Nat) (row : Row) (hg : a[r]? = some row)
    (c : Nat) : entry a r c = row.getD c false := by
  have hrow : a.getD r [] = row := by
    rw [List.getD_eq_getElem?_getD, hg]
    rfl
  show (a.getD r []).getD c false = row.getD c false
  rw [hrow]

/-- The Phase I column-alignment scan: starting from a state where row `i`
has its pivot one at column `i`, the remaining window ones recorded in
`ones`, and everything right of the pointer already packed with ones, a
successful scan leaves row `i` with zeros strictly between `i` and
`l - u - (r - 1)` while preserving the structural invariants. -/
theorem align_scan_spec (m l i u r : Nat) :
    ∀ (column : Nat) (ones : List Nat) (st : SolveState),
      Dims st m l →
      i + u < l →
      entry st.a i i = true →
      TopIdent st.a i u l →
      LowZero st.a i m →
      List.Pairwise (· < ·) ones →
      (∀ x ∈ ones, i < x ∧ x ≤ column) →
      (∀ c, i < c → c ≤ column → (entry st.a i c = true ↔ c ∈ ones)) →
      (∀ c, column < c → c < l - u → entry st.a i c = true) →
      column < l - u →
      ones.length + (l - u - 1 - column) = r - 1 →
      ∀ st1, align_scan i column ones st = .ok st1 →
        Dims st1 m l ∧ TopIdent st1.a i u l ∧ LowZero st1.a i m ∧
        entry st1.a i i = true ∧
        (∀ c, i < c → c < l - u - (r - 1) → entry st1.a i c = false) := by
  intro column
  induction column with
  | zero =>
      intro ones st hdims hiu hii htop hlow hpw hmem hiff htrue hcol hcnt st1 heq
      have hones : ones = [] := by
        cases ones with
        | nil => rfl
        | cons x xs =>
            have := hmem x (by simp)
            omega
      subst hones
      unfold align_scan at heq
      cases heq
      refine ⟨hdims, htop, hlow, hii, ?_⟩
      intro c hc1 hc2
      simp only [List.length_nil] at hcnt
      omega
  | succ column ih =>
      intro ones st hdims hiu hii htop hlow hpw hmem hiff htrue hcol hcnt st1 heq
      unfold align_scan at heq
      by_cases hcond : i < column + 1 ∧ ones ≠ []
      · rw [if_pos hcond] at heq
        cases hg : st.a[i]? with
        | none =>
            rw [lget, hg] at heq
            exact absurd heq (by simp [except_error_bind])
        | some rowi =>
            rw [lget, hg] at heq
            simp only [except_ok_bind] at heq
            have hrowE : ∀ cc, entry st.a i cc = rowi.getD cc false :=
              entry_of_getElem? st.a i rowi hg
            by_cases hcp : rowi.getD (column + 1) false = false
            · rw [if_pos hcp] at heq
              cases hone : ones with
              | nil => exact absurd rfl (hone ▸ hcond.2)
              | cons c rest =>
                  rw [hone] at heq
                  dsimp only at heq
                  -- the popped column c carries a one, so c ≠ column + 1
                  have hcmem : c ∈ ones := by rw [hone]; simp
                  have hcbounds := hmem c hcmem
                  have hcone : entry st.a i c = true :=
                    (hiff c hcbounds.1 hcbounds.2).mpr hcmem
                  have hcne : c ≠ column + 1 := by
                    intro hceq
                    rw [hceq, hrowE (column + 1)] at hcone
                    rw [hcone] at hcp
                    cases hcp
                  have hcle : c ≤ column := by omega
                  have hc1l : column + 1 < l := by omega
                  obtain ⟨st2, hex, hdims2, heff, hod2, hsch2⟩ :=
                    exchange_column_spec st m l (column + 1) c hdims (by omega) (by omega)
                  rw [hex, except_ok_bind] at heq
                  -- establish the invariant for the recursive call
                  have hpw2 : List.Pairwise (· < ·) rest := by
                    rw [hone] at hpw
                    exact hpw.tail
                  have hheadlt : ∀ x ∈ rest, c < x := by
                    rw [hone] at hpw
                    exact fun x hx => (List.pairwise_cons.mp hpw).1 x hx
                  have hmem2 : ∀ x ∈ rest, i < x ∧ x ≤ column := by
                    intro x hx
                    have hxo : x ∈ ones := by rw [hone]; simp [hx]
                    have hxb := hmem x hxo
                    have hxone : entry st.a i x = true := (hiff x hxb.1 hxb.2).mpr hxo
                    have : x ≠ column + 1 := by
                      intro hxeq
                      rw [hxeq, hrowE (column + 1)] at hxone
                      rw [hxone] at hcp
                      cases hcp
                    omega
                  have hii2 : entry st2.a i i = true := by
                    rw [heff i i, if_neg (by omega), if_neg (by omega)]
                    exact hii
                  have htop2 : TopIdent st2.a i u l := by
                    intro j hj
                    obtain ⟨hjj, hjz⟩ := htop j hj
                    constructor
                    · rw [heff j j, if_neg (by omega), if_neg (by omega)]
                      exact hjj
                    · intro cc hcc hccj
                      rw [heff j cc]
                      by_cases h1 : cc = c
                      · rw [if_pos h1]
                        exact hjz (column + 1) (by omega) (by omega)
                      · rw [if_neg h1]
                        by_cases h2 : cc = column + 1
                        · rw [if_pos h2]
                          exact hjz c (by omega) (by omega)
                        · rw [if_neg h2]
                          exact hjz cc hcc hccj
                  have hlow2 : LowZero st2.a i m := by
                    intro rr hrr1 hrr2 cc hcc
                    rw [heff rr cc, if_neg (by omega), if_neg (by omega)]
                    exact hlow rr hrr1 hrr2 cc hcc
                  have hiff2 : ∀ cc, i < cc → cc ≤ column →
                      (entry st2.a i cc = true ↔ cc ∈ rest) := by
                    intro cc hcc1 hcc2
                    rw [heff i cc]
                    by_cases h1 : cc = c
                    · rw [if_pos h1]
                      rw [hrowE (column + 1), hcp]
                      constructor
                      · intro hfalse
                        cases hfalse
                      · intro hcrest
                        have := hheadlt cc hcrest
                        omega
                    · rw [if_neg h1, if_neg (by omega)]
                      rw [hiff cc hcc1 (by omega)]
                      rw [hone]
                      simp only [List.mem_cons]
                      constructor
                      · rintro (rfl | hr)
                        · exact absurd rfl h1
                        · exact hr
                      · intro hr
                        exact Or.inr hr
                  have htrue2 : ∀ cc, column < cc → cc < l - u →
                      entry st2.a i cc = true := by
                    intro cc hcc1 hcc2
                    rw [heff i cc]
                    by_cases h1 : cc = c
                    · omega
                    · rw [if_neg h1]
                      by_cases h2 : cc = column + 1
                      · rw [if_pos h2]
                        exact hcone
                      · rw [if_neg h2]
                        exact htrue cc (by omega) hcc2
                  have hcnt2 : rest.length + (l - u - 1 - column) = r - 1 := by
                    rw [hone] at hcnt
                    simp only [List.length_cons] at hcnt
                    omega
                  exact ih rest st2 hdims2 hiu hii2 htop2 hlow2 hpw2 hmem2 hiff2
                    htrue2 (by omega) hcnt2 st1 heq
            · rw [if_neg hcp] at heq
              -- the pointer column already holds a one, so it is in `ones`
              have hcpt : entry st.a i (column + 1) = true := by
                rw [hrowE (column + 1)]
                cases hb : rowi.getD (column + 1) false with
                | false => exact absurd hb hcp
                | true => rfl
              have hcmem : column + 1 ∈ ones :=
                (hiff (column + 1) hcond.1 (le_refl _)).mp hcpt
              have hnodup : ones.Nodup := hpw.imp (fun h => Nat.ne_of_lt h)
              have hcontains : ones.contains (column + 1) = true := by
                simpa using hcmem
              rw [if_pos hcontains] at heq
              have hpw3 : List.Pairwise (· < ·) (ones.erase (column + 1)) :=
                hpw.sublist (List.erase_sublist _ _)
              have hmem3 : ∀ x ∈ ones.erase (column + 1), i < x ∧ x ≤ column := by
                intro x hx
                obtain ⟨hxne, hxo⟩ := (hnodup.mem_erase_iff).mp hx
                have := hmem x hxo
                omega
              have hiff3 : ∀ cc, i < cc → cc ≤ column →
                  (entry st.a i cc = true ↔ cc ∈ ones.erase (column + 1)) := by
                intro cc hcc1 hcc2
                rw [hnodup.mem_erase_iff]
                rw [hiff cc hcc1 (by omega)]
                constructor
                · intro h
                  exact ⟨by omega, h⟩
                · intro h
                  exact h.2
              have htrue3 : ∀ cc, column < cc → cc < l - u →
                  entry st.a i cc = true := by
                intro cc hcc1 hcc2
                by_cases h1 : cc = column + 1
                · rw [h1]
                  exact hcpt
                · exact htrue cc (by omega) hcc2
              have hcnt3 : (ones.erase (column + 1)).length +
                  (l - u - 1 - column) = r - 1 := by
                rw [List.length_erase_of_mem hcmem]
                have : 1 ≤ ones.length := List.length_pos.mpr (by
                  intro hnil
                  rw [hnil] at hcmem
                  cases hcmem)
                omega
              exact ih (ones.erase (column + 1)) st hdims hiu hii htop hlow hpw3
                hmem3 hiff3 htrue3 (by omega) hcnt3 st1 heq
      · rw [if_neg hcond] at heq
        cases heq
        have hones : ones = [] := by
          by_cases h1 : i < column + 1
          · cases ones with
            | nil => rfl
            | cons x xs => exact absurd ⟨h1, by simp⟩ hcond
          · cases ones with
            | nil => rfl
            | cons x xs =>
                have := hmem x (by simp)
                omega
        subst hones
        refine ⟨hdims, htop, hlow, hii, ?_⟩
        intro c hc1 hc2
        simp only [List.length_nil] at hcnt
        have hcle : c ≤ column + 1 := by omega
        have := (hiff c hc1 hcle).mp
        cases hent : entry st.a i c with
        | false => rfl
        | true => exact absurd (this hent) (by simp)

theorem bcount_pyslice_le_width (row : Row) (i bound : Nat) :
    bcount (pyslice row i bound) ≤ bound - i := by
  rw [bcount_pyslice_eq_countP]
  calc (List.range' i (bound - i)).countP (fun c => row.getD c false)
      ≤ (List.range' i (bound - i)).length := List.countP_le_length _
    _ = bound - i := List.length_range' _ _ _

theorem bcount_pyslice_congr (p q : Row) (i bound : Nat)
    (h : ∀ c, p.getD c false = q.getD c false) :
    bcount (pyslice p i bound) = bcount (pyslice q i bound) := by
  rw [bcount_pyslice_eq_countP, bcount_pyslice_eq_countP]
  apply List.countP_congr
  intro c _
  rw [h c]

/-- A variant of the `xor_row` effect lemma that does not constrain
`o_degrees` (usable after the matrix has been truncated by `a[:l]`). -/
theorem xor_row_spec2 (st : SolveState) (m l r1 r2 : Nat)
    (hlen : st.a.length = m) (hrows : ∀ row ∈ st.a, row.length = l)
    (hr1 : r1 < m) (hr2 : r2 < m) :
    ∃ st1, xor_row st r1 r2 = .ok st1 ∧
      st1.a.length = m ∧ (∀ row ∈ st1.a, row.length = l) ∧
      (∀ rr cc, entry st1.a rr cc =
        if rr = r1 then xor (entry st.a r1 cc) (entry st.a r2 cc)
        else entry st.a rr cc) ∧
      st1.o_degrees = st.o_degrees ∧ st1.sched = st.sched.xor r1 r2 := by
  have hr1a : r1 < st.a.length := by omega
  have hr2a : r2 < st.a.length := by omega
  have hl1 : st.a[r1].length = l := hrows _ (List.getElem_mem hr1a)
  have hl2 : st.a[r2].length = l := hrows _ (List.getElem_mem hr2a)
  have hzl : (List.zipWith xor st.a[r1] st.a[r2]).length = l := by
    rw [List.length_zipWith, hl1, hl2]
    omega
  refine ⟨⟨st.a.set r1 (List.zipWith xor st.a[r1] st.a[r2]), st.o_degrees,
    st.sched.xor r1 r2⟩, ?_, by simpa using hlen, ?_, ?_, rfl, rfl⟩
  · unfold xor_row
    rw [lget_ok st.a r1 hr1a, except_ok_bind, lget_ok st.a r2 hr2a, except_ok_bind,
      lset_ok st.a r1 _ hr1a, except_ok_bind]
    rfl
  · intro row hrow
    rcases List.mem_or_eq_of_mem_set hrow with hmem | heq2
    · exact hrows row hmem
    · rw [heq2]
      exact hzl
  · intro rr cc
    rw [entry_set st.a r1 _ hr1a rr cc]
    by_cases hr : rr = r1
    · rw [if_pos hr, if_pos hr,
        getD_zipWith_xor st.a[r1] st.a[r2] (by omega) cc,
        entry_in_range st.a r1 hr1a, entry_in_range st.a r2 hr2a]
    · rw [if_neg hr, if_neg hr]

/-- Effect of a below/above-pivot elimination fold on a list of
pairwise-distinct target rows: each listed row with a one in column `i`
receives the XOR of row `i`; everything else is untouched. -/
theorem xor_below_fold_spec (m l i : Nat) :
    ∀ (rows : List Nat) (st : SolveState),
      st.a.length = m →
      (∀ row ∈ st.a, row.length = l) →
      (∀ row ∈ rows, row ≠ i ∧ row < m) →
      rows.Nodup →
      i < m →
      ∀ st1, rows.foldlM (fun st row => do
          let rowv ← lget st.a row
          if rowv.getD i false then xor_row st row i else pure st) st = .ok st1 →
        st1.a.length = m ∧ (∀ row ∈ st1.a, row.length = l) ∧
        st1.o_degrees = st.o_degrees ∧
        (∀ rr cc, entry st1.a rr cc =
          if rr ∈ rows ∧ entry st.a rr i = true
          then xor (entry st.a rr cc) (entry st.a i cc)
          else entry st.a rr cc) := by
  intro rows
  induction rows with
  | nil =>
      intro st hlen hrows hb hnd him st1 heq
      rw [List.foldlM_nil, except_pure] at heq
      cases heq
      refine ⟨hlen, hrows, rfl, ?_⟩
      intro rr cc
      rw [if_neg (by simp)]
  | cons row rest ih =>
      intro st hlen hrows hb hnd him st1 heq
      rw [List.foldlM_cons] at heq
      have hrowb := hb row (by simp)
      have hrowlt : row < st.a.length := by omega
      rw [lget_ok st.a row hrowlt, except_ok_bind] at heq
      have hent : entry st.a row i = st.a[row].getD i false :=
        entry_in_range st.a row hrowlt i
      have hrownr : row ∉ rest := (List.nodup_cons.mp hnd).1
      by_cases hri : st.a[row].getD i false = true
      · rw [if_pos hri] at heq
        obtain ⟨st2, hxr, hlen2, hrows2, heff, hod2, hsch2⟩ :=
          xor_row_spec2 st m l row i hlen hrows hrowb.2 him
        rw [hxr, except_ok_bind] at heq
        obtain ⟨hlen1, hrows1, hod1, heff1⟩ := ih st2 hlen2 hrows2
          (fun x hx => hb x (by simp [hx]))
          (List.nodup_cons.mp hnd).2 him st1 heq
        have hfr : ∀ rr cc, rr ≠ row → entry st2.a rr cc = entry st.a rr cc := by
          intro rr cc hne
          rw [heff rr cc, if_neg hne]
        refine ⟨hlen1, hrows1, by rw [hod1, hod2], ?_⟩
        intro rr cc
        rw [heff1 rr cc]
        by_cases hrr : rr = row
        · subst hrr
          rw [if_neg (fun h => hrownr h.1)]
          rw [heff rr cc, if_pos rfl]
          rw [if_pos ⟨by simp, by rw [hent]; exact hri⟩]
        · have h2i : entry st2.a rr i = entry st.a rr i := hfr rr i hrr
          have h2c : entry st2.a rr cc = entry st.a rr cc := hfr rr cc hrr
          have h2ic : entry st2.a i cc = entry st.a i cc :=
            hfr i cc (by omega)
          rw [h2i, h2c, h2ic]
          by_cases hc : rr ∈ rest ∧ entry st.a rr i = true
          · rw [if_pos hc, if_pos ⟨List.mem_cons_of_mem _ hc.1, hc.2⟩]
          · rw [if_neg hc,
              if_neg (fun h => hc ⟨(List.mem_cons.mp h.1).resolve_left hrr, h.2⟩)]
      · have hri0 : st.a[row].getD i false = false := by
          revert hri
          cases st.a[row].getD i false <;> simp
        rw [hri0, if_neg (by simp), except_pure, except_ok_bind] at heq
        obtain ⟨hlen1, hrows1, hod1, heff1⟩ := ih st hlen hrows
          (fun x hx => hb x (by simp [hx]))
          (List.nodup_cons.mp hnd).2 him st1 heq
        refine ⟨hlen1, hrows1, hod1, ?_⟩
        intro rr cc
        rw [heff1 rr cc]
        by_cases hrr : rr = row
        · subst hrr
          rw [if_neg (fun h => hrownr h.1),
            if_neg (fun h => by rw [hent, hri0] at h; cases h.2)]
        · by_cases hc : rr ∈ rest ∧ entry st.a rr i = true
          · rw [if_pos hc, if_pos ⟨List.mem_cons_of_mem _ hc.1, hc.2⟩]
          · rw [if_neg hc,
              if_neg (fun h => hc ⟨(List.mem_cons.mp h.1).resolve_left hrr, h.2⟩)]

/-- Tail of a Phase I iteration: the below-pivot elimination followed by
the recursive call, starting from an aligned state. -/
theorem phase1_after_align (m l fuel i u r : Nat) (st4 : SolveState)
    (hih : ∀ (i' u' : Nat) (st' : SolveState), Dims st' m l → TopIdent st'.a i' u' l →
      LowZero st'.a i' m → i' + u' ≤ l →
      ∀ res, phase1 m l fuel i' u' st' = .ok res →
        Dims res.1 m l ∧ TopIdent res.1.a res.2.1 res.2.2 l ∧
        LowZero res.1.a res.2.1 m ∧ res.2.1 + res.2.2 = l)
    (hlt : i + u < l) (hrle : r ≤ l - u - i) (hr_ge : 1 ≤ r) (him : i < m)
    (hdims4 : Dims st4 m l) (htop4 : TopIdent st4.a i u l)
    (hlow4 : LowZero st4.a i m) (hii4 : entry st4.a i i = true)
    (hzeros4 : ∀ c, i < c → c < l - u - (r - 1) → entry st4.a i c = false)
    (res : SolveState × Nat × Nat)
    (heq : (do
        let st5 ← xor_below i m st4
        phase1 m l fuel (i + 1) (u + (r - 1)) st5) = .ok res) :
    Dims res.1 m l ∧ TopIdent res.1.a res.2.1 res.2.2 l ∧
    LowZero res.1.a res.2.1 m ∧ res.2.1 + res.2.2 = l := by
  cases hxb : xor_below i m st4 with
  | error e =>
      rw [hxb] at heq
      exact absurd heq (by simp [except_error_bind])
  | ok st5 =>
      simp only [hxb, except_ok_bind] at heq
      unfold xor_below at hxb
      have hnd : (List.range' (i + 1) (m - (i + 1))).Nodup :=
        (List.pairwise_lt_range' (i + 1) (m - (i + 1)) 1).imp (fun h => Nat.ne_of_lt h)
      obtain ⟨hlen5, hrows5, hod5, heff5⟩ := xor_below_fold_spec m l i
        (List.range' (i + 1) (m - (i + 1))) st4 hdims4.1 hdims4.2.1 (fun row hrow => by
          have := List.mem_range'_1.mp hrow
          omega) hnd him st5 hxb
      have hdims5 : Dims st5 m l := ⟨hlen5, hrows5, by rw [hod5]; exact hdims4.2.2⟩
      have hmemr : ∀ rr2, rr2 ∈ List.range' (i + 1) (m - (i + 1)) ↔
          (i < rr2 ∧ rr2 < m) := by
        intro rr2
        rw [List.mem_range'_1]
        omega
      have htop5 : TopIdent st5.a (i + 1) (u + (r - 1)) l := by
        intro j hj
        have hjm : j ∉ List.range' (i + 1) (m - (i + 1)) := by
          rw [hmemr]
          omega
        have hfr : ∀ cc, entry st5.a j cc = entry st4.a j cc := by
          intro cc
          rw [heff5 j cc, if_neg (fun h => hjm h.1)]
        by_cases hji : j = i
        · subst hji
          constructor
          · rw [hfr]
            exact hii4
          · intro cc h1 h2
            rw [hfr]
            by_cases hcci : cc < j
            · exact hlow4 j (le_refl j) (by omega) cc hcci
            · exact hzeros4 cc (by omega) (by omega)
        · have hji2 : j < i := by omega
          obtain ⟨hjj, hjz⟩ := htop4 j hji2
          constructor
          · rw [hfr]
            exact hjj
          · intro cc h1 h2
            rw [hfr]
            exact hjz cc (by omega) h2
      have hlow5 : LowZero st5.a (i + 1) m := by
        intro rr2 h1 h2 cc hcc
        have hmem2 : rr2 ∈ List.range' (i + 1) (m - (i + 1)) := by
          rw [hmemr]
          omega
        rw [heff5 rr2 cc]
        by_cases hcond : rr2 ∈ List.range' (i + 1) (m - (i + 1)) ∧
            entry st4.a rr2 i = true
        · rw [if_pos hcond]
          by_cases hcci : cc = i
          · subst hcci
            rw [hcond.2, hii4]
            rfl
          · rw [hlow4 rr2 (by omega) h2 cc (by omega),
              hlow4 i (le_refl i) him cc (by omega)]
            rfl
        · rw [if_neg hcond]
          by_cases hcci : cc = i
          · subst hcci
            cases hent : entry st4.a rr2 cc with
            | false => rfl
            | true => exact absurd ⟨hmem2, hent⟩ hcond
          · exact hlow4 rr2 (by omega) h2 cc (by omega)
      exact hih (i + 1) (u + (r - 1)) st5 hdims5 htop5 hlow5 (by omega) res heq

/-- Phase I preserves the structural invariants (identity rows above `i`,
zeros left of `i` below) and, on normal exit, reports `i + u = l`. -/
theorem phase1_spec (m l : Nat) (hml : l ≤ m) :
    ∀ (fuel i u : Nat) (st : SolveState),
      Dims st m l →
      TopIdent st.a i u l →
      LowZero st.a i m →
      i + u ≤ l →
      ∀ res, phase1 m l fuel i u st = .ok res →
        Dims res.1 m l ∧ TopIdent res.1.a res.2.1 res.2.2 l ∧
        LowZero res.1.a res.2.1 m ∧ res.2.1 + res.2.2 = l := by
  intro fuel
  induction fuel with
  | zero =>
      intro i u st _ _ _ _ res heq
      cases heq
  | succ fuel ih =>
      intro i u st hdims htop hlow hle res heq
      unfold phase1 at heq
      by_cases hlt : i + u < l
      · rw [if_pos hlt] at heq
        cases hrr : rows_with_min_r st.a m i u l with
        | error e =>
            rw [hrr] at heq
            exact absurd heq (by simp [except_error_bind])
        | ok rr =>
            rw [hrr] at heq
            simp only [except_ok_bind] at heq
            obtain ⟨hnone, hsome⟩ := rows_with_min_r_spec st.a m i u l rr hrr
            cases hr1 : rr.1 with
            | none =>
                rw [hr1, hnone hr1] at heq
                cases heq
            | some r =>
                obtain ⟨hr_ge, hrows_prop⟩ := hsome r hr1
                rw [hr1] at heq
                cases hoc : (if (some r : Option Nat) = some 2 then (do
                    let rw1 ← row_from_graph st.a m i u l rr.2
                    pure (some rw1) : Except PyErr (Option Nat))
                  else min_degree_row st.o_degrees m rr.2) with
                | error e =>
                    rw [hoc] at heq
                    exact absurd heq (by simp [except_error_bind])
                | ok oc =>
                    rw [hoc] at heq
                    simp only [except_ok_bind] at heq
                    have hocmem : ∀ rw1, oc = some rw1 → rw1 ∈ rr.2 := by
                      intro rw1 hrw1
                      subst hrw1
                      by_cases h2 : (some r : Option Nat) = some 2
                      · rw [if_pos h2] at hoc
                        cases hg : row_from_graph st.a m i u l rr.2 with
                        | error e =>
                            rw [hg] at hoc
                            exact absurd hoc (by simp [except_error_bind])
                        | ok rwv =>
                            rw [hg] at hoc
                            simp only [except_ok_bind, except_pure] at hoc
                            have hv : rwv = rw1 := by
                              simpa using hoc
                            rw [← hv]
                            exact row_from_graph_mem st.a m i u l rr.2 rwv hg
                      · rw [if_neg h2] at hoc
                        exact min_degree_row_mem st.o_degrees m rr.2 _ hoc
                    rw [if_neg (fun h => absurd (Option.some.inj h) (by omega))] at heq
                    cases oc with
                    | none => cases heq
                    | some rw1 =>
                        dsimp only at heq
                        have hmemrw := hocmem rw1 rfl
                        obtain ⟨hrwi, hrwm, hrwcnt⟩ := hrows_prop rw1 hmemrw
                        have him : i < m := by omega
                        obtain ⟨st2, hex, hdims2, heffE, hschE⟩ :=
                          exchange_row_spec st m l i rw1 hdims him hrwm
                        rw [hex] at heq
                        simp only [except_ok_bind] at heq
                        have hi2 : i < st2.a.length := by
                          obtain ⟨hlen2, _, _⟩ := hdims2
                          omega
                        rw [lget_ok st2.a i hi2] at heq
                        simp only [except_ok_bind] at heq
                        have hentE2 : ∀ cc, entry st2.a i cc = st2.a[i].getD cc false :=
                          fun cc => entry_in_range st2.a i hi2 cc
                        have hptw : ∀ c, st2.a[i].getD c false =
                            (st.a.getD rw1 []).getD c false := by
                          intro c
                          have h1 := entry_in_range st2.a i hi2 c
                          have h2 := heffE i c
                          rw [if_pos rfl] at h2
                          rw [← h1, h2]
                          rfl
                        have hwin : bcount (pyslice st2.a[i] i (l - u)) = r := by
                          rw [bcount_pyslice_congr st2.a[i] (st.a.getD rw1 [])
                            i (l - u) hptw]
                          exact hrwcnt
                        have hrle : r ≤ l - u - i := by
                          rw [← hwin]
                          exact bcount_pyslice_le_width _ _ _
                        have htop2 : TopIdent st2.a i u l := by
                          intro j hj
                          obtain ⟨hjj, hjz⟩ := htop j hj
                          have hfr : ∀ cc, entry st2.a j cc = entry st.a j cc := by
                            intro cc
                            rw [heffE j cc, if_neg (by omega), if_neg (by omega)]
                          exact ⟨by rw [hfr]; exact hjj,
                            fun c h1 h2 => by rw [hfr]; exact hjz c h1 h2⟩
                        have hlow2 : LowZero st2.a i m := by
                          intro rr2 hrr1 hrr2 cc hcc
                          rw [heffE rr2 cc]
                          by_cases h1 : rr2 = i
                          · rw [if_pos h1]
                            exact hlow rw1 hrwi hrwm cc hcc
                          · rw [if_neg h1]
                            by_cases h2 : rr2 = rw1
                            · rw [if_pos h2]
                              exact hlow i (le_refl i) him cc hcc
                            · rw [if_neg h2]
                              exact hlow rr2 hrr1 hrr2 cc hcc
                        by_cases hdiag : st2.a[i].getD i false = false
                        · rw [if_pos hdiag] at heq
                          cases hones : onesInit st2.a[i] i (l - u) with
                          | nil =>
                              exfalso
                              have hlen0 := onesInit_length st2.a[i] i (l - u)
                              rw [hones, hwin] at hlen0
                              simp only [List.length_nil] at hlen0
                              omega
                          | cons c rest =>
                              rw [hones] at heq
                              dsimp only at heq
                              have hcmem : c ∈ onesInit st2.a[i] i (l - u) := by
                                rw [hones]
                                simp
                              obtain ⟨hci, hcl, hctrue⟩ :=
                                (onesInit_mem st2.a[i] i (l - u) c).mp hcmem
                              have hsorted := onesInit_sorted st2.a[i] i (l - u)
                              rw [hones] at hsorted
                              have hheadlt : ∀ x ∈ rest, c < x :=
                                fun x hx => (List.pairwise_cons.mp hsorted).1 x hx
                              have hcne : c ≠ i := by
                                intro h
                                rw [h, hdiag] at hctrue
                                cases hctrue
                              obtain ⟨st3, hexc, hdims3, heffC, hodC, hschC⟩ :=
                                exchange_column_spec st2 m l i c hdims2
                                  (by omega) (by omega)
                              rw [hexc] at heq
                              simp only [except_ok_bind] at heq
                              cases halign : align_scan i (l - u - 1) rest st3 with
                              | error e =>
                                  rw [halign] at heq
                                  exact absurd heq (by simp [except_error_bind])
                              | ok st4 =>
                                  rw [halign] at heq
                                  simp only [except_ok_bind] at heq
                                  have hii3 : entry st3.a i i = true := by
                                    rw [heffC i i, if_neg (fun h => hcne h.symm),
                                      if_pos rfl, hentE2 c]
                                    exact hctrue
                                  have htop3 : TopIdent st3.a i u l := by
                                    intro j hj
                                    obtain ⟨hjj, hjz⟩ := htop2 j hj
                                    constructor
                                    · rw [heffC j j, if_neg (by omega),
                                        if_neg (by omega)]
                                      exact hjj
                                    · intro cc h1 h2
                                      rw [heffC j cc]
                                      by_cases hc1 : cc = c
                                      · rw [if_pos hc1]
                                        exact hjz i (by omega) (by omega)
                                      · rw [if_neg hc1]
                                        by_cases hc2 : cc = i
                                        · rw [if_pos hc2]
                                          exact hjz c (by omega) (by omega)
                                        · rw [if_neg hc2]
                                          exact hjz cc h1 h2
                                  have hlow3 : LowZero st3.a i m := by
                                    intro rr2 h1 h2 cc hcc
                                    rw [heffC rr2 cc, if_neg (by omega),
                                      if_neg (by omega)]
                                    exact hlow2 rr2 h1 h2 cc hcc
                                  have hpw3 : List.Pairwise (· < ·) rest := hsorted.tail
                                  have hmem3 : ∀ x ∈ rest, i < x ∧ x ≤ l - u - 1 := by
                                    intro x hx
                                    have hxm : x ∈ onesInit st2.a[i] i (l - u) := by
                                      rw [hones]
                                      simp [hx]
                                    obtain ⟨h1, h2, _⟩ :=
                                      (onesInit_mem _ _ _ x).mp hxm
                                    have := hheadlt x hx
                                    omega
                                  have hiff3 : ∀ cc, i < cc → cc ≤ l - u - 1 →
                                      (entry st3.a i cc = true ↔ cc ∈ rest) := by
                                    intro cc h1 h2
                                    by_cases hc1 : cc = c
                                    · rw [heffC i cc, if_pos hc1, hentE2 i, hdiag]
                                      constructor
                                      · intro h
                                        cases h
                                      · intro h
                                        have := hheadlt cc h
                                        exact absurd hc1 (by omega)
                                    · rw [heffC i cc, if_neg hc1, if_neg (by omega),
                                        hentE2 cc]
                                      constructor
                                      · intro h
                                        have hm2 : cc ∈ onesInit st2.a[i] i (l - u) :=
                                          (onesInit_mem _ _ _ cc).mpr
                                            ⟨by omega, by omega, h⟩
                                        rw [hones] at hm2
                                        cases List.mem_cons.mp hm2 with
                                        | inl h3 => exact absurd h3 hc1
                                        | inr h3 => exact h3
                                      · intro h
                                        have hxm : cc ∈ onesInit st2.a[i] i (l - u) := by
                                          rw [hones]
                                          simp [h]
                                        exact ((onesInit_mem _ _ _ cc).mp hxm).2.2
                                  have htrue3 : ∀ cc, l - u - 1 < cc → cc < l - u →
                                      entry st3.a i cc = true := by
                                    intro cc h1 h2
                                    omega
                                  have hcnt3 : rest.length +
                                      (l - u - 1 - (l - u - 1)) = r - 1 := by
                                    have hlen := onesInit_length st2.a[i] i (l - u)
                                    rw [hones, hwin] at hlen
                                    simp only [List.length_cons] at hlen
                                    omega
                                  obtain ⟨hdims4, htop4, hlow4, hii4, hzeros4⟩ :=
                                    align_scan_spec m l i u r (l - u - 1) rest st3
                                      hdims3 hlt hii3 htop3 hlow3 hpw3 hmem3 hiff3
                                      htrue3 (by omega) hcnt3 st4 halign
                                  exact phase1_after_align m l fuel i u r st4 ih hlt
                                    hrle hr_ge him hdims4 htop4 hlow4 hii4 hzeros4
                                    res heq
                        · rw [if_neg hdiag] at heq
                          have hdiag2 : st2.a[i].getD i false = true := by
                            revert hdiag
                            cases st2.a[i].getD i false <;> simp
                          have himem : i ∈ onesInit st2.a[i] i (l - u) :=
                            (onesInit_mem _ _ _ i).mpr ⟨le_refl i, by omega, hdiag2⟩
                          have hcont : (onesInit st2.a[i] i (l - u)).contains i = true := by
                            simpa using himem
                          rw [if_pos hcont] at heq
                          cases halign : align_scan i (l - u - 1)
                              ((onesInit st2.a[i] i (l - u)).erase i) st2 with
                          | error e =>
                              rw [halign] at heq
                              exact absurd heq (by simp [except_error_bind])
                          | ok st4 =>
                              rw [halign] at heq
                              simp only [except_ok_bind] at heq
                              have hsorted := onesInit_sorted st2.a[i] i (l - u)
                              have hnodup : (onesInit st2.a[i] i (l - u)).Nodup :=
                                hsorted.imp (fun h => Nat.ne_of_lt h)
                              have hpw3 : List.Pairwise (· < ·)
                                  ((onesInit st2.a[i] i (l - u)).erase i) :=
                                hsorted.sublist (List.erase_sublist _ _)
                              have hmem3 : ∀ x ∈ (onesInit st2.a[i] i (l - u)).erase i,
                                  i < x ∧ x ≤ l - u - 1 := by
                                intro x hx
                                obtain ⟨hxne, hxm⟩ := (hnodup.mem_erase_iff).mp hx
                                obtain ⟨h1, h2, _⟩ := (onesInit_mem _ _ _ x).mp hxm
                                omega
                              have hiff3 : ∀ cc, i < cc → cc ≤ l - u - 1 →
                                  (entry st2.a i cc = true ↔
                                    cc ∈ (onesInit st2.a[i] i (l - u)).erase i) := by
                                intro cc h1 h2
                                rw [hnodup.mem_erase_iff, hentE2 cc]
                                constructor
                                · intro h
                                  exact ⟨by omega, (onesInit_mem _ _ _ cc).mpr
                                    ⟨by omega, by omega, h⟩⟩
                                · intro h
                                  exact ((onesInit_mem _ _ _ cc).mp h.2).2.2
                              have htrue3 : ∀ cc, l - u - 1 < cc → cc < l - u →
                                  entry st2.a i cc = true := by
                                intro cc h1 h2
                                omega
                              have hcnt3 : ((onesInit st2.a[i] i (l - u)).erase i).length +
                                  (l - u - 1 - (l - u - 1)) = r - 1 := by
                                rw [List.length_erase_of_mem himem]
                                have hlen := onesInit_length st2.a[i] i (l - u)
                                rw [hwin] at hlen
                                have hpos : 1 ≤ (onesInit st2.a[i] i (l - u)).length :=
                                  List.length_pos.mpr (by
                                    intro hnil
                                    rw [hnil] at himem
                                    cases himem)
                                omega
                              have hii2 : entry st2.a i i = true := by
                                rw [hentE2 i]
                                exact hdiag2
                              obtain ⟨hdims4, htop4, hlow4, hii4, hzeros4⟩ :=
                                align_scan_spec m l i u r (l - u - 1)
                                  ((onesInit st2.a[i] i (l - u)).erase i) st2
                                  hdims2 hlt hii2 htop2 hlow2 hpw3 hmem3 hiff3
                                  htrue3 (by omega) hcnt3 st4 halign
                              exact phase1_after_align m l fuel i u r st4 ih hlt
                                hrle hr_ge him hdims4 htop4 hlow4 hii4 hzeros4
                                res heq
      · rw [if_neg hlt] at heq
        rw [except_pure] at heq
        cases heq
        exact ⟨hdims, htop, hlow, by show i + u = l; omega⟩

theorem findFirstRowAux_spec (a : Mat) (c : Nat) :
    ∀ (fuel lo : Nat) (res : Option Nat),
      findFirstRowAux a c fuel lo = .ok res →
      ∀ row1, res = some row1 → lo ≤ row1 ∧ row1 < lo + fuel ∧ entry a row1 c = true := by
  intro fuel
  induction fuel with
  | zero =>
      intro lo res heq row1 hr
      rw [show findFirstRowAux a c 0 lo = pure none from rfl, except_pure] at heq
      cases heq
      cases hr
  | succ fuel ihf =>
      intro lo res heq row1 hr
      unfold findFirstRowAux at heq
      cases hg : a[lo]? with
      | none =>
          rw [lget, hg] at heq
          exact absurd heq (by simp [except_error_bind])
      | some rowv =>
          rw [lget, hg] at heq
          simp only [except_ok_bind] at heq
          by_cases hb : rowv.getD c false = true
          · rw [if_pos hb, except_pure] at heq
            cases heq
            cases hr
            refine ⟨le_refl _, by omega, ?_⟩
            rw [entry_of_getElem? a lo rowv hg c]
            exact hb
          · have hb0 : rowv.getD c false = false := by
              revert hb
              cases rowv.getD c false <;> simp
            rw [hb0, if_neg (by simp)] at heq
            obtain ⟨h1, h2, h3⟩ := ihf (lo + 1) res heq row1 hr
            exact ⟨by omega, by omega, h3⟩

theorem findFirstRow_spec (a : Mat) (c lo hi : Nat) (res : Option Nat)
    (heq : findFirstRow a c lo hi = .ok res) :
    ∀ row1, res = some row1 → lo ≤ row1 ∧ row1 < hi ∧ entry a row1 c = true := by
  intro row1 hr
  obtain ⟨h1, h2, h3⟩ := findFirstRowAux_spec a c (hi - lo) lo res heq row1 hr
  exact ⟨h1, by omega, h3⟩

/-- One column of Phase II: after a successful pass over column `col`, that
column is reduced, all previously reduced columns stay reduced, and the
identity block and left-zero block are untouched. -/
theorem phase2_step (m l u i col : Nat) (hml : l ≤ m) (hic : i ≤ col)
    (hcl : col < l) (st : SolveState) (hdims : Dims st m l)
    (htop : ∀ j, j < i → entry st.a j j = true ∧
      ∀ c, c < i → c ≠ j → entry st.a j c = false)
    (hlow : LowZero st.a i m)
    (hclr : ∀ c, i ≤ c → c < col → ColCleared st.a c m)
    (st3 : SolveState)
    (heq : (do
        let rowc ← lget st.a col
        let st ← (if rowc.getD col false = false then do
            let found ← findFirstRow st.a col (col + 1) m
            let st ← (match found with
              | some row => exchange_row st col row
              | none => pure st)
            let rowc2 ← lget st.a col
            if rowc2.getD col false = false then
              throw (PyErr.scheduleErr
                ("U lower is of less rank than " ++ toString u ++ "."))
            else pure st
          else pure st)
        (List.range' (col + 1) (m - (col + 1))).foldlM (fun (st : SolveState) (row : Nat) => do
            let rowv ← lget st.a row
            if rowv.getD col false then xor_row st row col else pure st) st) = .ok st3) :
    Dims st3 m l ∧
    (∀ j, j < i → entry st3.a j j = true ∧
      ∀ c, c < i → c ≠ j → entry st3.a j c = false) ∧
    LowZero st3.a i m ∧
    (∀ c, i ≤ c → c ≤ col → ColCleared st3.a c m) := by
  have hcolm : col < m := by omega
  have hcola : col < st.a.length := by
    obtain ⟨hlen, _, _⟩ := hdims
    omega
  rw [lget_ok st.a col hcola] at heq
  simp only [except_ok_bind] at heq
  -- establish a mid-state with a unit diagonal at col
  suffices hmid : ∃ st2, (Dims st2 m l ∧
      (∀ j, j < i → entry st2.a j j = true ∧
        ∀ c, c < i → c ≠ j → entry st2.a j c = false) ∧
      LowZero st2.a i m ∧
      (∀ c, i ≤ c → c < col → ColCleared st2.a c m) ∧
      entry st2.a col col = true) ∧
      (List.range' (col + 1) (m - (col + 1))).foldlM (fun (st : SolveState) (row : Nat) => do
          let rowv ← lget st.a row
          if rowv.getD col false then xor_row st row col else pure st) st2 = .ok st3 by
    obtain ⟨st2, ⟨hdims2, htop2, hlow2, hclr2, hdiag2⟩, hif⟩ := hmid
    have hnd : (List.range' (col + 1) (m - (col + 1))).Nodup :=
      (List.pairwise_lt_range' (col + 1) (m - (col + 1)) 1).imp
        (fun h => Nat.ne_of_lt h)
    obtain ⟨hlen3, hrows3, hod3, heff3⟩ := xor_below_fold_spec m l col
      (List.range' (col + 1) (m - (col + 1))) st2 hdims2.1 hdims2.2.1
      (fun row hrow => by
        have := List.mem_range'_1.mp hrow
        omega) hnd hcolm st3 hif
    have hmemr : ∀ rr2, rr2 ∈ List.range' (col + 1) (m - (col + 1)) ↔
        (col < rr2 ∧ rr2 < m) := by
      intro rr2
      rw [List.mem_range'_1]
      omega
    have hdims3 : Dims st3 m l := ⟨hlen3, hrows3, by rw [hod3]; exact hdims2.2.2⟩
    refine ⟨hdims3, ?_, ?_, ?_⟩
    · intro j hj
      have hjm : j ∉ List.range' (col + 1) (m - (col + 1)) := by
        rw [hmemr]
        omega
      obtain ⟨hjj, hjz⟩ := htop2 j hj
      refine ⟨?_, fun c h1 h2 => ?_⟩
      · rw [heff3 j j, if_neg (fun h => hjm h.1)]
        exact hjj
      · rw [heff3 j c, if_neg (fun h => hjm h.1)]
        exact hjz c h1 h2
    · intro rr h1 h2 cc hcc
      rw [heff3 rr cc]
      by_cases hcond : rr ∈ List.range' (col + 1) (m - (col + 1)) ∧
          entry st2.a rr col = true
      · rw [if_pos hcond, hlow2 rr h1 h2 cc hcc,
          hlow2 col (by omega) hcolm cc (by omega)]
        rfl
      · rw [if_neg hcond]
        exact hlow2 rr h1 h2 cc hcc
    · intro c hc1 hc2
      by_cases hcc : c = col
      · subst hcc
        constructor
        · rw [heff3 c c, if_neg (fun h => by
            have := (hmemr c).mp h.1
            omega)]
          exact hdiag2
        · intro rr h1 h2
          rw [heff3 rr c]
          by_cases hcond : rr ∈ List.range' (c + 1) (m - (c + 1)) ∧
              entry st2.a rr c = true
          · rw [if_pos hcond, hcond.2, hdiag2]
            rfl
          · rw [if_neg hcond]
            cases hent : entry st2.a rr c with
            | false => rfl
            | true =>
                exact absurd ⟨(hmemr rr).mpr ⟨by omega, h2⟩, hent⟩ hcond
      · have hcltc : c < col := by omega
        obtain ⟨hcd, hcb⟩ := hclr2 c hc1 hcltc
        constructor
        · rw [heff3 c c, if_neg (fun h => by
            have := (hmemr c).mp h.1
            omega)]
          exact hcd
        · intro rr h1 h2
          rw [heff3 rr c]
          by_cases hcond : rr ∈ List.range' (col + 1) (m - (col + 1)) ∧
              entry st2.a rr col = true
          · rw [if_pos hcond, hcb rr h1 h2, hcb col (by omega) hcolm]
            rfl
          · rw [if_neg hcond]
            exact hcb rr h1 h2
  -- now produce the mid-state in each branch of the diagonal check
  by_cases hd : st.a[col].getD col false = false
  · rw [if_pos hd] at heq
    cases hff : findFirstRow st.a col (col + 1) m with
    | error e =>
        rw [hff] at heq
        exact absurd heq (by simp [except_error_bind])
    | ok found =>
        rw [hff] at heq
        simp only [except_ok_bind] at heq
        cases found with
        | none =>
            dsimp only at heq
            simp only [except_pure, except_ok_bind] at heq
            rw [lget_ok st.a col hcola] at heq
            simp only [except_ok_bind] at heq
            rw [if_pos hd] at heq
            cases heq
        | some row =>
            dsimp only at heq
            obtain ⟨hrow1, hrow2, hrowt⟩ :=
              findFirstRow_spec st.a col (col + 1) m (some row) hff row rfl
            obtain ⟨st2, hex, hdims2, heffE, hschE⟩ :=
              exchange_row_spec st m l col row hdims hcolm hrow2
            rw [hex] at heq
            simp only [except_ok_bind] at heq
            have hcola2 : col < st2.a.length := by
              obtain ⟨hlen2, _, _⟩ := hdims2
              omega
            rw [lget_ok st2.a col hcola2] at heq
            simp only [except_ok_bind] at heq
            have hdiag2 : entry st2.a col col = true := by
              rw [heffE col col, if_pos rfl]
              exact hrowt
            have hdg : st2.a[col].getD col false = true := by
              rw [← entry_in_range st2.a col hcola2 col]
              exact hdiag2
            rw [if_neg (by rw [hdg]; simp)] at heq
            simp only [except_pure, except_ok_bind] at heq
            refine ⟨st2, ⟨hdims2, ?_, ?_, ?_, hdiag2⟩, heq⟩
            · intro j hj
              obtain ⟨hjj, hjz⟩ := htop j hj
              have hfr : ∀ cc, entry st2.a j cc = entry st.a j cc := by
                intro cc
                rw [heffE j cc, if_neg (by omega), if_neg (by omega)]
              exact ⟨by rw [hfr]; exact hjj,
                fun c h1 h2 => by rw [hfr]; exact hjz c h1 h2⟩
            · intro rr h1 h2 cc hcc
              rw [heffE rr cc]
              by_cases hr1 : rr = col
              · rw [if_pos hr1]
                exact hlow row (by omega) hrow2 cc hcc
              · rw [if_neg hr1]
                by_cases hr2 : rr = row
                · rw [if_pos hr2]
                  exact hlow col (by omega) hcolm cc hcc
                · rw [if_neg hr2]
                  exact hlow rr h1 h2 cc hcc
            · intro c hc1 hc2
              obtain ⟨hcd, hcb⟩ := hclr c hc1 hc2
              constructor
              · rw [heffE c c, if_neg (by omega), if_neg (by omega)]
                exact hcd
              · intro rr h1 h2
                rw [heffE rr c]
                by_cases hr1 : rr = col
                · rw [if_pos hr1]
                  exact hcb row (by omega) hrow2
                · rw [if_neg hr1]
                  by_cases hr2 : rr = row
                  · rw [if_pos hr2]
                    exact hcb col (by omega) hcolm
                  · rw [if_neg hr2]
                    exact hcb rr h1 h2
  · rw [if_neg hd] at heq
    simp only [except_pure, except_ok_bind] at heq
    have hdiag : entry st.a col col = true := by
      rw [entry_in_range st.a col hcola col]
      revert hd
      cases st.a[col].getD col false <;> simp
    exact ⟨st, ⟨hdims, htop, hlow, hclr, hdiag⟩, heq⟩

/-- Phase II fold: processing the columns `[col, l)` of `U_lower` reduces
them all while preserving the earlier blocks. -/
theorem phase2_fold_spec (m l u i : Nat) (hml : l ≤ m) :
    ∀ (n col : Nat) (st : SolveState), col + n = l → i ≤ col →
      Dims st m l →
      (∀ j, j < i → entry st.a j j = true ∧
        ∀ c, c < i → c ≠ j → entry st.a j c = false) →
      LowZero st.a i m →
      (∀ c, i ≤ c → c < col → ColCleared st.a c m) →
      ∀ st1, (List.range' col n).foldlM (fun (st : SolveState) (column : Nat) => do
          let rowc ← lget st.a column
          let st ← (if rowc.getD column false = false then do
              let found ← findFirstRow st.a column (column + 1) m
              let st ← (match found with
                | some row => exchange_row st column row
                | none => pure st)
              let rowc2 ← lget st.a column
              if rowc2.getD column false = false then
                throw (PyErr.scheduleErr
                  ("U lower is of less rank than " ++ toString u ++ "."))
              else pure st
            else pure st)
          (List.range' (column + 1) (m - (column + 1))).foldlM
            (fun (st : SolveState) (row : Nat) => do
              let rowv ← lget st.a row
              if rowv.getD column false then xor_row st row column else pure st) st)
        st = .ok st1 →
        Dims st1 m l ∧
        (∀ j, j < i → entry st1.a j j = true ∧
          ∀ c, c < i → c ≠ j → entry st1.a j c = false) ∧
        LowZero st1.a i m ∧
        (∀ c, i ≤ c → c < l → ColCleared st1.a c m) := by
  intro n
  induction n with
  | zero =>
      intro col st hcol hic hdims htop hlow hclr st1 heq
      rw [show List.range' col 0 = [] from rfl, List.foldlM_nil, except_pure] at heq
      cases heq
      exact ⟨hdims, htop, hlow, fun c h1 h2 => hclr c h1 (by omega)⟩
  | succ n ihn =>
      intro col st hcol hic hdims htop hlow hclr st1 heq
      rw [List.range'_succ] at heq
      simp only [List.foldlM_cons] at heq
      cases hstep : (do
          let rowc ← lget st.a col
          let st ← (if rowc.getD col false = false then do
              let found ← findFirstRow st.a col (col + 1) m
              let st ← (match found with
                | some row => exchange_row st col row
                | none => pure st)
              let rowc2 ← lget st.a col
              if rowc2.getD col false = false then
                throw (PyErr.scheduleErr
                  ("U lower is of less rank than " ++ toString u ++ "."))
              else pure st
            else pure st)
          (List.range' (col + 1) (m - (col + 1))).foldlM (fun (st : SolveState) (row : Nat) => do
              let rowv ← lget st.a row
              if rowv.getD col false then xor_row st row col else pure st) st :
          Except PyErr SolveState) with
      | error e =>
          rw [hstep] at heq
          exact absurd heq (by simp [except_error_bind])
      | ok st3 =>
          rw [hstep] at heq
          simp only [except_ok_bind] at heq
          obtain ⟨hdims3, htop3, hlow3, hclr3⟩ := phase2_step m l u i col hml hic
            (by omega) st hdims htop hlow hclr st3 hstep
          exact ihn (col + 1) st3 (by omega) (by omega) hdims3 htop3 hlow3
            (fun c h1 h2 => hclr3 c h1 (by omega)) st1 heq

/-- Phase III fold: clearing above the diagonal inside the U block, walking
the columns downwards.  After the fold every window column `c ∈ [i, l)` is
zero on the rows `[i, c)` as well. -/
theorem phase3_fold_spec (m l i : Nat) (hml : l ≤ m) :
    ∀ (n : Nat) (st : SolveState), i + n ≤ l →
      Dims st m l →
      (∀ j, j < i → entry st.a j j = true ∧
        ∀ c, c < i → c ≠ j → entry st.a j c = false) →
      LowZero st.a i m →
      (∀ c, i ≤ c → c < l → ColCleared st.a c m) →
      (∀ c, i + n ≤ c → c < l → ∀ rr, i ≤ rr → rr < c → entry st.a rr c = false) →
      ∀ st1, ((List.range' i n).reverse).foldlM (fun (st : SolveState) (column : Nat) =>
          (List.range' i (column - i)).foldlM (fun (st : SolveState) (row : Nat) => do
              let rowv ← lget st.a row
              if rowv.getD column false then xor_row st row column else pure st) st) st
        = .ok st1 →
        Dims st1 m l ∧
        (∀ j, j < i → entry st1.a j j = true ∧
          ∀ c, c < i → c ≠ j → entry st1.a j c = false) ∧
        LowZero st1.a i m ∧
        (∀ c, i ≤ c → c < l → ColCleared st1.a c m) ∧
        (∀ c, i ≤ c → c < l → ∀ rr, i ≤ rr → rr < c → entry st1.a rr c = false) := by
  intro n
  induction n with
  | zero =>
      intro st hnl hdims htop hlow hclr habove st1 heq
      rw [show (List.range' i 0).reverse = [] from rfl, List.foldlM_nil,
        except_pure] at heq
      cases heq
      exact ⟨hdims, htop, hlow, hclr, fun c h1 h2 => habove c (by omega) h2⟩
  | succ n ihn =>
      intro st hnl hdims htop hlow hclr habove st1 heq
      rw [List.range'_1_concat, List.reverse_append, List.reverse_singleton,
        List.singleton_append] at heq
      simp only [List.foldlM_cons] at heq
      rw [show i + n - i = n from by omega] at heq
      cases hinner : (List.range' i n).foldlM (fun (st : SolveState) (row : Nat) => do
          let rowv ← lget st.a row
          if rowv.getD (i + n) false then xor_row st row (i + n) else pure st) st with
      | error e =>
          rw [hinner] at heq
          exact absurd heq (by simp [except_error_bind])
      | ok st2 =>
          rw [hinner] at heq
          simp only [except_ok_bind] at heq
          have hnd : (List.range' i n).Nodup :=
            (List.pairwise_lt_range' i n 1).imp (fun h => Nat.ne_of_lt h)
          have hinl : i + n < l := by omega
          obtain ⟨hlen2, hrows2, hod2, heff2⟩ := xor_below_fold_spec m l (i + n)
            (List.range' i n) st hdims.1 hdims.2.1 (fun row hrow => by
              have := List.mem_range'_1.mp hrow
              omega) hnd (by omega) st2 hinner
          have hdims2 : Dims st2 m l := ⟨hlen2, hrows2, by rw [hod2]; exact hdims.2.2⟩
          have hmemr : ∀ rr2, rr2 ∈ List.range' i n ↔ (i ≤ rr2 ∧ rr2 < i + n) := by
            intro rr2
            rw [List.mem_range'_1]
          have hdiagIN : entry st.a (i + n) (i + n) = true := (hclr (i + n) (by omega) hinl).1
          have htop2 : ∀ j, j < i → entry st2.a j j = true ∧
              ∀ c, c < i → c ≠ j → entry st2.a j c = false := by
            intro j hj
            have hjm : j ∉ List.range' i n := by
              rw [hmemr]
              omega
            obtain ⟨hjj, hjz⟩ := htop j hj
            refine ⟨?_, fun c h1 h2 => ?_⟩
            · rw [heff2 j j, if_neg (fun h => hjm h.1)]
              exact hjj
            · rw [heff2 j c, if_neg (fun h => hjm h.1)]
              exact hjz c h1 h2
          have hlow2 : LowZero st2.a i m := by
            intro rr h1 h2 cc hcc
            rw [heff2 rr cc]
            by_cases hcond : rr ∈ List.range' i n ∧ entry st.a rr (i + n) = true
            · rw [if_pos hcond, hlow rr h1 h2 cc hcc,
                hlow (i + n) (by omega) (by omega) cc hcc]
              rfl
            · rw [if_neg hcond]
              exact hlow rr h1 h2 cc hcc
          have hclr2 : ∀ c, i ≤ c → c < l → ColCleared st2.a c m := by
            intro c h1 h2
            obtain ⟨hcd, hcb⟩ := hclr c h1 h2
            constructor
            · rw [heff2 c c]
              by_cases hcond : c ∈ List.range' i n ∧ entry st.a c (i + n) = true
              · have hclt : c < i + n := ((hmemr c).mp hcond.1).2
                rw [if_pos hcond, hcd, hcb (i + n) hclt (by omega)]
                rfl
              · rw [if_neg hcond]
                exact hcd
            · intro rr hr1 hr2
              rw [heff2 rr c]
              by_cases hcond : rr ∈ List.range' i n ∧ entry st.a rr (i + n) = true
              · have hrlt : rr < i + n := ((hmemr rr).mp hcond.1).2
                rw [if_pos hcond, hcb rr hr1 hr2, hcb (i + n) (by omega) (by omega)]
                rfl
              · rw [if_neg hcond]
                exact hcb rr hr1 hr2
          have habove2 : ∀ c, i + n ≤ c → c < l → ∀ rr, i ≤ rr → rr < c →
              entry st2.a rr c = false := by
            intro c h1 h2 rr hr1 hr2
            by_cases hcn : c = i + n
            · subst hcn
              rw [heff2 rr (i + n)]
              by_cases hcond : rr ∈ List.range' i n ∧ entry st.a rr (i + n) = true
              · rw [if_pos hcond, hcond.2, hdiagIN]
                rfl
              · rw [if_neg hcond]
                cases hent : entry st.a rr (i + n) with
                | false => rfl
                | true => exact absurd ⟨(hmemr rr).mpr ⟨hr1, hr2⟩, hent⟩ hcond
            · have hcgt : i + n < c := by omega
              rw [heff2 rr c]
              by_cases hcond : rr ∈ List.range' i n ∧ entry st.a rr (i + n) = true
              · rw [if_pos hcond,
                  habove c (by omega) h2 rr hr1 hr2,
                  habove c (by omega) h2 (i + n) (by omega) hcgt]
                rfl
              · rw [if_neg hcond]
                exact habove c (by omega) h2 rr hr1 hr2
          exact ihn st2 (by omega) hdims2 htop2 hlow2 hclr2 habove2 st1 heq

theorem entry_take (a : Mat) (L rr cc : Nat) (h : rr < L) :
    entry (a.take L) rr cc = entry a rr cc := by
  have hrow : (a.take L).getD rr [] = a.getD rr [] := by
    rw [List.getD_eq_getElem?_getD, List.getD_eq_getElem?_getD,
      List.getElem?_take, if_pos h]
  show ((a.take L).getD rr []).getD cc false = (a.getD rr []).getD cc false
  rw [hrow]

theorem entry_col_oob (a : Mat) (r c : Nat) (h : r < a.length)
    (hc : a[r].length ≤ c) : entry a r c = false := by
  rw [entry_in_range a r h c, List.getD_eq_getElem?_getD,
    List.getElem?_eq_none hc]
  rfl

/-- Matrices of the same dimensions with equal entries are equal lists. -/
theorem mat_ext (A B : Mat) (L : Nat) (hAl : A.length = L) (hBl : B.length = L)
    (hAr : ∀ row ∈ A, row.length = L) (hBr : ∀ row ∈ B, row.length = L)
    (hent : ∀ r c, entry A r c = entry B r c) : A = B := by
  apply List.ext_getElem (by omega)
  intro r h1 h2
  apply List.ext_getElem
    (by rw [hAr _ (List.getElem_mem h1), hBr _ (List.getElem_mem h2)])
  intro c hc1 hc2
  have e1 : entry A r c = A[r][c] := by
    rw [entry_in_range A r h1 c, List.getD_eq_getElem?_getD,
      List.getElem?_eq_getElem hc1]
    rfl
  have e2 : entry B r c = B[r][c] := by
    rw [entry_in_range B r h2 c, List.getD_eq_getElem?_getD,
      List.getElem?_eq_getElem hc2]
    rfl
  rw [← e1, ← e2, hent r c]

theorem matIdentity_length (n : Nat) : (matIdentity n).length = n := by
  unfold matIdentity
  rw [List.length_map, List.length_range]

theorem matIdentity_rows (n : Nat) :
    ∀ row ∈ matIdentity n, row.length = n := by
  intro row hrow
  unfold matIdentity at hrow
  obtain ⟨r, _, hr⟩ := List.mem_map.mp hrow
  rw [← hr, List.length_map, List.length_range]

theorem matIdentity_entry (n r c : Nat) :
    entry (matIdentity n) r c = (decide (r = c) && decide (r < n) && decide (c < n)) := by
  by_cases hr : r < n
  · have hrow : (matIdentity n).getD r [] =
        (List.range n).map (fun j => decide (r = j)) := by
      unfold matIdentity
      rw [List.getD_eq_getElem?_getD, List.getElem?_map, List.getElem?_range hr]
      rfl
    show ((matIdentity n).getD r []).getD c false = _
    rw [hrow]
    by_cases hc : c < n
    · rw [List.getD_eq_getElem?_getD, List.getElem?_map, List.getElem?_range hc]
      simp [hr, hc]
    · rw [List.getD_eq_getElem?_getD, List.getElem?_map,
        List.getElem?_eq_none (by rw [List.length_range]; omega)]
      have hcn : ¬ (c < n) := hc
      simp [hcn]
  · have hrow : (matIdentity n).getD r [] = [] := by
      rw [List.getD_eq_getElem?_getD,
        List.getElem?_eq_none (by rw [matIdentity_length]; omega)]
      rfl
    show ((matIdentity n).getD r []).getD c false = _
    rw [hrow]
    have hrn : ¬ (r < n) := hr
    simp [hrn]

/-- Inner Phase IV fold: with every source column holding a unit row, the
one listed ones of the target row are cleared and nothing else moves. -/
theorem phase4_inner_spec (L row : Nat) :
    ∀ (cols : List Nat) (st : SolveState),
      st.a.length = L →
      (∀ r0 ∈ st.a, r0.length = L) →
      row < L →
      (∀ c ∈ cols, row < c ∧ c < L) →
      cols.Nodup →
      (∀ c ∈ cols, ∀ cc, entry st.a c cc = if cc = c then true else false) →
      ∀ st1, cols.foldlM (fun (st : SolveState) (column : Nat) => do
          let rowv ← lget st.a row
          if rowv.getD column false then xor_row st row column else pure st) st
        = .ok st1 →
        st1.a.length = L ∧ (∀ r0 ∈ st1.a, r0.length = L) ∧
        (∀ rr cc, rr ≠ row → entry st1.a rr cc = entry st.a rr cc) ∧
        (∀ cc, cc ∉ cols → entry st1.a row cc = entry st.a row cc) ∧
        (∀ cc, cc ∈ cols → entry st1.a row cc = false) := by
  intro cols
  induction cols with
  | nil =>
      intro st hlen hrows hrl hb hnd hsrc st1 heq
      rw [List.foldlM_nil, except_pure] at heq
      cases heq
      exact ⟨hlen, hrows, fun _ _ _ => rfl, fun _ _ => rfl, fun cc hcc => absurd hcc (by simp)⟩
  | cons c rest ih =>
      intro st hlen hrows hrl hb hnd hsrc st1 heq
      rw [List.foldlM_cons] at heq
      have hrla : row < st.a.length := by omega
      rw [lget_ok st.a row hrla] at heq
      simp only [except_ok_bind] at heq
      have hcb := hb c (by simp)
      have hsrcc := hsrc c (by simp)
      have hcnr : c ∉ rest := (List.nodup_cons.mp hnd).1
      have hentc : entry st.a row c = st.a[row].getD c false :=
        entry_in_range st.a row hrla c
      by_cases hrt : st.a[row].getD c false = true
      · rw [if_pos hrt] at heq
        obtain ⟨st2, hxr, hlen2, hrows2, heff, hod2, hsch2⟩ :=
          xor_row_spec2 st L L row c hlen hrows hrl hcb.2
        rw [hxr, except_ok_bind] at heq
        obtain ⟨hlen1, hrows1, hfr1, hun1, hcl1⟩ := ih st2 hlen2 hrows2 hrl
          (fun x hx => hb x (by simp [hx]))
          (List.nodup_cons.mp hnd).2
          (fun x hx cc => by
            rw [heff x cc, if_neg (by
              have := hb x (by simp [hx])
              omega)]
            exact hsrc x (by simp [hx]) cc) st1 heq
        have hfr2 : ∀ rr cc, rr ≠ row → entry st2.a rr cc = entry st.a rr cc := by
          intro rr cc hne
          rw [heff rr cc, if_neg hne]
        refine ⟨hlen1, hrows1, ?_, ?_, ?_⟩
        · intro rr cc hne
          rw [hfr1 rr cc hne, hfr2 rr cc hne]
        · intro cc hcc
          have hccr : cc ∉ rest := fun h => hcc (by simp [h])
          have hccc : cc ≠ c := fun h => hcc (by simp [h])
          rw [hun1 cc hccr, heff row cc, if_pos rfl, hsrcc cc, if_neg hccc]
          cases entry st.a row cc <;> rfl
        · intro cc hcc
          cases List.mem_cons.mp hcc with
          | inl h3 =>
              subst h3
              rw [hun1 cc hcnr, heff row cc, if_pos rfl, hsrcc cc, if_pos rfl,
                ← hentc] at *
              rw [hentc, hrt]
              rfl
          | inr h3 => exact hcl1 cc h3
      · have hrt0 : st.a[row].getD c false = false := by
          revert hrt
          cases st.a[row].getD c false <;> simp
        rw [hrt0, if_neg (by simp), except_pure, except_ok_bind] at heq
        obtain ⟨hlen1, hrows1, hfr1, hun1, hcl1⟩ := ih st hlen hrows hrl
          (fun x hx => hb x (by simp [hx]))
          (List.nodup_cons.mp hnd).2
          (fun x hx cc => hsrc x (by simp [hx]) cc) st1 heq
        refine ⟨hlen1, hrows1, hfr1, ?_, ?_⟩
        · intro cc hcc
          exact hun1 cc (fun h => hcc (by simp [h]))
        · intro cc hcc
          cases List.mem_cons.mp hcc with
          | inl h3 =>
              subst h3
              rw [hun1 cc hcnr, hentc]
              exact hrt0
          | inr h3 => exact hcl1 cc h3

/-- Outer Phase IV fold over the top rows. -/
theorem phase4_fold_spec (L i : Nat) (hil : i ≤ L) :
    ∀ (rows : List Nat) (st : SolveState),
      st.a.length = L →
      (∀ r0 ∈ st.a, r0.length = L) →
      (∀ j ∈ rows, j < i) →
      rows.Nodup →
      (∀ rr, i ≤ rr → rr < L → ∀ cc,
        entry st.a rr cc = if cc = rr then true else false) →
      ∀ st1, rows.foldlM (fun (st : SolveState) (row : Nat) =>
          (List.range' i (L - i)).foldlM (fun (st : SolveState) (column : Nat) => do
              let rowv ← lget st.a row
              if rowv.getD column false then xor_row st row column else pure st) st) st
        = .ok st1 →
        st1.a.length = L ∧ (∀ r0 ∈ st1.a, r0.length = L) ∧
        (∀ rr cc, rr ∉ rows → entry st1.a rr cc = entry st.a rr cc) ∧
        (∀ j ∈ rows, (∀ cc, i ≤ cc → cc < L → entry st1.a j cc = false) ∧
          (∀ cc, cc < i ∨ L ≤ cc → entry st1.a j cc = entry st.a j cc)) := by
  intro rows
  induction rows with
  | nil =>
      intro st hlen hrows hb hnd hsrc st1 heq
      rw [List.foldlM_nil, except_pure] at heq
      cases heq
      exact ⟨hlen, hrows, fun _ _ _ => rfl, fun j hj => absurd hj (by simp)⟩
  | cons j rest ih =>
      intro st hlen hrows hb hnd hsrc st1 heq
      rw [List.foldlM_cons] at heq
      have hji := hb j (by simp)
      have hmemc : ∀ cc, cc ∈ List.range' i (L - i) ↔ (i ≤ cc ∧ cc < L) := by
        intro cc
        rw [List.mem_range'_1]
        omega
      have hndc : (List.range' i (L - i)).Nodup :=
        (List.pairwise_lt_range' i (L - i) 1).imp (fun h => Nat.ne_of_lt h)
      cases hin : (List.range' i (L - i)).foldlM
          (fun (st : SolveState) (column : Nat) => do
            let rowv ← lget st.a j
            if rowv.getD column false then xor_row st j column else pure st) st with
      | error e =>
          rw [hin] at heq
          exact absurd heq (by simp [except_error_bind])
      | ok st2 =>
          rw [hin] at heq
          simp only [except_ok_bind] at heq
          obtain ⟨hlen2, hrows2, hfr2, hun2, hcl2⟩ := phase4_inner_spec L j
            (List.range' i (L - i)) st hlen hrows (by omega)
            (fun c hc => by
              have := (hmemc c).mp hc
              omega) hndc
            (fun c hc cc => by
              have hcLi := (hmemc c).mp hc
              exact hsrc c hcLi.1 hcLi.2 cc) st2 hin
          have hjnr : j ∉ rest := (List.nodup_cons.mp hnd).1
          obtain ⟨hlen1, hrows1, hfr1, hjs1⟩ := ih st2 hlen2 hrows2
            (fun x hx => hb x (by simp [hx]))
            (List.nodup_cons.mp hnd).2
            (fun rr h1 h2 cc => by
              rw [hfr2 rr cc (by omega)]
              exact hsrc rr h1 h2 cc) st1 heq
          refine ⟨hlen1, hrows1, ?_, ?_⟩
          · intro rr cc hrr
            rw [hfr1 rr cc (fun h => hrr (by simp [h])),
              hfr2 rr cc (fun h => hrr (by simp [h]))]
          · intro j1 hj1
            cases List.mem_cons.mp hj1 with
            | inl h3 =>
                subst h3
                refine ⟨fun cc h1 h2 => ?_, fun cc hcc => ?_⟩
                · rw [hfr1 j1 cc hjnr]
                  exact hcl2 cc ((hmemc cc).mpr ⟨h1, h2⟩)
                · rw [hfr1 j1 cc hjnr, hun2 cc (fun h => by
                    have := (hmemc cc).mp h
                    omega)]
            | inr h3 =>
                obtain ⟨hf3, hu3⟩ := hjs1 j1 h3
                refine ⟨hf3, fun cc hcc => ?_⟩
                rw [hu3 cc hcc]
                refine hfr2 j1 cc (fun h => ?_)
                rw [h] at h3
                exact hjnr h3

theorem mem_of_getElem?_mat {α : Type} (xs : List α) (n : Nat) (v : α)
    (h : xs[n]? = some v) : v ∈ xs := by
  obtain ⟨hn, rfl⟩ := List.getElem?_eq_some_iff.mp h
  exact List.getElem_mem hn

/-- A successful `xor_row` preserves the matrix dimensions. -/
theorem xor_row_dims (st : SolveState) (m l r1 r2 : Nat) (hd : Dims st m l)
    (st1 : SolveState) (heq : xor_row st r1 r2 = .ok st1) : Dims st1 m l := by
  obtain ⟨hlen, hrows, hod⟩ := hd
  unfold xor_row at heq
  cases hg1 : st.a[r1]? with
  | none =>
      rw [lget, hg1] at heq
      exact absurd heq (by simp [except_error_bind])
  | some row1 =>
      rw [lget, hg1] at heq
      simp only [except_ok_bind] at heq
      cases hg2 : st.a[r2]? with
      | none =>
          rw [lget, hg2] at heq
          exact absurd heq (by simp [except_error_bind])
      | some row2 =>
          rw [lget, hg2] at heq
          simp only [except_ok_bind] at heq
          unfold lset at heq
          by_cases hlt : r1 < st.a.length
          · rw [if_pos hlt] at heq
            simp only [except_ok_bind, except_pure] at heq
            cases heq
            have hm1 : row1 ∈ st.a := mem_of_getElem?_mat st.a r1 row1 hg1
            have hm2 : row2 ∈ st.a := mem_of_getElem?_mat st.a r2 row2 hg2
            refine ⟨by simpa using hlen, ?_, hod⟩
            intro row hrow
            rcases List.mem_or_eq_of_mem_set hrow with hmem | heq2
            · exact hrows row hmem
            · rw [heq2, List.length_zipWith, hrows row1 hm1, hrows row2 hm2]
              omega
          · rw [if_neg hlt] at heq
            exact absurd heq (by simp [except_error_bind])

/-- A successful prepass preserves the matrix dimensions. -/
theorem prepass_dims (m l : Nat) (st : SolveState) (hd : Dims st m l)
    (st1 : SolveState) (heq : prepass st = .ok st1) : Dims st1 m l := by
  unfold prepass at heq
  refine foldlM_invariant _ (fun t => Dims t m l) _ _ _ hd ?_ heq
  intro i _ t t1 hP hstep
  refine foldlM_invariant _ (fun t => Dims t m l) _ _ _ hP ?_ hstep
  intro j _ t2 t3 hP2 hstep2
  cases hg1 : t2.a[j]? with
  | none =>
      rw [lget, hg1] at hstep2
      exact absurd hstep2 (by simp [except_error_bind])
  | some rowj =>
      rw [lget, hg1] at hstep2
      simp only [except_ok_bind] at hstep2
      cases hg2 : t2.a[i]? with
      | none =>
          rw [lget, hg2] at hstep2
          exact absurd hstep2 (by simp [except_error_bind])
      | some rowi =>
          rw [lget, hg2] at hstep2
          simp only [except_ok_bind] at hstep2
          by_cases hc : bcount (List.zipWith xor rowi rowj) + 2 < bcount rowj
          · rw [if_pos hc] at hstep2
            exact xor_row_dims t2 m l j i hP2 t3 hstep2
          · rw [if_neg hc, except_pure] at hstep2
            cases hstep2
            exact hP2

/-- Core of the solver postcondition: a successful `decoding_schedule`
leaves the returned matrix equal to the identity. -/
theorem decoding_schedule_identity (self : RaptorR10) (a : Mat) (sched : Schedule)
    (afin : Mat)
    (hlen : a.length = self.s + self.h + self.symbols.length)
    (hrows : ∀ row ∈ a, row.length = self.l)
    (hl : self.l = self.k + self.s + self.h)
    (hN : self.k ≤ self.symbols.length)
    (heq : decoding_schedule self a = .ok (sched, afin)) :
    afin = matIdentity self.l := by
  have hml : self.l ≤ self.s + self.h + self.symbols.length := by omega
  suffices htail : ∀ stp : SolveState,
      Dims stp (self.s + self.h + self.symbols.length) self.l →
      (do
        let r1 ← phase1 (self.s + self.h + self.symbols.length) self.l
          (self.l + 1) 0 0 stp
        let st := r1.1
        let i := r1.2.1
        let u := r1.2.2
        let st ← phase2 (self.s + self.h + self.symbols.length) self.l u st
        let st ← phase3 i self.l u st
        let st := { st with a := st.a.take self.l }
        let st ← phase4 i self.l u st
        pure (st.sched, st.a) : Except PyErr (Schedule × Mat)) = .ok (sched, afin) →
      afin = matIdentity self.l by
    unfold decoding_schedule at heq
    cases hup : self.use_prepass with
    | true =>
        simp only [hup, if_true] at heq
        cases hpp : prepass ⟨a, a.map bcount,
            Schedule.init self.l (self.s + self.h + self.symbols.length)⟩ with
        | error e =>
            rw [hpp] at heq
            exact absurd heq (by simp [except_error_bind])
        | ok stp =>
            rw [hpp] at heq
            simp only [except_ok_bind] at heq
            refine htail stp (prepass_dims (self.s + self.h + self.symbols.length)
              self.l _ ⟨hlen, hrows, ?_⟩ stp hpp) heq
            rw [List.length_map]
            exact hlen
    | false =>
        simp only [hup, Bool.false_eq_true, if_false, except_pure,
          except_ok_bind] at heq
        refine htail ⟨a, a.map bcount,
            Schedule.init self.l (self.s + self.h + self.symbols.length)⟩
          ⟨hlen, hrows, ?_⟩ heq
        rw [List.length_map]
        exact hlen
  intro stp hdimsp heq2
  cases hp1 : phase1 (self.s + self.h + self.symbols.length) self.l
      (self.l + 1) 0 0 stp with
  | error e =>
      rw [hp1] at heq2
      exact absurd heq2 (by simp [except_error_bind])
  | ok r1 =>
      rw [hp1] at heq2
      simp only [except_ok_bind] at heq2
      obtain ⟨hdims1, htop1, hlow1, hiu⟩ := phase1_spec
        (self.s + self.h + self.symbols.length) self.l hml (self.l + 1) 0 0 stp
        hdimsp (by intro j hj; omega) (by intro rr h1 h2 cc hcc; omega)
        (by omega) r1 hp1
      have htopP : ∀ j, j < r1.2.1 → entry r1.1.a j j = true ∧
          ∀ c, c < r1.2.1 → c ≠ j → entry r1.1.a j c = false := by
        intro j hj
        obtain ⟨h1, h2⟩ := htop1 j hj
        exact ⟨h1, fun c hc1 hc2 => h2 c (by omega) hc2⟩
      cases hp2 : phase2 (self.s + self.h + self.symbols.length) self.l
          r1.2.2 r1.1 with
      | error e =>
          rw [hp2] at heq2
          exact absurd heq2 (by simp [except_error_bind])
      | ok st2 =>
          rw [hp2] at heq2
          simp only [except_ok_bind] at heq2
          unfold phase2 at hp2
          obtain ⟨hdims2, htop2, hlow2, hclr2⟩ := phase2_fold_spec
            (self.s + self.h + self.symbols.length) self.l r1.2.2 r1.2.1 hml
            (self.l - (self.l - r1.2.2)) (self.l - r1.2.2) r1.1
            (by omega) (by omega) hdims1 htopP hlow1
            (by intro c h1 h2; omega) st2 hp2
          cases hp3 : phase3 r1.2.1 self.l r1.2.2 st2 with
          | error e =>
              rw [hp3] at heq2
              exact absurd heq2 (by simp [except_error_bind])
          | ok st3 =>
              rw [hp3] at heq2
              simp only [except_ok_bind] at heq2
              have hlu : self.l - r1.2.2 = r1.2.1 := by omega
              unfold phase3 at hp3
              rw [hlu] at hp3
              obtain ⟨hdims3, htop3, hlow3, hclr3, habove3⟩ := phase3_fold_spec
                (self.s + self.h + self.symbols.length) self.l r1.2.1 hml
                (self.l - r1.2.1) st2 (by omega) hdims2 htop2 hlow2 hclr2
                (by intro c h1 h2 rr hr1 hr2; omega) st3 hp3
              cases hp4 : phase4 r1.2.1 self.l r1.2.2
                  { st3 with a := st3.a.take self.l } with
              | error e =>
                  rw [hp4] at heq2
                  exact absurd heq2 (by simp [except_error_bind])
              | ok st4 =>
                  rw [hp4] at heq2
                  simp only [except_ok_bind, except_pure] at heq2
                  have hpair := Except.ok.inj heq2
                  have hafin : st4.a = afin := congrArg Prod.snd hpair
                  unfold phase4 at hp4
                  rw [hlu] at hp4
                  have hlenT : ({ st3 with a := st3.a.take self.l } :
                      SolveState).a.length = self.l := by
                    show (st3.a.take self.l).length = self.l
                    rw [List.length_take]
                    have := hdims3.1
                    omega
                  have hrowsT : ∀ r0 ∈ ({ st3 with a := st3.a.take self.l } :
                      SolveState).a, r0.length = self.l := by
                    intro r0 hr0
                    exact hdims3.2.1 r0 ((List.take_sublist _ _).subset hr0)
                  have hsrcT : ∀ rr, r1.2.1 ≤ rr → rr < self.l → ∀ cc,
                      entry ({ st3 with a := st3.a.take self.l } : SolveState).a rr cc
                        = if cc = rr then true else false := by
                    intro rr h1 h2 cc
                    show entry (st3.a.take self.l) rr cc = _
                    rw [entry_take st3.a self.l rr cc h2]
                    by_cases hcc : cc = rr
                    · rw [if_pos hcc, hcc]
                      exact (hclr3 rr h1 h2).1
                    · rw [if_neg hcc]
                      by_cases hcl : cc < self.l
                      · by_cases hci : cc < r1.2.1
                        · exact hlow3 rr h1 (by omega) cc hci
                        · by_cases hcr : cc < rr
                          · exact (hclr3 cc (by omega) hcl).2 rr (by omega) (by omega)
                          · exact habove3 cc (by omega) hcl rr h1 (by omega)
                      · refine entry_col_oob st3.a rr cc (by rw [hdims3.1]; omega) ?_
                        rw [hdims3.2.1 _ (List.getElem_mem _)]
                        omega
                  obtain ⟨hlen4, hrows4, hfr4, hjs4⟩ := phase4_fold_spec self.l r1.2.1
                    (by omega) (List.range r1.2.1) { st3 with a := st3.a.take self.l }
                    hlenT hrowsT (fun j hj => List.mem_range.mp hj)
                    (List.nodup_range _) hsrcT st4 hp4
                  rw [← hafin]
                  apply mat_ext st4.a (matIdentity self.l) self.l hlen4
                    (matIdentity_length self.l) hrows4 (matIdentity_rows self.l)
                  intro r c
                  rw [matIdentity_entry self.l r c]
                  by_cases hri : r < r1.2.1
                  · obtain ⟨hf, hu⟩ := hjs4 r (List.mem_range.mpr hri)
                    by_cases hcl : c < self.l
                    · by_cases hci : c < r1.2.1
                      · rw [hu c (Or.inl hci)]
                        show entry (st3.a.take self.l) r c = _
                        rw [entry_take st3.a self.l r c (by omega)]
                        obtain ⟨hjj, hjz⟩ := htop3 r hri
                        by_cases hrc : r = c
                        · rw [← hrc, hjj]
                          have h1 : r < self.l := by omega
                          simp [h1]
                        · rw [hjz c hci (fun h => hrc h.symm)]
                          simp [hrc]
                      · rw [hf c (by omega) hcl]
                        have hne : ¬ (r = c) := by omega
                        simp [hne]
                    · rw [hu c (Or.inr (by omega))]
                      show entry (st3.a.take self.l) r c = _
                      rw [entry_take st3.a self.l r c (by omega)]
                      rw [entry_col_oob st3.a r c (by rw [hdims3.1]; omega)
                        (by rw [hdims3.2.1 _ (List.getElem_mem _)]; omega)]
                      simp [hcl]
                  · by_cases hrl : r < self.l
                    · rw [hfr4 r c (fun h => absurd (List.mem_range.mp h) hri),
                        hsrcT r (by omega) hrl c]
                      by_cases hc : c = r
                      · rw [if_pos hc, hc]
                        simp [hrl]
                      · rw [if_neg hc]
                        have hne : ¬ (r = c) := fun h => hc h.symm
                        simp [hne]
                    · rw [entry_out_of_range st4.a r (by rw [hlen4]; omega)]
                      simp [hrl]

/-- C2: solver postcondition - whenever `decoding_schedule(A)` returns
without raising, on an assembled matrix `A` of `M = S + H + N` rows of
width `L` with `N >= K` received symbols (`L = K + S + H`), the first `L`
rows of the mutated matrix form the `L`-by-`L` identity matrix. -/
theorem C2_solver_postcondition (self : RaptorR10) (a : Mat) (sched : Schedule)
    (afin : Mat)
    (hlen : a.length = self.s + self.h + self.symbols.length)
    (hrows : ∀ row ∈ a, row.length = self.l)
    (hl : self.l = self.k + self.s + self.h)
    (hN : self.k ≤ self.symbols.length)
    (heq : decoding_schedule self a = .ok (sched, afin)) :
    afin = matIdentity self.l :=
  decoding_schedule_identity self a sched afin hlen hrows hl hN heq

/-- C2 witness: the concrete 2-by-2 instance with the identity matrix as
input; the schedule construction succeeds and the returned matrix is the
identity. -/
theorem C2_witness : ∃ sched afin,
    decoding_schedule zeroVSelf [[true, false], [false, true]] = .ok (sched, afin) ∧
    afin = matIdentity zeroVSelf.l := by
  cases hres : decoding_schedule zeroVSelf [[true, false], [false, true]] with
  | error e =>
      exfalso
      have hok : (decoding_schedule zeroVSelf
          [[true, false], [false, true]]).isOk = true := by decide
      rw [hres] at hok
      cases hok
  | ok p =>
      refine ⟨p.1, p.2, ?_, ?_⟩
      · rfl
      · exact C2_solver_postcondition zeroVSelf [[true, false], [false, true]]
          p.1 p.2 (by decide) (by decide) (by decide) (by decide) hres

theorem bval_xor (a b : Bool) : bval (xor a b) = bval a + bval b := by
  cases a <;> cases b <;> decide

theorem bval_and (a b : Bool) : bval (a && b) = bval a * bval b := by
  cases a <;> cases b <;> decide

theorem bval_inj (a b : Bool) (h : bval a = bval b) : a = b := by
  cases a <;> cases b
  · rfl
  · exact absurd h (by decide)
  · exact absurd h (by decide)
  · rfl

theorem bval_true : bval true = 1 := rfl

theorem bval_false : bval false = 0 := rfl

theorem replayCoef_append (xs : List (Nat × Nat)) (p : Nat × Nat) :
    replayCoef (xs ++ [p]) = coefStep (replayCoef xs) p := by
  unfold replayCoef
  rw [List.foldl_append]
  rfl

theorem SolveReach.trans2 : ∀ {a b c : SolveState},
    SolveReach a b → SolveReach b c → SolveReach a c := by
  intro a b c h1 h2
  induction h2 with
  | refl => exact h1
  | tail st2 st3 h2 hs ih => exact SolveReach.tail _ _ _ ih hs

theorem SolveReach.single {a b : SolveState} (h : SolveStep a b) : SolveReach a b :=
  SolveReach.tail _ _ _ (SolveReach.refl a) h

theorem mapM_ok_forall {α β : Type} (f : α → Except PyErr β) :
    ∀ (xs : List α) (ys : List β), xs.mapM f = .ok ys → ∀ x ∈ xs, ∃ y, f x = .ok y := by
  intro xs
  induction xs with
  | nil =>
      intro ys _ x hx
      cases hx
  | cons a as ih =>
      intro ys heq x hx
      rw [List.mapM_cons] at heq
      cases hf : f a with
      | error e =>
          rw [hf] at heq
          exact absurd heq (by simp [except_error_bind])
      | ok b =>
          rw [hf] at heq
          simp only [except_ok_bind] at heq
          cases hm : as.mapM f with
          | error e =>
              rw [hm] at heq
              exact absurd heq (by simp [except_error_bind])
          | ok bs =>
              cases List.mem_cons.mp hx with
              | inl h => exact ⟨b, h ▸ hf⟩
              | inr h => exact ih bs hm x h

theorem lget_ok_bound {α : Type} (xs : List α) (i : Nat) (v : α)
    (h : lget xs i = .ok v) : i < xs.length := by
  unfold lget at h
  cases hg : xs[i]? with
  | none =>
      rw [hg] at h
      cases h
  | some w =>
      exact (List.getElem?_eq_some_iff.mp hg).1

theorem xor_row_ok_bounds (st : SolveState) (r1 r2 : Nat) (st1 : SolveState)
    (heq : xor_row st r1 r2 = .ok st1) : r1 < st.a.length ∧ r2 < st.a.length := by
  unfold xor_row at heq
  cases hg1 : lget st.a r1 with
  | error e =>
      rw [hg1] at heq
      exact absurd heq (by simp [except_error_bind])
  | ok row1 =>
      rw [hg1] at heq
      simp only [except_ok_bind] at heq
      cases hg2 : lget st.a r2 with
      | error e =>
          rw [hg2] at heq
          exact absurd heq (by simp [except_error_bind])
      | ok row2 =>
          exact ⟨lget_ok_bound st.a r1 row1 hg1, lget_ok_bound st.a r2 row2 hg2⟩

theorem exchange_row_ok_bounds (st : SolveState) (r1 r2 : Nat) (st1 : SolveState)
    (heq : exchange_row st r1 r2 = .ok st1) : r1 < st.a.length ∧ r2 < st.a.length := by
  unfold exchange_row at heq
  cases hg1 : lget st.a r1 with
  | error e =>
      rw [hg1] at heq
      exact absurd heq (by simp [except_error_bind])
  | ok row1 =>
      rw [hg1] at heq
      simp only [except_ok_bind] at heq
      cases hg2 : lget st.a r2 with
      | error e =>
          rw [hg2] at heq
          exact absurd heq (by simp [except_error_bind])
      | ok row2 =>
          exact ⟨lget_ok_bound st.a r1 row1 hg1, lget_ok_bound st.a r2 row2 hg2⟩

theorem exchange_column_ok_bounds (st : SolveState) (c1 c2 : Nat) (st1 : SolveState)
    (heq : exchange_column st c1 c2 = .ok st1) :
    ∀ row ∈ st.a, c1 < row.length ∧ c2 < row.length := by
  unfold exchange_column at heq
  intro row hrow
  cases hmm : st.a.mapM (fun row => do
      let t1 ← lget row c1
      let t2 ← lget row c2
      let row1 ← lset row c1 t2
      lset row1 c2 t1) with
  | error e =>
      rw [hmm] at heq
      exact absurd heq (by simp [except_error_bind])
  | ok a1 =>
      obtain ⟨y, hy⟩ := mapM_ok_forall _ st.a a1 hmm row hrow
      cases hg1 : lget row c1 with
      | error e =>
          rw [hg1] at hy
          exact absurd hy (by simp [except_error_bind])
      | ok t1 =>
          rw [hg1] at hy
          simp only [except_ok_bind] at hy
          cases hg2 : lget row c2 with
          | error e =>
              rw [hg2] at hy
              exact absurd hy (by simp [except_error_bind])
          | ok t2 =>
              exact ⟨lget_ok_bound row c1 t1 hg1, lget_ok_bound row c2 t2 hg2⟩

theorem swapFun_eq_comp_swap (f : Nat → Nat) (i j : Nat) :
    swapFun f i j = f ∘ (Equiv.swap i j) := by
  funext x
  unfold swapFun
  simp only [Function.comp]
  rw [Equiv.swap_apply_def]
  by_cases h1 : x = i
  · rw [if_pos h1, if_pos h1]
  · rw [if_neg h1, if_neg h1]
    by_cases h2 : x = j
    · rw [if_pos h2, if_pos h2]
    · rw [if_neg h2, if_neg h2]

theorem swapFun_inj (f : Nat → Nat) (i j : Nat) (hf : Function.Injective f) :
    Function.Injective (swapFun f i j) := by
  rw [swapFun_eq_comp_swap]
  exact hf.comp (Equiv.injective _)

theorem good_step (a0 : Mat) (m l : Nat) (hm : 0 < m) (st st1 : SolveState)
    (hg : Good a0 m l st) (hs : SolveStep st st1) : Good a0 m l st1 := by
  obtain ⟨hdims, hinjR, hinjC, hmapR, hmapC, hxb, hinv⟩ := hg
  have hal : st.a.length = m := hdims.1
  cases hs with
  | xr r1 r2 heq =>
      obtain ⟨hb1, hb2⟩ := xor_row_ok_bounds st r1 r2 st1 heq
      obtain ⟨st2, heq2, hdims2, heff, hod, hsch⟩ :=
        xor_row_spec st m l r1 r2 hdims (by omega) (by omega)
      rw [heq] at heq2
      have hst := Except.ok.inj heq2
      subst hst
      have hxors1 : st1.sched.xors =
          st.sched.xors ++ [(st.sched.row_perm r2, st.sched.row_perm r1)] := by
        rw [hsch]
        rfl
      have hrp1 : st1.sched.row_perm = st.sched.row_perm := by
        rw [hsch]
        rfl
      have hcp1 : st1.sched.col_perm = st.sched.col_perm := by
        rw [hsch]
        rfl
      refine ⟨hdims2, by rw [hrp1]; exact hinjR, by rw [hcp1]; exact hinjC,
        by rw [hrp1]; exact hmapR, by rw [hcp1]; exact hmapC, ?_, ?_⟩
      · intro p hp
        rw [hxors1] at hp
        cases List.mem_append.mp hp with
        | inl h => exact hxb p h
        | inr h =>
            have : p = (st.sched.row_perm r2, st.sched.row_perm r1) := by
              simpa using h
            rw [this]
            exact ⟨hmapR r2 (by omega), hmapR r1 (by omega)⟩
      · intro r c
        rw [heff r c, hrp1, hcp1, hxors1, replayCoef_append]
        by_cases hr : r = r1
        · rw [if_pos hr, bval_xor, hinv r1 c, hinv r2 c, ← Finset.sum_add_distrib]
          apply Finset.sum_congr rfl
          intro q _
          unfold coefStep
          dsimp only
          rw [hr, if_pos rfl, bval_xor]
          ring
        · rw [if_neg hr, hinv r c]
          apply Finset.sum_congr rfl
          intro q _
          unfold coefStep
          dsimp only
          rw [if_neg (fun hcontra => hr (hinjR hcontra))]
  | er r1 r2 heq =>
      obtain ⟨hb1, hb2⟩ := exchange_row_ok_bounds st r1 r2 st1 heq
      obtain ⟨st2, heq2, hdims2, heff, hsch⟩ :=
        exchange_row_spec st m l r1 r2 hdims (by omega) (by omega)
      rw [heq] at heq2
      have hst := Except.ok.inj heq2
      subst hst
      have hxors1 : st1.sched.xors = st.sched.xors := by
        rw [hsch]
        rfl
      have hrp1 : st1.sched.row_perm = swapFun st.sched.row_perm r1 r2 := by
        rw [hsch]
        rfl
      have hcp1 : st1.sched.col_perm = st.sched.col_perm := by
        rw [hsch]
        rfl
      refine ⟨hdims2, by rw [hrp1]; exact swapFun_inj _ _ _ hinjR,
        by rw [hcp1]; exact hinjC, ?_, by rw [hcp1]; exact hmapC,
        by rw [hxors1]; exact hxb, ?_⟩
      · intro r hr
        rw [hrp1]
        unfold swapFun
        by_cases h1 : r = r1
        · rw [if_pos h1]
          exact hmapR r2 (by omega)
        · rw [if_neg h1]
          by_cases h2 : r = r2
          · rw [if_pos h2]
            exact hmapR r1 (by omega)
          · rw [if_neg h2]
            exact hmapR r hr
      · intro r c
        rw [heff r c, hrp1, hcp1, hxors1]
        unfold swapFun
        by_cases h1 : r = r1
        · rw [if_pos h1, if_pos h1]
          exact hinv r2 c
        · rw [if_neg h1, if_neg h1]
          by_cases h2 : r = r2
          · rw [if_pos h2, if_pos h2]
            exact hinv r1 c
          · rw [if_neg h2, if_neg h2]
            exact hinv r c
  | ec c1 c2 heq =>
      have hbrows := exchange_column_ok_bounds st c1 c2 st1 heq
      have hne : st.a ≠ [] := by
        intro hnil
        rw [hnil] at hal
        simp at hal
        omega
      obtain ⟨row0, hrow0⟩ := List.exists_mem_of_ne_nil st.a hne
      have hrow0l : row0.length = l := hdims.2.1 row0 hrow0
      obtain ⟨hc1, hc2⟩ := hbrows row0 hrow0
      obtain ⟨st2, heq2, hdims2, heff, hod, hsch⟩ :=
        exchange_column_spec st m l c1 c2 hdims (by omega) (by omega)
      rw [heq] at heq2
      have hst := Except.ok.inj heq2
      subst hst
      have hxors1 : st1.sched.xors = st.sched.xors := by
        rw [hsch]
        rfl
      have hrp1 : st1.sched.row_perm = st.sched.row_perm := by
        rw [hsch]
        rfl
      have hcp1 : st1.sched.col_perm = swapFun st.sched.col_perm c1 c2 := by
        rw [hsch]
        rfl
      refine ⟨hdims2, by rw [hrp1]; exact hinjR,
        by rw [hcp1]; exact swapFun_inj _ _ _ hinjC,
        by rw [hrp1]; exact hmapR, ?_, by rw [hxors1]; exact hxb, ?_⟩
      · intro c hc
        rw [hcp1]
        unfold swapFun
        by_cases h1 : c = c1
        · rw [if_pos h1]
          exact hmapC c2 (by omega)
        · rw [if_neg h1]
          by_cases h2 : c = c2
          · rw [if_pos h2]
            exact hmapC c1 (by omega)
          · rw [if_neg h2]
            exact hmapC c hc
      · intro r c
        rw [heff r c, hrp1, hcp1, hxors1]
        unfold swapFun
        by_cases h1 : c = c2
        · rw [if_pos h1]
          by_cases h0 : c = c1
          · rw [if_pos h0]
            rw [← h0, ← h1]
            exact hinv r c
          · rw [if_neg h0, if_pos h1]
            exact hinv r c1
        · rw [if_neg h1]
          by_cases h0 : c = c1
          · rw [if_pos h0, if_pos h0]
            exact hinv r c2
          · rw [if_neg h0, if_neg h0, if_neg h1]
            exact hinv r c

theorem good_reach (a0 : Mat) (m l : Nat) (hm : 0 < m) (st st1 : SolveState)
    (hg : Good a0 m l st) (hr : SolveReach st st1) : Good a0 m l st1 := by
  induction hr with
  | refl => exact hg
  | tail st2 st3 h2 hs ih => exact good_step a0 m l hm _ _ ih hs

theorem prepass_reach (st st1 : SolveState) (heq : prepass st = .ok st1) :
    SolveReach st st1 := by
  unfold prepass at heq
  refine foldlM_invariant _ (fun t => SolveReach st t) _ _ _ (SolveReach.refl st) ?_ heq
  intro i _ t t1 hP hstep
  refine foldlM_invariant _ (fun t2 => SolveReach st t2) _ _ _ hP ?_ hstep
  intro j _ t2 t3 hP2 hstep2
  cases hg1 : lget t2.a j with
  | error e =>
      rw [hg1] at hstep2
      exact absurd hstep2 (by simp [except_error_bind])
  | ok rowj =>
      rw [hg1] at hstep2
      simp only [except_ok_bind] at hstep2
      cases hg2 : lget t2.a i with
      | error e =>
          rw [hg2] at hstep2
          exact absurd hstep2 (by simp [except_error_bind])
      | ok rowi =>
          rw [hg2] at hstep2
          simp only [except_ok_bind] at hstep2
          by_cases hc : bcount (List.zipWith xor rowi rowj) + 2 < bcount rowj
          · rw [if_pos hc] at hstep2
            exact SolveReach.tail _ _ _ hP2 (SolveStep.xr _ _ j i hstep2)
          · rw [if_neg hc, except_pure] at hstep2
            cases hstep2
            exact hP2

theorem xor_below_reach (i m : Nat) (st st1 : SolveState)
    (heq : xor_below i m st = .ok st1) : SolveReach st st1 := by
  unfold xor_below at heq
  refine foldlM_invariant _ (fun t => SolveReach st t) _ _ _ (SolveReach.refl st) ?_ heq
  intro row _ t t1 hP hstep
  cases hg : lget t.a row with
  | error e =>
      rw [hg] at hstep
      exact absurd hstep (by simp [except_error_bind])
  | ok rowv =>
      rw [hg] at hstep
      simp only [except_ok_bind] at hstep
      by_cases hb : rowv.getD i false = true
      · rw [if_pos hb] at hstep
        exact SolveReach.tail _ _ _ hP (SolveStep.xr _ _ row i hstep)
      · have hb0 : rowv.getD i false = false := by
          revert hb
          cases rowv.getD i false <;> simp
        rw [hb0, if_neg (by simp), except_pure] at hstep
        cases hstep
        exact hP

theorem align_scan_reach (i : Nat) :
    ∀ (column : Nat) (ones : List Nat) (st st1 : SolveState),
      align_scan i column ones st = .ok st1 → SolveReach st st1 := by
  intro column
  induction column with
  | zero =>
      intro ones st st1 heq
      unfold align_scan at heq
      rw [except_pure] at heq
      cases heq
      exact SolveReach.refl st
  | succ column ih =>
      intro ones st st1 heq
      unfold align_scan at heq
      by_cases hcond : i < column + 1 ∧ ones ≠ []
      · rw [if_pos hcond] at heq
        cases hg : lget st.a i with
        | error e =>
            rw [hg] at heq
            exact absurd heq (by simp [except_error_bind])
        | ok rowi =>
            rw [hg] at heq
            simp only [except_ok_bind] at heq
            by_cases hcp : rowi.getD (column + 1) false = false
            · rw [if_pos hcp] at heq
              cases ones with
              | nil => cases heq
              | cons c rest =>
                  dsimp only at heq
                  cases hex : exchange_column st (column + 1) c with
                  | error e =>
                      rw [hex] at heq
                      exact absurd heq (by simp [except_error_bind])
                  | ok st2 =>
                      rw [hex] at heq
                      simp only [except_ok_bind] at heq
                      exact SolveReach.trans2
                        (SolveReach.single (SolveStep.ec _ _ (column + 1) c hex))
                        (ih rest st2 st1 heq)
            · rw [if_neg hcp] at heq
              by_cases hct : ones.contains (column + 1)
              · rw [if_pos hct] at heq
                exact ih _ st st1 heq
              · rw [if_neg hct] at heq
                cases heq
      · rw [if_neg hcond, except_pure] at heq
        cases heq
        exact SolveReach.refl st

theorem phase1_reach (m l : Nat) :
    ∀ (fuel i u : Nat) (st : SolveState) (res : SolveState × Nat × Nat),
      phase1 m l fuel i u st = .ok res → SolveReach st res.1 := by
  intro fuel
  induction fuel with
  | zero =>
      intro i u st res heq
      cases heq
  | succ fuel ih =>
      intro i u st res heq
      unfold phase1 at heq
      by_cases hlt : i + u < l
      · rw [if_pos hlt] at heq
        cases hrr : rows_with_min_r st.a m i u l with
        | error e =>
            rw [hrr] at heq
            exact absurd heq (by simp [except_error_bind])
        | ok rr =>
            rw [hrr] at heq
            simp only [except_ok_bind] at heq
            cases hoc : (if rr.1 = some 2 then (do
                let rw1 ← row_from_graph st.a m i u l rr.2
                pure (some rw1) : Except PyErr (Option Nat))
              else min_degree_row st.o_degrees m rr.2) with
            | error e =>
                rw [hoc] at heq
                exact absurd heq (by simp [except_error_bind])
            | ok oc =>
                rw [hoc] at heq
                simp only [except_ok_bind] at heq
                by_cases hz : rr.1 = some 0
                · rw [if_pos hz] at heq
                  cases heq
                · rw [if_neg hz] at heq
                  cases oc with
                  | none => cases heq
                  | some rw1 =>
                      dsimp only at heq
                      cases hex : exchange_row st i rw1 with
                      | error e =>
                          rw [hex] at heq
                          exact absurd heq (by simp [except_error_bind])
                      | ok st2 =>
                          rw [hex] at heq
                          simp only [except_ok_bind] at heq
                          cases hg : lget st2.a i with
                          | error e =>
                              rw [hg] at heq
                              exact absurd heq (by simp [except_error_bind])
                          | ok rowi =>
                              rw [hg] at heq
                              simp only [except_ok_bind] at heq
                              have hreach2 : SolveReach st st2 :=
                                SolveReach.single (SolveStep.er _ _ i rw1 hex)
                              by_cases hdiag : rowi.getD i false = false
                              · rw [if_pos hdiag] at heq
                                cases hones : onesInit rowi i (l - u) with
                                | nil =>
                                    rw [hones] at heq
                                    dsimp only at heq
                                    cases heq
                                | cons c rest =>
                                    rw [hones] at heq
                                    dsimp only at heq
                                    cases hex2 : exchange_column st2 i c with
                                    | error e =>
                                        rw [hex2] at heq
                                        exact absurd heq (by simp [except_error_bind])
                                    | ok st3 =>
                                        rw [hex2] at heq
                                        simp only [except_ok_bind] at heq
                                        cases hal : align_scan i (l - u - 1) rest st3 with
                                        | error e =>
                                            rw [hal] at heq
                                            exact absurd heq (by simp [except_error_bind])
                                        | ok st4 =>
                                            rw [hal] at heq
                                            simp only [except_ok_bind] at heq
                                            cases hxb : xor_below i m st4 with
                                            | error e =>
                                                rw [hxb] at heq
                                                exact absurd heq
                                                  (by simp [except_error_bind])
                                            | ok st5 =>
                                                rw [hxb] at heq
                                                simp only [except_ok_bind] at heq
                                                cases hr1 : rr.1 with
                                                | none =>
                                                    rw [hr1] at heq
                                                    cases heq
                                                | some r =>
                                                    rw [hr1] at heq
                                                    dsimp only at heq
                                                    refine SolveReach.trans2 hreach2
                                                      (SolveReach.trans2
                                                        (SolveReach.single
                                                          (SolveStep.ec _ _ i c hex2))
                                                        (SolveReach.trans2
                                                          (align_scan_reach i _ rest
                                                            st3 st4 hal)
                                                          (SolveReach.trans2
                                                            (xor_below_reach i m st4
                                                              st5 hxb)
                                                            (ih (i + 1) (u + (r - 1))
                                                              st5 res heq))))
                              · rw [if_neg hdiag] at heq
                                by_cases hct : (onesInit rowi i (l - u)).contains i
                                · rw [if_pos hct] at heq
                                  cases hal : align_scan i (l - u - 1)
                                      ((onesInit rowi i (l - u)).erase i) st2 with
                                  | error e =>
                                      rw [hal] at heq
                                      exact absurd heq (by simp [except_error_bind])
                                  | ok st4 =>
                                      rw [hal] at heq
                                      simp only [except_ok_bind] at heq
                                      cases hxb : xor_below i m st4 with
                                      | error e =>
                                          rw [hxb] at heq
                                          exact absurd heq (by simp [except_error_bind])
                                      | ok st5 =>
                                          rw [hxb] at heq
                                          simp only [except_ok_bind] at heq
                                          cases hr1 : rr.1 with
                                          | none =>
                                              rw [hr1] at heq
                                              cases heq
                                          | some r =>
                                              rw [hr1] at heq
                                              dsimp only at heq
                                              refine SolveReach.trans2 hreach2
                                                (SolveReach.trans2
                                                  (align_scan_reach i _ _ st2 st4 hal)
                                                  (SolveReach.trans2
                                                    (xor_below_reach i m st4 st5 hxb)
                                                    (ih (i + 1) (u + (r - 1))
                                                      st5 res heq)))
                                · rw [if_neg hct] at heq
                                  cases heq
      · rw [if_neg hlt, except_pure] at heq
        cases heq
        exact SolveReach.refl st

theorem phase2_reach (m l u : Nat) (st st1 : SolveState)
    (heq : phase2 m l u st = .ok st1) : SolveReach st st1 := by
  unfold phase2 at heq
  refine foldlM_invariant _ (fun t => SolveReach st t) _ _ _ (SolveReach.refl st) ?_ heq
  intro column _ t t1 hP hstep
  cases hg : lget t.a column with
  | error e =>
      rw [hg] at hstep
      exact absurd hstep (by simp [except_error_bind])
  | ok rowc =>
      rw [hg] at hstep
      simp only [except_ok_bind] at hstep
      suffices hmid : ∃ t2, SolveReach st t2 ∧
          (List.range' (column + 1) (m - (column + 1))).foldlM
            (fun (st : SolveState) (row : Nat) => do
              let rowv ← lget st.a row
              if rowv.getD column false then xor_row st row column else pure st) t2
            = .ok t1 by
        obtain ⟨t2, hre, hif⟩ := hmid
        refine foldlM_invariant _ (fun t3 => SolveReach st t3) _ _ _ hre ?_ hif
        intro row _ t3 t4 hP3 hstep3
        cases hg3 : lget t3.a row with
        | error e =>
            rw [hg3] at hstep3
            exact absurd hstep3 (by simp [except_error_bind])
        | ok rowv =>
            rw [hg3] at hstep3
            simp only [except_ok_bind] at hstep3
            by_cases hb : rowv.getD column false = true
            · rw [if_pos hb] at hstep3
              exact SolveReach.tail _ _ _ hP3 (SolveStep.xr _ _ row column hstep3)
            · have hb0 : rowv.getD column false = false := by
                revert hb
                cases rowv.getD column false <;> simp
              rw [hb0, if_neg (by simp), except_pure] at hstep3
              cases hstep3
              exact hP3
      by_cases hd : rowc.getD column false = false
      · rw [if_pos hd] at hstep
        cases hff : findFirstRow t.a column (column + 1) m with
        | error e =>
            rw [hff] at hstep
            exact absurd hstep (by simp [except_error_bind])
        | ok found =>
            rw [hff] at hstep
            simp only [except_ok_bind] at hstep
            cases found with
            | none =>
                dsimp only at hstep
                simp only [except_pure, except_ok_bind] at hstep
                cases hg2 : lget t.a column with
                | error e =>
                    rw [hg2] at hstep
                    exact absurd hstep (by simp [except_error_bind])
                | ok rowc2 =>
                    rw [hg2] at hstep
                    simp only [except_ok_bind] at hstep
                    by_cases hd2 : rowc2.getD column false = false
                    · rw [if_pos hd2] at hstep
                      cases hstep
                    · rw [if_neg hd2] at hstep
                      simp only [except_pure, except_ok_bind] at hstep
                      exact ⟨t, hP, hstep⟩
            | some row =>
                dsimp only at hstep
                cases hex : exchange_row t column row with
                | error e =>
                    rw [hex] at hstep
                    exact absurd hstep (by simp [except_error_bind])
                | ok t2 =>
                    rw [hex] at hstep
                    simp only [except_ok_bind] at hstep
                    cases hg2 : lget t2.a column with
                    | error e =>
                        rw [hg2] at hstep
                        exact absurd hstep (by simp [except_error_bind])
                    | ok rowc2 =>
                        rw [hg2] at hstep
                        simp only [except_ok_bind] at hstep
                        by_cases hd2 : rowc2.getD column false = false
                        · rw [if_pos hd2] at hstep
                          cases hstep
                        · rw [if_neg hd2] at hstep
                          simp only [except_pure, except_ok_bind] at hstep
                          exact ⟨t2, SolveReach.tail _ _ _ hP
                            (SolveStep.er _ _ column row hex), hstep⟩
      · rw [if_neg hd] at hstep
        simp only [except_pure, except_ok_bind] at hstep
        exact ⟨t, hP, hstep⟩

theorem phase3_reach (i l u : Nat) (st st1 : SolveState)
    (heq : phase3 i l u st = .ok st1) : SolveReach st st1 := by
  unfold phase3 at heq
  refine foldlM_invariant _ (fun t => SolveReach st t) _ _ _ (SolveReach.refl st) ?_ heq
  intro column _ t t1 hP hstep
  refine foldlM_invariant _ (fun t2 => SolveReach st t2) _ _ _ hP ?_ hstep
  intro row _ t2 t3 hP2 hstep2
  cases hg : lget t2.a row with
  | error e =>
      rw [hg] at hstep2
      exact absurd hstep2 (by simp [except_error_bind])
  | ok rowv =>
      rw [hg] at hstep2
      simp only [except_ok_bind] at hstep2
      by_cases hb : rowv.getD column false = true
      · rw [if_pos hb] at hstep2
        exact SolveReach.tail _ _ _ hP2 (SolveStep.xr _ _ row column hstep2)
      · have hb0 : rowv.getD column false = false := by
          revert hb
          cases rowv.getD column false <;> simp
        rw [hb0, if_neg (by simp), except_pure] at hstep2
        cases hstep2
        exact hP2

theorem phase4_xreach (i l u : Nat) (st st1 : SolveState)
    (heq : phase4 i l u st = .ok st1) : XorReach st st1 := by
  unfold phase4 at heq
  refine foldlM_invariant _ (fun t => XorReach st t) _ _ _ (XorReach.refl st) ?_ heq
  intro row _ t t1 hP hstep
  refine foldlM_invariant _ (fun t2 => XorReach st t2) _ _ _ hP ?_ hstep
  intro column _ t2 t3 hP2 hstep2
  cases hg : lget t2.a row with
  | error e =>
      rw [hg] at hstep2
      exact absurd hstep2 (by simp [except_error_bind])
  | ok rowv =>
      rw [hg] at hstep2
      simp only [except_ok_bind] at hstep2
      by_cases hb : rowv.getD column false = true
      · rw [if_pos hb] at hstep2
        exact XorReach.tail _ _ _ hP2 (XorStep.xr _ _ row column hstep2)
      · have hb0 : rowv.getD column false = false := by
          revert hb
          cases rowv.getD column false <;> simp
        rw [hb0, if_neg (by simp), except_pure] at hstep2
        cases hstep2
        exact hP2

theorem good_init (a0 : Mat) (m l : Nat) (hlen : a0.length = m)
    (hrows : ∀ row ∈ a0, row.length = l) :
    Good a0 m l ⟨a0, a0.map bcount, Schedule.init l m⟩ := by
  refine ⟨⟨hlen, hrows, by rw [List.length_map]; exact hlen⟩,
    fun x y h => h, fun x y h => h, fun r h => h, fun c h => h,
    fun p hp => absurd hp (by simp [Schedule.init]), ?_⟩
  intro r c
  show bval (entry a0 r c) =
    ∑ q ∈ Finset.range m, bval (decide (r = q)) * bval (entry a0 q c)
  by_cases hr : r < m
  · rw [Finset.sum_eq_single_of_mem r (Finset.mem_range.mpr hr)]
    · rw [show (decide (r = r) : Bool) = true from by simp, bval_true, one_mul]
    · intro b _ hbr
      rw [show (decide (r = b) : Bool) = false from by
        simp only [decide_eq_false_iff_not]
        exact fun h => hbr h.symm, bval_false, zero_mul]
  · rw [entry_out_of_range a0 r (by omega) c, bval_false]
    symm
    apply Finset.sum_eq_zero
    intro q hq
    have hqm := Finset.mem_range.mp hq
    have hrq : ¬ (r = q) := by omega
    rw [show (decide (r = q) : Bool) = false from by
      simp only [decide_eq_false_iff_not]
      exact hrq, bval_false, zero_mul]

theorem good2_of_take (a0 : Mat) (m l : Nat) (hml : l ≤ m) (st : SolveState)
    (hg : Good a0 m l st) :
    Good2 a0 m l { st with a := st.a.take l } := by
  obtain ⟨⟨hlen, hrows, hod⟩, hinjR, hinjC, hmapR, hmapC, hxb, hinv⟩ := hg
  refine ⟨?_, ?_, hinjR, hinjC, hmapR, hmapC, hxb, ?_⟩
  · show (st.a.take l).length = l
    rw [List.length_take]
    omega
  · intro row hrow
    exact hrows row ((List.take_sublist _ _).subset hrow)
  · intro r c hr
    show bval (entry (st.a.take l) r c) = _
    rw [entry_take st.a l r c hr]
    exact hinv r c

theorem good2_xstep (a0 : Mat) (m l : Nat) (hml : l ≤ m) (st st1 : SolveState)
    (hg : Good2 a0 m l st) (hs : XorStep st st1) : Good2 a0 m l st1 := by
  obtain ⟨hlen, hrows, hinjR, hinjC, hmapR, hmapC, hxb, hinv⟩ := hg
  cases hs with
  | xr r1 r2 heq =>
      obtain ⟨hb1, hb2⟩ := xor_row_ok_bounds st r1 r2 st1 heq
      obtain ⟨st2, heq2, hlen2, hrows2, heff, hod, hsch⟩ :=
        xor_row_spec2 st l l r1 r2 hlen hrows (by omega) (by omega)
      rw [heq] at heq2
      have hst := Except.ok.inj heq2
      subst hst
      have hxors1 : st1.sched.xors =
          st.sched.xors ++ [(st.sched.row_perm r2, st.sched.row_perm r1)] := by
        rw [hsch]
        rfl
      have hrp1 : st1.sched.row_perm = st.sched.row_perm := by
        rw [hsch]
        rfl
      have hcp1 : st1.sched.col_perm = st.sched.col_perm := by
        rw [hsch]
        rfl
      refine ⟨hlen2, hrows2, by rw [hrp1]; exact hinjR, by rw [hcp1]; exact hinjC,
        by rw [hrp1]; exact hmapR, by rw [hcp1]; exact hmapC, ?_, ?_⟩
      · intro p hp
        rw [hxors1] at hp
        cases List.mem_append.mp hp with
        | inl h => exact hxb p h
        | inr h =>
            have hp2 : p = (st.sched.row_perm r2, st.sched.row_perm r1) := by
              simpa using h
            rw [hp2]
            exact ⟨hmapR r2 (by omega), hmapR r1 (by omega)⟩
      · intro r c hr
        rw [heff r c, hrp1, hcp1, hxors1, replayCoef_append]
        by_cases hrr : r = r1
        · rw [if_pos hrr, bval_xor, hinv r1 c (by omega), hinv r2 c (by omega),
            ← Finset.sum_add_distrib]
          apply Finset.sum_congr rfl
          intro q _
          unfold coefStep
          dsimp only
          rw [hrr, if_pos rfl, bval_xor]
          ring
        · rw [if_neg hrr, hinv r c hr]
          apply Finset.sum_congr rfl
          intro q _
          unfold coefStep
          dsimp only
          rw [if_neg (fun hcontra => hrr (hinjR hcontra))]

theorem good2_xreach (a0 : Mat) (m l : Nat) (hml : l ≤ m) (st st1 : SolveState)
    (hg : Good2 a0 m l st) (hr : XorReach st st1) : Good2 a0 m l st1 := by
  induction hr with
  | refl => exact hg
  | tail st2 st3 h2 hs ih => exact good2_xstep a0 m l hml _ _ ih hs

/-- The replay algebra of a successful `decoding_schedule` run: the
schedule's permutations are in-range injections, the recorded XOR pairs
are in-range, and every returned matrix entry is the GF(2) combination of
original rows given by the replay coefficients. -/
theorem decoding_schedule_algebra (self : RaptorR10) (a0 : Mat) (sched : Schedule)
    (afin : Mat)
    (hlen : a0.length = self.s + self.h + self.symbols.length)
    (hrows : ∀ row ∈ a0, row.length = self.l)
    (hml : self.l ≤ self.s + self.h + self.symbols.length)
    (h0l : 0 < self.l)
    (heq : decoding_schedule self a0 = .ok (sched, afin)) :
    afin.length = self.l ∧ (∀ row ∈ afin, row.length = self.l) ∧
    Function.Injective sched.row_perm ∧ Function.Injective sched.col_perm ∧
    (∀ r, r < self.s + self.h + self.symbols.length →
      sched.row_perm r < self.s + self.h + self.symbols.length) ∧
    (∀ c, c < self.l → sched.col_perm c < self.l) ∧
    (∀ p ∈ sched.xors, p.1 < self.s + self.h + self.symbols.length ∧
      p.2 < self.s + self.h + self.symbols.length) ∧
    (∀ r c, r < self.l → bval (entry afin r c) =
      ∑ q ∈ Finset.range (self.s + self.h + self.symbols.length),
        bval (replayCoef sched.xors (sched.row_perm r) q) *
          bval (entry a0 q (sched.col_perm c))) := by
  have hm0 : 0 < self.s + self.h + self.symbols.length := by omega
  suffices htail : ∀ stp : SolveState,
      Good a0 (self.s + self.h + self.symbols.length) self.l stp →
      (do
        let r1 ← phase1 (self.s + self.h + self.symbols.length) self.l
          (self.l + 1) 0 0 stp
        let st := r1.1
        let i := r1.2.1
        let u := r1.2.2
        let st ← phase2 (self.s + self.h + self.symbols.length) self.l u st
        let st ← phase3 i self.l u st
        let st := { st with a := st.a.take self.l }
        let st ← phase4 i self.l u st
        pure (st.sched, st.a) : Except PyErr (Schedule × Mat)) = .ok (sched, afin) →
      afin.length = self.l ∧ (∀ row ∈ afin, row.length = self.l) ∧
      Function.Injective sched.row_perm ∧ Function.Injective sched.col_perm ∧
      (∀ r, r < self.s + self.h + self.symbols.length →
        sched.row_perm r < self.s + self.h + self.symbols.length) ∧
      (∀ c, c < self.l → sched.col_perm c < self.l) ∧
      (∀ p ∈ sched.xors, p.1 < self.s + self.h + self.symbols.length ∧
        p.2 < self.s + self.h + self.symbols.length) ∧
      (∀ r c, r < self.l → bval (entry afin r c) =
        ∑ q ∈ Finset.range (self.s + self.h + self.symbols.length),
          bval (replayCoef sched.xors (sched.row_perm r) q) *
            bval (entry a0 q (sched.col_perm c))) by
    unfold decoding_schedule at heq
    cases hup : self.use_prepass with
    | true =>
        simp only [hup, if_true] at heq
        cases hpp : prepass ⟨a0, a0.map bcount,
            Schedule.init self.l (self.s + self.h + self.symbols.length)⟩ with
        | error e =>
            rw [hpp] at heq
            exact absurd heq (by simp [except_error_bind])
        | ok stp =>
            rw [hpp] at heq
            simp only [except_ok_bind] at heq
            refine htail stp ?_ heq
            exact good_reach a0 _ _ hm0 _ _ (good_init a0 _ _ hlen hrows)
              (prepass_reach _ _ hpp)
    | false =>
        simp only [hup, Bool.false_eq_true, if_false, except_pure,
          except_ok_bind] at heq
        exact htail _ (good_init a0 _ _ hlen hrows) heq
  intro stp hgood heq2
  cases hp1 : phase1 (self.s + self.h + self.symbols.length) self.l
      (self.l + 1) 0 0 stp with
  | error e =>
      rw [hp1] at heq2
      exact absurd heq2 (by simp [except_error_bind])
  | ok r1 =>
      rw [hp1] at heq2
      simp only [except_ok_bind] at heq2
      have hgood1 : Good a0 (self.s + self.h + self.symbols.length) self.l r1.1 :=
        good_reach a0 _ _ hm0 _ _ hgood (phase1_reach _ _ _ _ _ _ _ hp1)
      cases hp2 : phase2 (self.s + self.h + self.symbols.length) self.l
          r1.2.2 r1.1 with
      | error e =>
          rw [hp2] at heq2
          exact absurd heq2 (by simp [except_error_bind])
      | ok st2 =>
          rw [hp2] at heq2
          simp only [except_ok_bind] at heq2
          have hgood2 : Good a0 (self.s + self.h + self.symbols.length) self.l st2 :=
            good_reach a0 _ _ hm0 _ _ hgood1 (phase2_reach _ _ _ _ _ hp2)
          cases hp3 : phase3 r1.2.1 self.l r1.2.2 st2 with
          | error e =>
              rw [hp3] at heq2
              exact absurd heq2 (by simp [except_error_bind])
          | ok st3 =>
              rw [hp3] at heq2
              simp only [except_ok_bind] at heq2
              have hgood3 : Good a0 (self.s + self.h + self.symbols.length)
                  self.l st3 :=
                good_reach a0 _ _ hm0 _ _ hgood2 (phase3_reach _ _ _ _ _ hp3)
              cases hp4 : phase4 r1.2.1 self.l r1.2.2
                  { st3 with a := st3.a.take self.l } with
              | error e =>
                  rw [hp4] at heq2
                  exact absurd heq2 (by simp [except_error_bind])
              | ok st4 =>
                  rw [hp4] at heq2
                  simp only [except_ok_bind, except_pure] at heq2
                  have hpair := Except.ok.inj heq2
                  have hsched : st4.sched = sched := congrArg Prod.fst hpair
                  have hafin : st4.a = afin := congrArg Prod.snd hpair
                  have hgood4 : Good2 a0 (self.s + self.h + self.symbols.length)
                      self.l st4 :=
                    good2_xreach a0 _ _ hml _ _
                      (good2_of_take a0 _ _ hml st3 hgood3)
                      (phase4_xreach _ _ _ _ _ hp4)
                  obtain ⟨h1, h2, h3, h4, h5, h6, h7, h8⟩ := hgood4
                  rw [hsched, hafin] at *
                  exact ⟨h1, h2, h3, h4, h5, h6, h7, h8⟩

theorem payload_ext (p q : Payload) (hl : p.length = q.length)
    (h : ∀ t, p.getD t false = q.getD t false) : p = q := by
  apply List.ext_getElem hl
  intro t h1 h2
  have ht := h t
  rw [List.getD_eq_getElem?_getD, List.getD_eq_getElem?_getD,
    List.getElem?_eq_getElem h1, List.getElem?_eq_getElem h2] at ht
  simpa using ht

theorem lget_ok_eq {α : Type} (xs : List α) (i : Nat) (v d : α)
    (h : lget xs i = .ok v) : xs.getD i d = v := by
  unfold lget at h
  cases hg : xs[i]? with
  | none =>
      rw [hg] at h
      cases h
  | some w =>
      rw [hg] at h
      cases h
      rw [List.getD_eq_getElem?_getD, hg]
      rfl

theorem getD_mem {α : Type} (xs : List α) (i : Nat) (d : α) (h : i < xs.length) :
    xs.getD i d ∈ xs := by
  rw [List.getD_eq_getElem xs d h]
  exact List.getElem_mem h

/-- Lockstep replay correctness: the payload replay of the XOR log realises
exactly the `replayCoef` combination of the original buffers, bit by bit
over `GF(2)`. -/
theorem replay_fold_spec (W : Nat) (D0 : List Payload) :
    ∀ (xors : List (Nat × Nat)) (D : List Payload) (f : Nat → Nat → Bool),
      D.length = D0.length →
      (∀ p ∈ D, p.length = W) →
      (∀ p ∈ xors, p.1 < D0.length ∧ p.2 < D0.length) →
      (∀ tq t, tq < D0.length →
        bval ((D.getD tq []).getD t false) =
          ∑ q ∈ Finset.range D0.length,
            bval (f tq q) * bval ((D0.getD q []).getD t false)) →
      ∀ D1, xors.foldlM (fun (D : List Payload) (p : Nat × Nat) => do
          let src ← lget D p.1
          let tgt ← lget D p.2
          lset D p.2 (xor_arrays src tgt)) D = .ok D1 →
        D1.length = D0.length ∧ (∀ p ∈ D1, p.length = W) ∧
        (∀ tq t, tq < D0.length →
          bval ((D1.getD tq []).getD t false) =
            ∑ q ∈ Finset.range D0.length,
              bval (xors.foldl coefStep f tq q) * bval ((D0.getD q []).getD t false)) := by
  intro xors
  induction xors with
  | nil =>
      intro D f hlen hW hb hrel D1 heq
      rw [List.foldlM_nil, except_pure] at heq
      cases heq
      exact ⟨hlen, hW, hrel⟩
  | cons p ps ih =>
      intro D f hlen hW hb hrel D1 heq
      rw [List.foldlM_cons] at heq
      have hp := hb p (by simp)
      have hp1 : p.1 < D.length := by omega
      have hp2 : p.2 < D.length := by omega
      rw [lget_ok D p.1 hp1, except_ok_bind, lget_ok D p.2 hp2, except_ok_bind,
        lset_ok D p.2 _ hp2, except_ok_bind] at heq
      have hw1 : D[p.1].length = W := hW _ (List.getElem_mem hp1)
      have hw2 : D[p.2].length = W := hW _ (List.getElem_mem hp2)
      have hgd1 : D.getD p.1 [] = D[p.1] := List.getD_eq_getElem D [] hp1
      have hgd2 : D.getD p.2 [] = D[p.2] := List.getD_eq_getElem D [] hp2
      have hlen2 : (D.set p.2 (xor_arrays D[p.1] D[p.2])).length = D0.length := by
        rw [List.length_set]
        exact hlen
      have hW2 : ∀ q ∈ D.set p.2 (xor_arrays D[p.1] D[p.2]), q.length = W := by
        intro q hq
        rcases List.mem_or_eq_of_mem_set hq with hmem | heq2
        · exact hW q hmem
        · rw [heq2]
          unfold xor_arrays
          rw [List.length_zipWith, hw1, hw2]
          omega
      have hrel2 : ∀ tq t, tq < D0.length →
          bval (((D.set p.2 (xor_arrays D[p.1] D[p.2])).getD tq []).getD t false) =
            ∑ q ∈ Finset.range D0.length,
              bval (coefStep f p tq q) * bval ((D0.getD q []).getD t false) := by
        intro tq t htq
        rw [getD_set_row D p.2 _ [] hp2 tq]
        by_cases h2 : tq = p.2
        · rw [if_pos h2]
          unfold xor_arrays
          rw [getD_zipWith_xor D[p.1] D[p.2] (by omega) t, bval_xor,
            ← hgd1, ← hgd2, hrel p.1 t (by omega), hrel p.2 t (by omega),
            ← Finset.sum_add_distrib]
          apply Finset.sum_congr rfl
          intro q _
          unfold coefStep
          rw [h2, if_pos rfl, bval_xor]
          ring
        · rw [if_neg h2, hrel tq t htq]
          apply Finset.sum_congr rfl
          intro q _
          unfold coefStep
          rw [if_neg h2]
      obtain ⟨h1, h2, h3⟩ := ih (D.set p.2 (xor_arrays D[p.1] D[p.2]))
        (coefStep f p) hlen2 hW2 (fun x hx => hb x (by simp [hx])) hrel2 D1 heq
      exact ⟨h1, h2, by
        intro tq t htq
        rw [List.foldl_cons]
        exact h3 tq t htq⟩

/-- The final placement loop writes `some D[d i]` into slot `c i`; with the
written slots distinct, each listed index ends up with its own value. -/
theorem placement_fold_spec (D : List Payload) (sched : Schedule) :
    ∀ (idxs : List Nat) (isym0 : List (Option Payload)),
      idxs.Nodup →
      (∀ i1 ∈ idxs, ∀ i2 ∈ idxs, sched.c i1 = sched.c i2 → i1 = i2) →
      (∀ i ∈ idxs, sched.c i < isym0.length ∧ sched.d i < D.length) →
      ∀ isym1, idxs.foldlM (fun (isym : List (Option Payload)) (i : Nat) => do
          let dv ← lget D (sched.d i)
          lset isym (sched.c i) (some dv)) isym0 = .ok isym1 →
        isym1.length = isym0.length ∧
        (∀ j, (∀ i ∈ idxs, sched.c i ≠ j) → isym1.getD j none = isym0.getD j none) ∧
        (∀ i ∈ idxs, isym1.getD (sched.c i) none = some (D.getD (sched.d i) [])) := by
  intro idxs
  induction idxs with
  | nil =>
      intro isym0 hnd hinj hb isym1 heq
      rw [List.foldlM_nil, except_pure] at heq
      cases heq
      exact ⟨rfl, fun _ _ => rfl, fun i hi => absurd hi (by simp)⟩
  | cons i idxs ih =>
      intro isym0 hnd hinj hb isym1 heq
      rw [List.foldlM_cons] at heq
      have hbi := hb i (by simp)
      rw [lget_ok D (sched.d i) hbi.2, except_ok_bind,
        lset_ok isym0 (sched.c i) _ hbi.1, except_ok_bind] at heq
      have hlen0 : (isym0.set (sched.c i) (some D[sched.d i])).length
          = isym0.length := by rw [List.length_set]
      obtain ⟨h1, h2, h3⟩ := ih (isym0.set (sched.c i) (some D[sched.d i]))
        (List.nodup_cons.mp hnd).2
        (fun a ha b hb2 hcc => hinj a (by simp [ha]) b (by simp [hb2]) hcc)
        (fun a ha => by
          have := hb a (by simp [ha])
          omega) isym1 heq
      have hinr : i ∉ idxs := (List.nodup_cons.mp hnd).1
      refine ⟨by rw [h1, hlen0], ?_, ?_⟩
      · intro j hj
        rw [h2 j (fun a ha => hj a (by simp [ha])),
          getD_set_row isym0 (sched.c i) _ none hbi.1 j,
          if_neg (fun hje => (hj i (by simp)) hje.symm)]
      · intro a ha
        cases List.mem_cons.mp ha with
        | inl h4 =>
            subst h4
            rw [h2 (sched.c a) (fun b hbm hcb => hinr (by
                have := hinj b (by simp [hbm]) a (by simp) hcb
                rw [← this]
                exact hbm)),
              getD_set_row isym0 (sched.c a) _ none hbi.1 (sched.c a),
              if_pos rfl, List.getD_eq_getElem D [] hbi.2]
        | inr h4 => exact h3 a h4

theorem inj_map_into_surj (f : Nat → Nat) (l : Nat) (hinj : Function.Injective f)
    (hmap : ∀ c, c < l → f c < l) : ∀ j, j < l → ∃ i, i < l ∧ f i = j := by
  intro j hj
  have himg : (Finset.range l).image f = Finset.range l := by
    apply Finset.eq_of_subset_of_card_le
    · intro x hx
      obtain ⟨y, hy, hyx⟩ := Finset.mem_image.mp hx
      rw [Finset.mem_range] at hy ⊢
      rw [← hyx]
      exact hmap y hy
    · rw [Finset.card_image_of_injective _ hinj]
  have hjm : j ∈ (Finset.range l).image f := by
    rw [himg]
    exact Finset.mem_range.mpr hj
  obtain ⟨y, hy, hyj⟩ := Finset.mem_image.mp hjm
  exact ⟨y, Finset.mem_range.mp hy, hyj⟩

theorem mapM_ok_length {α β : Type} (f : α → Except PyErr β) :
    ∀ (xs : List α) (ys : List β), xs.mapM f = .ok ys → ys.length = xs.length := by
  intro xs
  induction xs with
  | nil =>
      intro ys heq
      rw [List.mapM_nil, except_pure] at heq
      cases heq
      rfl
  | cons a as ih =>
      intro ys heq
      rw [List.mapM_cons] at heq
      cases hf : f a with
      | error e =>
          rw [hf] at heq
          exact absurd heq (by simp [except_error_bind])
      | ok b =>
          rw [hf] at heq
          simp only [except_ok_bind] at heq
          cases hm : as.mapM f with
          | error e =>
              rw [hm] at heq
              exact absurd heq (by simp [except_error_bind])
          | ok bs =>
              rw [hm] at heq
              simp only [except_ok_bind, except_pure] at heq
              cases heq
              simp only [List.length_cons]
              rw [ih bs hm]

theorem mapM_ok_mem {α β : Type} (f : α → Except PyErr β) :
    ∀ (xs : List α) (ys : List β), xs.mapM f = .ok ys →
      ∀ y ∈ ys, ∃ x ∈ xs, f x = .ok y := by
  intro xs
  induction xs with
  | nil =>
      intro ys heq y hy
      rw [List.mapM_nil, except_pure] at heq
      cases heq
      cases hy
  | cons a as ih =>
      intro ys heq y hy
      rw [List.mapM_cons] at heq
      cases hf : f a with
      | error e =>
          rw [hf] at heq
          exact absurd heq (by simp [except_error_bind])
      | ok b =>
          rw [hf] at heq
          simp only [except_ok_bind] at heq
          cases hm : as.mapM f with
          | error e =>
              rw [hm] at heq
              exact absurd heq (by simp [except_error_bind])
          | ok bs =>
              rw [hm] at heq
              simp only [except_ok_bind, except_pure] at heq
              cases heq
              cases List.mem_cons.mp hy with
              | inl h => exact ⟨a, by simp, h ▸ hf⟩
              | inr h =>
                  obtain ⟨x, hx, hfx⟩ := ih bs hm y h
                  exact ⟨x, by simp [hx], hfx⟩

theorem setEntry_dims (m0 : Mat) (r c : Nat) (v : Bool) (S K : Nat)
    (h : m0.length = S ∧ ∀ row ∈ m0, row.length = K) :
    (setEntry m0 r c v).length = S ∧ ∀ row ∈ setEntry m0 r c v, row.length = K := by
  unfold setEntry
  cases hg : m0[r]? with
  | none => exact h
  | some row =>
      have hrm : row ∈ m0 := mem_of_getElem?_mat m0 r row hg
      refine ⟨by rw [List.length_set]; exact h.1, ?_⟩
      intro row1 hrow1
      rcases List.mem_or_eq_of_mem_set hrow1 with hmem | heq2
      · exact h.2 row1 hmem
      · rw [heq2, List.length_set]
        exact h.2 row hrm

theorem ldpc_dims (k s : Nat) :
    (ldpc k s).length = s ∧ ∀ row ∈ ldpc k s, row.length = k := by
  unfold ldpc
  refine foldl_invariant _
    (fun (mm : Mat) => mm.length = s ∧ ∀ row ∈ mm, row.length = k)
    _ _ ⟨by rw [List.length_replicate], ?_⟩ ?_
  · intro row hrow
    rw [List.eq_of_mem_replicate hrow, List.length_replicate]
  · intro i _ t ht
    exact setEntry_dims _ _ _ _ _ _ (setEntry_dims _ _ _ _ _ _
      (setEntry_dims _ _ _ _ _ _ ht))

theorem matZeros_dims (r c : Nat) :
    (matZeros r c).length = r ∧ ∀ row ∈ matZeros r c, row.length = c := by
  unfold matZeros
  refine ⟨by rw [List.length_replicate], ?_⟩
  intro row hrow
  rw [List.eq_of_mem_replicate hrow, List.length_replicate]

theorem halfMatrix_dims (T : Tables) (k S H HH : Nat) :
    (halfMatrix T k S H HH).length = H ∧
    ∀ row ∈ halfMatrix T k S H HH, row.length = k + S := by
  unfold halfMatrix
  refine ⟨by rw [List.length_map, List.length_range], ?_⟩
  intro row hrow
  obtain ⟨i, _, hi⟩ := List.mem_map.mp hrow
  rw [← hi, List.length_map, List.length_range]

theorem ldpc_section_dims (self : RaptorR10) :
    (ldpc_section self).length = self.s ∧
    ∀ row ∈ ldpc_section self, row.length = self.k + self.s + self.h := by
  unfold ldpc_section
  refine ⟨by rw [List.length_map, List.length_range], ?_⟩
  intro row hrow
  obtain ⟨i, hi0, hi⟩ := List.mem_map.mp hrow
  have his : i < self.s := by
    have := List.mem_range.mp hi0
    omega
  rw [← hi]
  rw [List.length_append, List.length_append]
  have h1 : ((ldpc self.k self.s).getD i []).length = self.k := by
    have hd := ldpc_dims self.k self.s
    exact hd.2 _ (getD_mem _ i [] (by omega))
  have h2 : ((matIdentity self.s).getD i []).length = self.s := by
    exact matIdentity_rows self.s _ (getD_mem _ i [] (by rw [matIdentity_length]; omega))
  have h3 : ((matZeros self.s self.h).getD i []).length = self.h := by
    have hd := matZeros_dims self.s self.h
    exact hd.2 _ (getD_mem _ i [] (by omega))
  rw [h1, h2, h3]

theorem hdpc_section_dims (T : Tables) (self : RaptorR10) :
    (hdpc_section T self).length = self.h ∧
    ∀ row ∈ hdpc_section T self, row.length = self.k + self.s + self.h := by
  unfold hdpc_section
  refine ⟨by rw [List.length_map, List.length_range], ?_⟩
  intro row hrow
  obtain ⟨i, hi0, hi⟩ := List.mem_map.mp hrow
  have his : i < self.h := by
    have := List.mem_range.mp hi0
    omega
  rw [← hi, List.length_append]
  have h1 : ((halfMatrix T self.k self.s self.h self.h_prime).getD i []).length
      = self.k + self.s := by
    have hd := halfMatrix_dims T self.k self.s self.h self.h_prime
    exact hd.2 _ (getD_mem _ i [] (by omega))
  have h2 : ((matIdentity self.h).getD i []).length = self.h := by
    exact matIdentity_rows self.h _ (getD_mem _ i [] (by rw [matIdentity_length]; omega))
  rw [h1, h2]

theorem lt_row_length (T : Tables) (self : RaptorR10) (esi : Nat) (row : Row)
    (heq : lt_row T self esi = .ok row) : row.length = self.l := by
  unfold lt_row at heq
  cases ht : triple T self esi with
  | error e =>
      rw [ht] at heq
      exact absurd heq (by simp [except_error_bind])
  | ok t =>
      rw [ht] at heq
      simp only [except_ok_bind] at heq
      cases hlp : self.l_prime with
      | none =>
          rw [hlp] at heq
          cases heq
      | some lp =>
          rw [hlp] at heq
          dsimp only at heq
          cases hc : ltCols self.l lp t.1 t.2.1 t.2.2 with
          | error e =>
              rw [hc] at heq
              exact absurd heq (by simp [except_error_bind])
          | ok cols =>
              rw [hc] at heq
              simp only [except_ok_bind, except_pure] at heq
              cases heq
              rw [List.length_map, List.length_range]

theorem a_matrix_dims (T : Tables) (self : RaptorR10) (A0 : Mat)
    (hl : self.l = self.k + self.s + self.h)
    (heq : a_matrix T self = .ok A0) :
    A0.length = self.s + self.h + self.symbols.length ∧
    ∀ row ∈ A0, row.length = self.l := by
  unfold a_matrix lt_section at heq
  cases hlt : self.symbols.mapM (fun idp => lt_row T self idp.1) with
  | error e =>
      rw [hlt] at heq
      exact absurd heq (by simp [except_error_bind])
  | ok lt =>
      rw [hlt] at heq
      simp only [except_ok_bind, except_pure] at heq
      cases heq
      have hltlen : lt.length = self.symbols.length := mapM_ok_length _ _ _ hlt
      constructor
      · rw [List.length_append, List.length_append,
          (ldpc_section_dims self).1, (hdpc_section_dims T self).1, hltlen]
      · intro row hrow
        rcases List.mem_append.mp hrow with h1 | h2
        · rcases List.mem_append.mp h1 with h3 | h4
          · rw [(ldpc_section_dims self).2 row h3]
            omega
          · rw [(hdpc_section_dims T self).2 row h4]
            omega
        · obtain ⟨x, _, hfx⟩ := mapM_ok_mem _ _ _ hlt row h2
          exact lt_row_length T self x.1 row hfx

theorem calculate_d_spec (self : RaptorR10) (W : Nat) (D0 : List Payload)
    (hsymW : ∀ p ∈ self.symbols, p.2.length = W)
    (heq : calculate_d self = .ok D0) :
    D0.length = self.s + self.h + self.symbols.length ∧
    ∀ p ∈ D0, p.length = W := by
  unfold calculate_d at heq
  cases hg : lget self.symbols 0 with
  | error e =>
      rw [hg] at heq
      exact absurd heq (by simp [except_error_bind])
  | ok firstSym =>
      rw [hg] at heq
      simp only [except_ok_bind, except_pure] at heq
      cases heq
      have hb0 : 0 < self.symbols.length := lget_ok_bound _ _ _ hg
      have hfw : firstSym.2.length = W := by
        have hmem : firstSym ∈ self.symbols := by
          rw [← lget_ok_eq self.symbols 0 firstSym firstSym hg]
          exact getD_mem _ 0 _ hb0
        exact hsymW firstSym hmem
      constructor
      · rw [List.length_append, List.length_replicate, List.length_map]
      · intro p hp
        rcases List.mem_append.mp hp with h1 | h2
        · rw [List.eq_of_mem_replicate h1, List.length_replicate]
          exact hfw
        · obtain ⟨x, hx, hpx⟩ := List.mem_map.mp h2
          rw [← hpx]
          exact hsymW x hx

theorem delta_sum (n : Nat) (g : Nat → ZMod 2) (r : Nat) (hr : r < n) :
    ∑ q ∈ Finset.range n, bval (decide (r = q)) * g q = g r := by
  rw [Finset.sum_eq_single_of_mem r (Finset.mem_range.mpr hr)]
  · rw [show (decide (r = r) : Bool) = true from by simp, bval_true, one_mul]
  · intro b _ hbr
    rw [show (decide (r = b) : Bool) = false from by
      simp only [decide_eq_false_iff_not]
      exact fun h => hbr h.symm, bval_false, zero_mul]

theorem inj_image_range (f : Nat → Nat) (l : Nat) (hinj : Function.Injective f)
    (hmap : ∀ c, c < l → f c < l) :
    (Finset.range l).image f = Finset.range l := by
  apply Finset.eq_of_subset_of_card_le
  · intro x hx
    obtain ⟨y, hy, hyx⟩ := Finset.mem_image.mp hx
    rw [Finset.mem_range] at hy ⊢
    rw [← hyx]
    exact hmap y hy
  · rw [Finset.card_image_of_injective _ hinj]

theorem getD_oob (p : Payload) (t : Nat) (h : p.length ≤ t) :
    p.getD t false = false := by
  rw [List.getD_eq_getElem?_getD, List.getElem?_eq_none h]
  rfl

theorem replayCoef_def (xs : List (Nat × Nat)) :
    replayCoef xs = xs.foldl coefStep (fun t q => decide (t = q)) := rfl

/-- Master uniqueness theorem: when the received payloads are consistent
with an intermediate block `I` over the assembled system `A * I = D`, a
successful `calculate_i_symbols` recovers exactly `I`. -/
theorem calc_isym_exact (T : Tables) (self : RaptorR10) (I : List Payload) (W : Nat)
    (self' : RaptorR10)
    (hl : self.l = self.k + self.s + self.h)
    (hml : self.l ≤ self.s + self.h + self.symbols.length)
    (h0l : 0 < self.l)
    (hIlen : I.length = self.l)
    (hIW : ∀ p ∈ I, p.length = W)
    (hsymW : ∀ p ∈ self.symbols, p.2.length = W)
    (hcons : ∀ A0 D0, a_matrix T self = .ok A0 → calculate_d self = .ok D0 →
      ∀ q, q < self.s + self.h + self.symbols.length → ∀ t, t < W →
        bval ((D0.getD q []).getD t false) =
          ∑ c ∈ Finset.range self.l,
            bval (entry A0 q c) * bval ((I.getD c []).getD t false))
    (hsucc : calculate_i_symbols T self = .ok self') :
    self'.i_symbols = I.map some := by
  unfold calculate_i_symbols at hsucc
  by_cases hguard : self.symbols.length < self.k
  · rw [if_pos hguard] at hsucc
    cases hsucc
  · rw [if_neg hguard] at hsucc
    cases hA : a_matrix T self with
    | error e =>
        rw [hA] at hsucc
        exact absurd hsucc (by simp [except_error_bind])
    | ok A0 =>
        rw [hA] at hsucc
        simp only [except_ok_bind] at hsucc
        cases hDS : decoding_schedule self A0 with
        | error e =>
            rw [hDS] at hsucc
            exact absurd hsucc (by simp [except_error_bind])
        | ok sm =>
            rw [hDS] at hsucc
            simp only [except_ok_bind] at hsucc
            cases hD : calculate_d self with
            | error e =>
                rw [hD] at hsucc
                exact absurd hsucc (by simp [except_error_bind])
            | ok D0 =>
                rw [hD] at hsucc
                simp only [except_ok_bind] at hsucc
                obtain ⟨hA0len, hA0rows⟩ := a_matrix_dims T self A0 hl hA
                obtain ⟨hD0len, hD0W⟩ := calculate_d_spec self W D0 hsymW hD
                have hident : sm.2 = matIdentity self.l :=
                  decoding_schedule_identity self A0 sm.1 sm.2 hA0len hA0rows hl
                    (by omega) hDS
                obtain ⟨hflen, hfrows, hinjR, hinjC, hmapR, hmapC, hxb, hinv⟩ :=
                  decoding_schedule_algebra self A0 sm.1 sm.2 hA0len hA0rows hml
                    h0l hDS
                have hconsAll : ∀ q, q < self.s + self.h + self.symbols.length →
                    ∀ t, bval ((D0.getD q []).getD t false) =
                      ∑ c ∈ Finset.range self.l,
                        bval (entry A0 q c) * bval ((I.getD c []).getD t false) := by
                  intro q hq t
                  by_cases ht : t < W
                  · exact hcons A0 D0 hA hD q hq t ht
                  · rw [getD_oob _ t (by
                      rw [hD0W _ (getD_mem D0 q [] (by omega))]
                      omega)]
                    rw [bval_false]
                    symm
                    apply Finset.sum_eq_zero
                    intro c hc
                    rw [getD_oob _ t (by
                      rw [hIW _ (getD_mem I c [] (by
                        rw [hIlen]
                        exact Finset.mem_range.mp hc))]
                      omega)]
                    rw [bval_false, mul_zero]
                cases hRep : sm.1.xors.foldlM
                    (fun (D : List Payload) (p : Nat × Nat) => do
                      let src ← lget D p.1
                      let tgt ← lget D p.2
                      lset D p.2 (xor_arrays src tgt)) D0 with
                | error e =>
                    rw [hRep] at hsucc
                    exact absurd hsucc (by simp [except_error_bind])
                | ok D1 =>
                    rw [hRep] at hsucc
                    simp only [except_ok_bind] at hsucc
                    obtain ⟨hD1len, hD1W, hD1rel⟩ := replay_fold_spec W D0
                      sm.1.xors D0 (fun t q => decide (t = q)) rfl hD0W
                      (fun p hp => by
                        have := hxb p hp
                        omega)
                      (fun tq t htq => by
                        symm
                        exact delta_sum D0.length
                          (fun q => bval ((D0.getD q []).getD t false)) tq htq)
                      D1 hRep
                    have hkey : ∀ r c, r < self.l → c < self.l →
                        ∑ q ∈ Finset.range (self.s + self.h + self.symbols.length),
                          bval (replayCoef sm.1.xors (sm.1.row_perm r) q) *
                            bval (entry A0 q (sm.1.col_perm c)) =
                          bval (decide (r = c)) := by
                      intro r c hr hc
                      rw [← hinv r c hr, hident, matIdentity_entry]
                      have hd1 : (decide (r < self.l)) = true := by simp [hr]
                      have hd2 : (decide (c < self.l)) = true := by simp [hc]
                      rw [hd1, hd2, Bool.and_true, Bool.and_true]
                    have hval : ∀ i, i < self.l →
                        D1.getD (sm.1.row_perm i) [] = I.getD (sm.1.col_perm i) [] := by
                      intro i hi
                      apply payload_ext
                      · rw [hD1W _ (getD_mem D1 (sm.1.row_perm i) [] (by
                          rw [hD1len, hD0len]
                          exact hmapR i (by omega))),
                          hIW _ (getD_mem I (sm.1.col_perm i) [] (by
                            rw [hIlen]
                            exact hmapC i hi))]
                      · intro t
                        apply bval_inj
                        rw [hD1rel (sm.1.row_perm i) t (by
                          rw [hD0len]
                          exact hmapR i (by omega))]
                        rw [← replayCoef_def]
                        calc ∑ q ∈ Finset.range D0.length,
                              bval (replayCoef sm.1.xors (sm.1.row_perm i) q) *
                                bval ((D0.getD q []).getD t false)
                            = ∑ q ∈ Finset.range
                                (self.s + self.h + self.symbols.length),
                                bval (replayCoef sm.1.xors (sm.1.row_perm i) q) *
                                  (∑ c ∈ Finset.range self.l,
                                    bval (entry A0 q c) *
                                      bval ((I.getD c []).getD t false)) := by
                              rw [hD0len]
                              apply Finset.sum_congr rfl
                              intro q hq
                              rw [hconsAll q (Finset.mem_range.mp hq) t]
                          _ = ∑ q ∈ Finset.range
                                (self.s + self.h + self.symbols.length),
                                ∑ c ∈ Finset.range self.l,
                                  bval (replayCoef sm.1.xors (sm.1.row_perm i) q) *
                                    (bval (entry A0 q c) *
                                      bval ((I.getD c []).getD t false)) := by
                              apply Finset.sum_congr rfl
                              intro q _
                              rw [Finset.mul_sum]
                          _ = ∑ c ∈ Finset.range self.l,
                                ∑ q ∈ Finset.range
                                  (self.s + self.h + self.symbols.length),
                                  bval (replayCoef sm.1.xors (sm.1.row_perm i) q) *
                                    (bval (entry A0 q c) *
                                      bval ((I.getD c []).getD t false)) :=
                              Finset.sum_comm
                          _ = ∑ c ∈ Finset.range self.l,
                                (∑ q ∈ Finset.range
                                  (self.s + self.h + self.symbols.length),
                                  bval (replayCoef sm.1.xors (sm.1.row_perm i) q) *
                                    bval (entry A0 q c)) *
                                  bval ((I.getD c []).getD t false) := by
                              apply Finset.sum_congr rfl
                              intro c _
                              rw [Finset.sum_mul]
                              apply Finset.sum_congr rfl
                              intro q _
                              rw [mul_assoc]
                          _ = ∑ c ∈ Finset.range self.l,
                                (∑ q ∈ Finset.range
                                  (self.s + self.h + self.symbols.length),
                                  bval (replayCoef sm.1.xors (sm.1.row_perm i) q) *
                                    bval (entry A0 q (sm.1.col_perm c))) *
                                  bval ((I.getD (sm.1.col_perm c) []).getD t false) := by
                              conv_lhs => rw [← inj_image_range sm.1.col_perm self.l
                                hinjC hmapC]
                              exact Finset.sum_image (fun x _ y _ h => hinjC h)
                          _ = ∑ c ∈ Finset.range self.l,
                                bval (decide (i = c)) *
                                  bval ((I.getD (sm.1.col_perm c) []).getD t false) := by
                              apply Finset.sum_congr rfl
                              intro c hc
                              rw [hkey i c hi (Finset.mem_range.mp hc)]
                          _ = bval ((I.getD (sm.1.col_perm i) []).getD t false) :=
                              delta_sum self.l
                                (fun c => bval ((I.getD (sm.1.col_perm c) []).getD t false))
                                i hi
                    cases hPl : (List.range self.l).foldlM
                        (fun (isym : List (Option Payload)) (i : Nat) => do
                          let dv ← lget D1 (sm.1.d i)
                          lset isym (sm.1.c i) (some dv))
                        (List.replicate self.l (none : Option Payload)) with
                    | error e =>
                        rw [hPl] at hsucc
                        exact absurd hsucc (by simp [except_error_bind])
                    | ok isym =>
                        rw [hPl] at hsucc
                        simp only [except_ok_bind, except_pure] at hsucc
                        have hself : self' =
                            { self with
                                i_symbols := isym,
                                xors := sm.1.xors.length } :=
                          (Except.ok.inj hsucc).symm
                        obtain ⟨hplen, hpun, hpval⟩ := placement_fold_spec D1 sm.1
                          (List.range self.l) (List.replicate self.l none)
                          (List.nodup_range _)
                          (fun i1 _ i2 _ h => hinjC h)
                          (fun i hi => ⟨by
                            rw [List.length_replicate]
                            exact hmapC i (List.mem_range.mp hi), by
                            rw [hD1len, hD0len]
                            have := List.mem_range.mp hi
                            exact hmapR i (by omega)⟩)
                          isym hPl
                        rw [hself]
                        show isym = I.map some
                        apply List.ext_getElem
                        · rw [hplen, List.length_replicate, List.length_map, hIlen]
                        · intro j h1 h2
                          have hjl : j < self.l := by
                            rw [hplen, List.length_replicate] at h1
                            exact h1
                          obtain ⟨i, hil, hgi⟩ := inj_map_into_surj sm.1.col_perm
                            self.l hinjC hmapC j hjl
                          have hslot := hpval i (List.mem_range.mpr hil)
                          have hci : sm.1.c i = j := hgi
                          rw [hci] at hslot
                          have hgj : isym.getD j none = isym[j] :=
                            List.getD_eq_getElem isym none h1
                          have hvi := hval i hil
                          rw [hgj] at hslot
                          rw [hslot]
                          show some (D1.getD (sm.1.row_perm i) []) = _
                          rw [hvi, hgi]
                          have hj2 : j < I.length := by
                            rw [hIlen]
                            exact hjl
                          rw [List.getD_eq_getElem I [] hj2, List.getElem_map]

theorem a_matrix_prepass (T : Tables) (self : RaptorR10) (b : Bool) :
    a_matrix T { self with use_prepass := b } = a_matrix T self := rfl

theorem calculate_d_prepass (self : RaptorR10) (b : Bool) :
    calculate_d { self with use_prepass := b } = calculate_d self := rfl

theorem ltenc_congr (T : Tables) (s1 s2 : RaptorR10) (id : Nat)
    (h1 : s1.l = s2.l) (h2 : s1.l_prime = s2.l_prime)
    (h3 : s1.systematic_index = s2.systematic_index)
    (h4 : s1.i_symbols = s2.i_symbols) :
    ltenc T s1 id = ltenc T s2 id := by
  unfold ltenc triple
  rw [h1, h2, h3, h4]

theorem calc_isym_fields (T : Tables) (self self' : RaptorR10)
    (hsucc : calculate_i_symbols T self = .ok self') :
    self'.l = self.l ∧ self'.l_prime = self.l_prime ∧
      self'.systematic_index = self.systematic_index := by
  unfold calculate_i_symbols at hsucc
  by_cases hguard : self.symbols.length < self.k
  · rw [if_pos hguard] at hsucc
    cases hsucc
  · rw [if_neg hguard] at hsucc
    cases hA : a_matrix T self with
    | error e =>
        rw [hA] at hsucc
        exact absurd hsucc (by simp [except_error_bind])
    | ok A0 =>
        rw [hA] at hsucc
        simp only [except_ok_bind] at hsucc
        cases hDS : decoding_schedule self A0 with
        | error e =>
            rw [hDS] at hsucc
            exact absurd hsucc (by simp [except_error_bind])
        | ok sm =>
            rw [hDS] at hsucc
            simp only [except_ok_bind] at hsucc
            cases hD : calculate_d self with
            | error e =>
                rw [hD] at hsucc
                exact absurd hsucc (by simp [except_error_bind])
            | ok D0 =>
                rw [hD] at hsucc
                simp only [except_ok_bind] at hsucc
                cases hRep : sm.1.xors.foldlM
                    (fun (D : List Payload) (p : Nat × Nat) => do
                      let src ← lget D p.1
                      let tgt ← lget D p.2
                      lset D p.2 (xor_arrays src tgt)) D0 with
                | error e =>
                    rw [hRep] at hsucc
                    exact absurd hsucc (by simp [except_error_bind])
                | ok D1 =>
                    rw [hRep] at hsucc
                    simp only [except_ok_bind] at hsucc
                    cases hPl : (List.range self.l).foldlM
                        (fun (isym : List (Option Payload)) (i : Nat) => do
                          let dv ← lget D1 (sm.1.d i)
                          lset isym (sm.1.c i) (some dv))
                        (List.replicate self.l (none : Option Payload)) with
                    | error e =>
                        rw [hPl] at hsucc
                        exact absurd hsucc (by simp [except_error_bind])
                    | ok isym =>
                        rw [hPl] at hsucc
                        simp only [except_ok_bind, except_pure] at hsucc
                        have hself : self' =
                            { self with
                                i_symbols := isym,
                                xors := sm.1.xors.length } :=
                          (Except.ok.inj hsucc).symm
                        rw [hself]
                        exact ⟨rfl, rfl, rfl⟩

theorem c6w_consistent : ∀ A0 D0, a_matrix demoTables c6wSelf = .ok A0 →
    calculate_d c6wSelf = .ok D0 →
    ∀ q, q < c6wSelf.s + c6wSelf.h + c6wSelf.symbols.length → ∀ t, t < 1 →
      bval ((D0.getD q []).getD t false) =
        ∑ c ∈ Finset.range c6wSelf.l,
          bval (entry A0 q c) * bval ((c6wI.getD c []).getD t false) := by
  intro A0 D0 hA hD
  have hAopt : (a_matrix demoTables c6wSelf).toOption = some c6wA := by decide
  rw [hA] at hAopt
  have hA2 : some A0 = some c6wA := hAopt
  injection hA2 with hA3
  subst hA3
  have hDopt : (calculate_d c6wSelf).toOption = some c6wD := by decide
  rw [hD] at hDopt
  have hD2 : some D0 = some c6wD := hDopt
  injection hD2 with hD3
  subst hD3
  intro q hq t ht
  have hq14 : q < 14 := by
    have h14 : c6wSelf.s + c6wSelf.h + c6wSelf.symbols.length = 14 := by decide
    omega
  interval_cases t
  interval_cases q <;> decide

/-- C6 (amended): prepass safety holds for consistent receptions - for an
instance whose received payloads are consistent with an intermediate block
`I` over the assembled system (`A * I = D` over `GF(2)`), whenever
`calculate_i_symbols` succeeds both with and without the prepass, the two
runs recover bit-identical intermediate symbols (both equal `I`).  (The
original claim, quantifying over every reception from which decoding
succeeds, is refuted by `C6_counterexample`: on an inconsistent reception
both runs can succeed with different symbols.) -/
theorem C6_prepass_safety (T : Tables) (self : RaptorR10) (I : List Payload) (W : Nat)
    (sT sF : RaptorR10)
    (hl : self.l = self.k + self.s + self.h)
    (hml : self.l ≤ self.s + self.h + self.symbols.length)
    (h0l : 0 < self.l)
    (hIlen : I.length = self.l)
    (hIW : ∀ p ∈ I, p.length = W)
    (hsymW : ∀ p ∈ self.symbols, p.2.length = W)
    (hcons : ∀ A0 D0, a_matrix T self = .ok A0 → calculate_d self = .ok D0 →
      ∀ q, q < self.s + self.h + self.symbols.length → ∀ t, t < W →
        bval ((D0.getD q []).getD t false) =
          ∑ c ∈ Finset.range self.l,
            bval (entry A0 q c) * bval ((I.getD c []).getD t false))
    (hT : calculate_i_symbols T { self with use_prepass := true } = .ok sT)
    (hF : calculate_i_symbols T { self with use_prepass := false } = .ok sF) :
    sT.i_symbols = sF.i_symbols := by
  have h1 : sT.i_symbols = I.map some :=
    calc_isym_exact T { self with use_prepass := true } I W sT hl hml h0l hIlen hIW
      hsymW
      (fun A0 D0 hA hD => by
        rw [a_matrix_prepass] at hA
        rw [calculate_d_prepass] at hD
        exact hcons A0 D0 hA hD) hT
  have h2 : sF.i_symbols = I.map some :=
    calc_isym_exact T { self with use_prepass := false } I W sF hl hml h0l hIlen hIW
      hsymW
      (fun A0 D0 hA hD => by
        rw [a_matrix_prepass] at hA
        rw [calculate_d_prepass] at hD
        exact hcons A0 D0 hA hD) hF
  rw [h1, h2]

/-- C6 witness: on the consistent 4-source reception `c6wSelf` both
prepass modes succeed and recover the same intermediate symbols. -/
theorem C6_witness : ∃ sT sF,
    calculate_i_symbols demoTables { c6wSelf with use_prepass := true } = .ok sT ∧
    calculate_i_symbols demoTables { c6wSelf with use_prepass := false } = .ok sF ∧
    sT.i_symbols = sF.i_symbols := by
  cases hT : calculate_i_symbols demoTables { c6wSelf with use_prepass := true } with
  | error e =>
      exfalso
      have hok : (calculate_i_symbols demoTables
          { c6wSelf with use_prepass := true }).isOk = true := by decide
      rw [hT] at hok
      cases hok
  | ok sT =>
      cases hF : calculate_i_symbols demoTables { c6wSelf with use_prepass := false } with
      | error e =>
          exfalso
          have hok : (calculate_i_symbols demoTables
              { c6wSelf with use_prepass := false }).isOk = true := by decide
          rw [hF] at hok
          cases hok
      | ok sF =>
          refine ⟨sT, sF, rfl, rfl, ?_⟩
          exact C6_prepass_safety demoTables c6wSelf c6wI 1 sT sF (by decide) (by decide)
            (by decide) (by decide) (by decide) (by decide) c6w_consistent hT hF

set_option maxHeartbeats 3200000 in
/-- C6 counterexample: on the inconsistent reception `c6divSelf` (seven
received payloads at the ESIs 11, 0, 21, 10, 16, 9, 2) the schedule
construction succeeds both with and without the prepass, yet the two runs
recover different intermediate symbols - refuting the original claim,
which quantifies over every reception from which decoding succeeds.  The
two middle conjuncts certify that the divergence does not depend on the
modelled `set.pop` / networkx order: in each mode Phase I exits with
`(i, u) = (14, 0)`, and since `u` accumulates `r - 1` over the iterations,
every one of the 14 iterations chose a row with `r = 1` - so every
alignment `ones` set is a singleton (every `set.pop` is forced),
`row_from_graph` is never called (only `r = 2` reaches it), and all other
iteration in `decoding_schedule`, `rows_with_min_r`, `min_degree_row` and
`prepass` is over lists and `xrange` in CPython's defined order; the real
interpreter therefore follows this exact trace in both modes. -/
theorem C6_counterexample :
    (calculate_i_symbols demoTables { c6divSelf with use_prepass := true }).isOk = true ∧
    ((a_matrix demoTables c6divSelf).bind (fun a =>
      (prepass ⟨a, a.map bcount,
          Schedule.init c6divSelf.l
            (c6divSelf.s + c6divSelf.h + c6divSelf.symbols.length)⟩).bind (fun st =>
        (phase1 (c6divSelf.s + c6divSelf.h + c6divSelf.symbols.length) c6divSelf.l
            (c6divSelf.l + 1) 0 0 st).map
          (fun p => (p.2.1, p.2.2))))).toOption = some (14, 0) ∧
    ((a_matrix demoTables c6divSelf).bind (fun a =>
      (phase1 (c6divSelf.s + c6divSelf.h + c6divSelf.symbols.length) c6divSelf.l
          (c6divSelf.l + 1) 0 0
          ⟨a, a.map bcount,
           Schedule.init c6divSelf.l
             (c6divSelf.s + c6divSelf.h + c6divSelf.symbols.length)⟩).map
        (fun p => (p.2.1, p.2.2)))).toOption = some (14, 0) ∧
    (calculate_i_symbols demoTables { c6divSelf with use_prepass := false }).isOk = true ∧
    (calculate_i_symbols demoTables { c6divSelf with use_prepass := true }).toOption.map
        RaptorR10.i_symbols ≠
      (calculate_i_symbols demoTables { c6divSelf with use_prepass := false }).toOption.map
        RaptorR10.i_symbols :=
  ⟨by decide, by decide, by decide, by decide, by decide⟩

/-- C1 (amended): round-trip for consistent receptions - when the received
payloads are consistent with an intermediate block `I` over the assembled
system (`A * I = D` over `GF(2)`, the defining property of a reception
produced by LT-encoding the source block whose precode solution is `I`)
and `calculate_i_symbols` succeeds, the recovered intermediate symbols are
exactly `I`, and re-encoding any ESI from the recovered instance
reproduces the LT encoding of `I` at that ESI bit-identically - in
particular the ESIs 0..K-1 reproduce the original source symbols.  (The
original claim asserts unconditionally that the construction succeeds for
every N >= K reception with distinct ESIs; `C1_counterexample` refutes
that with a genuine 4-ESI encoding on which the schedule fails.) -/
theorem C1_round_trip (T : Tables) (self : RaptorR10) (I : List Payload) (W : Nat)
    (self' : RaptorR10)
    (hl : self.l = self.k + self.s + self.h)
    (hml : self.l ≤ self.s + self.h + self.symbols.length)
    (h0l : 0 < self.l)
    (hIlen : I.length = self.l)
    (hIW : ∀ p ∈ I, p.length = W)
    (hsymW : ∀ p ∈ self.symbols, p.2.length = W)
    (hcons : ∀ A0 D0, a_matrix T self = .ok A0 → calculate_d self = .ok D0 →
      ∀ q, q < self.s + self.h + self.symbols.length → ∀ t, t < W →
        bval ((D0.getD q []).getD t false) =
          ∑ c ∈ Finset.range self.l,
            bval (entry A0 q c) * bval ((I.getD c []).getD t false))
    (hsucc : calculate_i_symbols T self = .ok self') :
    self'.i_symbols = I.map some ∧
      ∀ id, ltenc T self' id = ltenc T { self with i_symbols := I.map some } id := by
  have h1 : self'.i_symbols = I.map some :=
    calc_isym_exact T self I W self' hl hml h0l hIlen hIW hsymW hcons hsucc
  obtain ⟨hfl, hfp, hfs⟩ := calc_isym_fields T self self' hsucc
  exact ⟨h1, fun id =>
    ltenc_congr T self' { self with i_symbols := I.map some } id hfl hfp hfs h1⟩

/-- C1 witness: decoding the consistent 4-source reception `c6wSelf`
succeeds, recovers exactly the intermediate block `c6wI`, and re-encoding
from the recovered instance agrees with LT-encoding `c6wI` at every
ESI. -/
theorem C1_witness : ∃ s',
    calculate_i_symbols demoTables c6wSelf = .ok s' ∧
    s'.i_symbols = c6wI.map some ∧
    ∀ id, ltenc demoTables s' id =
      ltenc demoTables { c6wSelf with i_symbols := c6wI.map some } id := by
  cases hres : calculate_i_symbols demoTables c6wSelf with
  | error e =>
      exfalso
      have hok : (calculate_i_symbols demoTables c6wSelf).isOk = true := by decide
      rw [hres] at hok
      cases hok
  | ok s' =>
      refine ⟨s', rfl, ?_⟩
      exact C1_round_trip demoTables c6wSelf c6wI 1 s' (by decide) (by decide)
        (by decide) (by decide) (by decide) (by decide) c6w_consistent hres

/-- C1 counterexample: the four payloads of `c1divSelf` are genuine LT
encodings, at the distinct ESIs 0, 1, 4 and 5, of the intermediate block
`c6wI` (itself the precode solution of a real 4-source block), and the
instance holds N = K = 4 received symbols - yet the decoding-schedule
construction fails, so no intermediate symbols are recovered at all. -/
theorem C1_counterexample :
    (ltenc demoTables c1encSelf 0).toOption = some [true] ∧
    (ltenc demoTables c1encSelf 1).toOption = some [false] ∧
    (ltenc demoTables c1encSelf 4).toOption = some [false] ∧
    (ltenc demoTables c1encSelf 5).toOption = some [true] ∧
    c1divSelf.symbols = [(0, [true]), (1, [false]), (4, [false]), (5, [true])] ∧
    c1divSelf.k ≤ c1divSelf.symbols.length ∧
    (calculate_i_symbols demoTables c1divSelf).isOk = false ∧
    can_decode demoTables c1divSelf = false :=
  ⟨by decide, by decide, by decide, by decide, by decide, by decide, by decide, by decide⟩

end Raptor
